import Mathlib

/-!
# Dockerfile stage dependencies (pkg/build/stage/dockerfile.go)

A shallow embedding of the stage dependency and digest resolution engine:
the variable scopes of `DockerStages`, the word resolution helpers, the
per-instruction dependency extractor and the two passes of
`DockerfileStage.GetDependencies`.

Conventions of the embedding.

* A Go `map[string]string` is an association list with unique keys; a write
  replaces the value in place or appends a new pair.  Go leaves the iteration
  order of a map unspecified; the list order is the iteration order of the model.
* `map[int]map[string]string` is an association list from stage index to a map.
  A missing entry and an empty map are the same thing for the program, because the
  field is only reached through `DockerStageArgsHash` / `DockerStageEnvs`, which
  create the empty map on first access.
* Functions of other packages (the buildkit shell lexer and instruction parser,
  the git checksum provider, the giterminism inspector, the hash) are fields of
  `Env`.
* `error` results are `Except Fault`; a Go panic is `Fault.panic`.
-/

namespace Werf

/-- Failure of a computation: a Go `error` value, a Go panic, or the recursion budget of
the model running out (the Go program would not return). -/
inductive Fault where
  | error (msg : String)
  | panic (msg : String)
  | outOfFuel
deriving DecidableEq, Repr

/-- The model of `fmt.Errorf("<text>: %s", err)`. -/
def Fault.wrap (text : String) : Fault → Fault
  | .error msg => .error (text ++ msg)
  | f => f

/-- A Go `map[string]string`. -/
abbrev StrMap := List (String × String)

/-- The write `m[k] = v` on an association list. -/
def assocSet {α β : Type} [DecidableEq α] : List (α × β) → α → β → List (α × β)
  | [], k, v => [(k, v)]
  | (k1, v1) :: rest, k, v =>
    if k1 = k then (k, v) :: rest else (k1, v1) :: assocSet rest k v

/-- The read `m[k]` of a Go `map[string]string`: the zero value when the key is absent. -/
def mapGet (m : StrMap) (k : String) : String := (m.lookup k).getD ""

/-- A Go `map[int]map[string]string`. -/
abbrev StageMaps := List (Nat × StrMap)

/-- The map of one stage; the empty map when the stage has none yet. -/
def stageGet (m : StageMaps) (dockerStageID : Nat) : StrMap := (m.lookup dockerStageID).getD []

/-- The write `m[dockerStageID][k] = v`, the map of the stage being created when absent. -/
def stageSet (m : StageMaps) (dockerStageID : Nat) (k v : String) : StageMaps :=
  assocSet m dockerStageID (assocSet (stageGet m dockerStageID) k v)

/-- Type `instructions.KeyValuePairOptional`. -/
structure KeyValuePairOptional where
  Key : String
  Value : Option String
deriving DecidableEq, Repr

/-- Type `instructions.KeyValuePair`. -/
structure KeyValuePair where
  Key : String
  Value : String
deriving DecidableEq, Repr

/-- The instruction kinds told apart by the type switch of
`dockerfileInstructionDependencies`.  `text` is the value of `String()`;
`Other` is any further instruction with a textual form; `Unknown` is a value
that is no instruction at all (the `default` branch). -/
inductive Command where
  | ArgCommand (Args : List KeyValuePairOptional)
  | EnvCommand (Env : List KeyValuePair)
  | AddCommand (text : String) (sources : List String)
  | CopyCommand (text : String) (From : String) (sources : List String)
  | OnbuildCommand (Expression : String)
  | Other (text : String)
  | Unknown
deriving DecidableEq, Repr

/-- Type `instructions.Stage`, the fields the engine reads. -/
structure Stage where
  Name : String
  BaseName : String
  Commands : List Command
deriving DecidableEq, Repr

/-- Functions of other packages the engine calls. -/
structure Env where
  /-- Method `shell.Lex.ProcessWord`. -/
  processWord : String → List String → Except Fault String
  /-- Function `parser.Parse` followed by `instructions.ParseInstruction` on the only child. -/
  parseInstruction : String → Except Fault Command
  /-- Function `path.Clean`. -/
  pathClean : String → String
  /-- Method `GetOrCreateChecksum` of the local git repo, as a function of the include globs. -/
  gitChecksum : List String → Except Fault String
  /-- Method `InspectBuildContextFiles` of the inspector, as a function of the include globs. -/
  inspectBuildContextFiles : List String → Except Fault Unit
  /-- Function `context_manager.ContextAddFilesChecksum`, as a function of the include globs. -/
  contextAddFilesChecksum : List String → Except Fault String
  /-- Function `util.Sha256Hash`. -/
  sha256Hash : List String → String

/-- Type `DockerRunArgs`, the fields the digest computation reads. -/
structure DockerRunArgs where
  contextAddFiles : List String
  addHost : List String
deriving DecidableEq, Repr

/-- Type `DockerStages`. -/
structure DockerStages where
  dockerStages : List Stage
  dockerTargetStageIndex : Int
  dockerBuildArgsHash : StrMap
  dockerMetaArgsHash : StrMap
  dockerStageArgsHash : StageMaps
  dockerStageEnvs : StageMaps
  imageOnBuildInstructions : List (String × List String)
deriving DecidableEq, Repr

/-- Method `DockerStages.DockerStageArgsHash`. -/
def DockerStageArgsHash (ds : DockerStages) (dockerStageID : Nat) : StrMap :=
  stageGet ds.dockerStageArgsHash dockerStageID

/-- Method `DockerStages.DockerStageEnvs`. -/
def DockerStageEnvs (ds : DockerStages) (dockerStageID : Nat) : StrMap :=
  stageGet ds.dockerStageEnvs dockerStageID

/-- The write `ds.dockerMetaArgsHash[k] = v`. -/
def setDockerMetaArg (ds : DockerStages) (k v : String) : DockerStages :=
  { ds with dockerMetaArgsHash := assocSet ds.dockerMetaArgsHash k v }

/-- The write `ds.DockerStageArgsHash(dockerStageID)[k] = v`. -/
def setDockerStageArg (ds : DockerStages) (dockerStageID : Nat) (k v : String) : DockerStages :=
  { ds with dockerStageArgsHash := stageSet ds.dockerStageArgsHash dockerStageID k v }

/-- The write `ds.DockerStageEnvs(dockerStageID)[k] = v`. -/
def setDockerStageEnv (ds : DockerStages) (dockerStageID : Nat) (k v : String) : DockerStages :=
  { ds with dockerStageEnvs := stageSet ds.dockerStageEnvs dockerStageID k v }

/-- The body of the innermost loop of `toArgsArray`: the pair is skipped when its key was
added before, else `key=value` is appended and the key is marked.  The state is
`(argsArray, isAddedKey)`. -/
def toArgsArrayEntry (acc : List String × List String) (kv : String × String) :
    List String × List String :=
  if kv.1 ∈ acc.2 then acc else (acc.1 ++ [kv.1 ++ "=" ++ kv.2], acc.2 ++ [kv.1])

/-- The loop `for _, argsHash := range argsHashes` of `toArgsArray`. -/
def toArgsArrayPass (argsHashes : List StrMap) (acc : List String × List String) :
    List String × List String :=
  argsHashes.foldl (fun a argsHash => argsHash.foldl toArgsArrayEntry a) acc

/-- Function `toArgsArray`.  The outer loop counts `i` down from `len(argsHashes) - 1`
to `0`; its body does not use `i` and ranges over all of `argsHashes` from the first. -/
def toArgsArray (argsHashes : List StrMap) : List String :=
  ((List.range argsHashes.length).reverse.foldl
    (fun acc _ => toArgsArrayPass argsHashes acc) ([], [])).1

/-- Function `shlexProcessWord`. -/
def shlexProcessWord (env : Env) (value : String) (argsArray : List String) :
    Except Fault String :=
  match env.processWord value argsArray with
  | .error err => .error err
  | .ok resolvedValue => .ok resolvedValue

/-- Method `DockerStages.ShlexProcessWordWithMetaArgs`. -/
def ShlexProcessWordWithMetaArgs (env : Env) (ds : DockerStages) (value : String) :
    Except Fault String :=
  shlexProcessWord env value (toArgsArray [ds.dockerMetaArgsHash])

/-- Method `DockerStages.ShlexProcessWordWithStageArgsAndEnvs`. -/
def ShlexProcessWordWithStageArgsAndEnvs (env : Env) (ds : DockerStages) (dockerStageID : Nat)
    (value : String) : Except Fault String :=
  shlexProcessWord env value
    (toArgsArray [DockerStageArgsHash ds dockerStageID, DockerStageEnvs ds dockerStageID])

/-- Method `DockerStages.ShlexProcessWordWithStageEnvs`. -/
def ShlexProcessWordWithStageEnvs (env : Env) (ds : DockerStages) (dockerStageID : Nat)
    (value : String) : Except Fault String :=
  shlexProcessWord env value (toArgsArray [DockerStageEnvs ds dockerStageID])

/-- Method `DockerStages.addDockerMetaArg`. -/
def addDockerMetaArg (env : Env) (ds : DockerStages) (key value : String) :
    Except Fault ((String × String) × DockerStages) :=
  match ShlexProcessWordWithMetaArgs env ds key with
  | .error err => .error err
  | .ok resolvedKey =>
    match ds.dockerBuildArgsHash.lookup resolvedKey with
    | some buildArgValue =>
      .ok ((resolvedKey, buildArgValue), setDockerMetaArg ds resolvedKey buildArgValue)
    | none =>
      match ShlexProcessWordWithMetaArgs env ds value with
      | .error err => .error err
      | .ok rValue =>
        .ok ((resolvedKey, rValue), setDockerMetaArg ds resolvedKey rValue)

/-- The loop over the pairs of one meta `ARG` instruction in `NewDockerStages`. -/
def metaArgPairs (env : Env) : List KeyValuePairOptional → DockerStages → Except Fault DockerStages
  | [], ds => .ok ds
  | keyValuePairOptional :: rest, ds =>
    match addDockerMetaArg env ds keyValuePairOptional.Key
        (keyValuePairOptional.Value.getD "") with
    | .error err => .error err
    | .ok (_, ds1) => metaArgPairs env rest ds1

/-- The loop over the meta `ARG` instructions in `NewDockerStages`. -/
def metaArgInstructions (env : Env) :
    List (List KeyValuePairOptional) → DockerStages → Except Fault DockerStages
  | [], ds => .ok ds
  | argInstruction :: rest, ds =>
    match metaArgPairs env argInstruction ds with
    | .error err => .error err
    | .ok ds1 => metaArgInstructions env rest ds1

/-- Function `NewDockerStages`; a meta `ARG` instruction is the list of its pairs. -/
def NewDockerStages (env : Env) (dockerStages : List Stage) (dockerBuildArgsHash : StrMap)
    (dockerMetaArgs : List (List KeyValuePairOptional)) (dockerTargetStageIndex : Int) :
    Except Fault DockerStages :=
  metaArgInstructions env dockerMetaArgs
    { dockerStages := dockerStages
      dockerTargetStageIndex := dockerTargetStageIndex
      dockerBuildArgsHash := dockerBuildArgsHash
      dockerMetaArgsHash := []
      dockerStageArgsHash := []
      dockerStageEnvs := []
      imageOnBuildInstructions := [] }

/-- Method `DockerStages.AddDockerStageArg`. -/
def AddDockerStageArg (env : Env) (ds : DockerStages) (dockerStageID : Nat) (key value : String) :
    Except Fault ((String × String) × DockerStages) :=
  match ShlexProcessWordWithStageArgsAndEnvs env ds dockerStageID key with
  | .error err => .error err
  | .ok resolvedKey =>
    match ds.dockerBuildArgsHash.lookup resolvedKey with
    | some buildArgValue =>
      .ok ((resolvedKey, buildArgValue),
        setDockerStageArg ds dockerStageID resolvedKey buildArgValue)
    | none =>
      if value = "" then
        .ok ((resolvedKey, mapGet ds.dockerMetaArgsHash resolvedKey),
          setDockerStageArg ds dockerStageID resolvedKey
            (mapGet ds.dockerMetaArgsHash resolvedKey))
      else
        match ShlexProcessWordWithStageArgsAndEnvs env ds dockerStageID value with
        | .error err => .error err
        | .ok rValue =>
          .ok ((resolvedKey, rValue), setDockerStageArg ds dockerStageID resolvedKey rValue)

/-- Method `DockerStages.AddDockerStageEnv`. -/
def AddDockerStageEnv (env : Env) (ds : DockerStages) (dockerStageID : Nat) (key value : String) :
    Except Fault ((String × String) × DockerStages) :=
  match ShlexProcessWordWithStageArgsAndEnvs env ds dockerStageID key with
  | .error err => .error err
  | .ok resolvedKey =>
    match ShlexProcessWordWithStageArgsAndEnvs env ds dockerStageID value with
    | .error err => .error err
    | .ok resolvedValue =>
      .ok ((resolvedKey, resolvedValue),
        setDockerStageEnv ds dockerStageID resolvedKey resolvedValue)

/-- Function `normalizeCopyAddSources`; `clean` is `path.Clean`. -/
def normalizeCopyAddSources (clean : String → String) (wildcards : List String) : List String :=
  wildcards.map fun wildcard =>
    let normalizedWildcard := clean wildcard
    if normalizedWildcard = "/" then "."
    else
      match normalizedWildcard.toList with
      | '/' :: rest => String.mk rest
      | _ => normalizedWildcard

/-- Method `DockerfileStage.calculateFilesChecksumWithGit`. -/
def calculateFilesChecksumWithGit (env : Env) (wildcards : List String) : Except Fault String :=
  match env.gitChecksum wildcards with
  | .error err => .error err
  | .ok lsTreeResultChecksum =>
    match env.inspectBuildContextFiles wildcards with
    | .error err => .error err
    | .ok _ => .ok (env.sha256Hash [lsTreeResultChecksum])

/-- Method `DockerfileStage.calculateFilesChecksum`. -/
def calculateFilesChecksum (env : Env) (args : DockerRunArgs) (wildcards : List String) :
    Except Fault String :=
  let normalizedWildcards := normalizeCopyAddSources env.pathClean wildcards
  match calculateFilesChecksumWithGit env normalizedWildcards with
  | .error err => .error err
  | .ok checksum =>
    if 0 < args.contextAddFiles.length then
      match env.contextAddFilesChecksum wildcards with
      | .error err =>
        .error (err.wrap "unable to calculate checksum for contextAddFiles files list: ")
      | .ok contextAddChecksum =>
        if contextAddChecksum ≠ "" then .ok (env.sha256Hash [checksum, contextAddChecksum])
        else .ok checksum
    else .ok checksum

/-- Closure `resolveValueFunc` of `dockerfileInstructionDependencies`. -/
def resolveValueFunc (env : Env) (ds : DockerStages) (dockerStageID : Nat)
    (isOnbuildInstruction isBaseImageOnbuildInstruction : Bool) (value : String) :
    Except Fault String :=
  if isBaseImageOnbuildInstruction then .ok value
  else if isOnbuildInstruction then ShlexProcessWordWithStageEnvs env ds dockerStageID value
  else ShlexProcessWordWithStageArgsAndEnvs env ds dockerStageID value

/-- Closure `resolveKeyAndValueFunc` of `dockerfileInstructionDependencies`. -/
def resolveKeyAndValueFunc (env : Env) (ds : DockerStages) (dockerStageID : Nat)
    (isOnbuildInstruction isBaseImageOnbuildInstruction : Bool) (key value : String) :
    Except Fault (String × String) :=
  match resolveValueFunc env ds dockerStageID isOnbuildInstruction
      isBaseImageOnbuildInstruction key with
  | .error err => .error err
  | .ok resolvedKey =>
    match resolveValueFunc env ds dockerStageID isOnbuildInstruction
        isBaseImageOnbuildInstruction value with
    | .error err => .error err
    | .ok resolvedValue => .ok (resolvedKey, resolvedValue)

/-- Closure `processArgFunc` of `dockerfileInstructionDependencies`. -/
def processArgFunc (env : Env) (ds : DockerStages) (dockerStageID : Nat)
    (isOnbuildInstruction isBaseImageOnbuildInstruction : Bool) (key value : String) :
    Except Fault ((String × String) × DockerStages) :=
  if !isOnbuildInstruction then AddDockerStageArg env ds dockerStageID key value
  else
    match resolveKeyAndValueFunc env ds dockerStageID isOnbuildInstruction
        isBaseImageOnbuildInstruction key value with
    | .error err => .error err
    | .ok kv => .ok (kv, ds)

/-- Closure `processEnvFunc` of `dockerfileInstructionDependencies`. -/
def processEnvFunc (env : Env) (ds : DockerStages) (dockerStageID : Nat)
    (isOnbuildInstruction isBaseImageOnbuildInstruction : Bool) (key value : String) :
    Except Fault ((String × String) × DockerStages) :=
  if !isOnbuildInstruction then AddDockerStageEnv env ds dockerStageID key value
  else
    match resolveKeyAndValueFunc env ds dockerStageID isOnbuildInstruction
        isBaseImageOnbuildInstruction key value with
    | .error err => .error err
    | .ok kv => .ok (kv, ds)

/-- Closure `resolveSourcesFunc` of `dockerfileInstructionDependencies`; the second
argument is `resolvedSources` so far. -/
def resolveSourcesFunc (env : Env) (ds : DockerStages) (dockerStageID : Nat)
    (isOnbuildInstruction isBaseImageOnbuildInstruction : Bool) :
    List String → List String → Except Fault (List String)
  | [], resolvedSources => .ok resolvedSources
  | source :: rest, resolvedSources =>
    match resolveValueFunc env ds dockerStageID isOnbuildInstruction
        isBaseImageOnbuildInstruction source with
    | .error err => .error err
    | .ok resolvedSource =>
      resolveSourcesFunc env ds dockerStageID isOnbuildInstruction isBaseImageOnbuildInstruction
        rest (resolvedSources ++ [resolvedSource])

/-- The loop of the `ArgCommand` case; the last argument is `dependencies` so far. -/
def argCommandLoop (env : Env) (dockerStageID : Nat)
    (isOnbuildInstruction isBaseImageOnbuildInstruction : Bool) :
    List KeyValuePairOptional → DockerStages → List String →
      Except Fault (List String × DockerStages)
  | [], ds, dependencies => .ok (dependencies, ds)
  | keyValuePairOptional :: rest, ds, dependencies =>
    match processArgFunc env ds dockerStageID isOnbuildInstruction isBaseImageOnbuildInstruction
        keyValuePairOptional.Key (keyValuePairOptional.Value.getD "") with
    | .error err => .error err
    | .ok ((resolvedKey, resolvedValue), ds1) =>
      argCommandLoop env dockerStageID isOnbuildInstruction isBaseImageOnbuildInstruction rest ds1
        (dependencies ++ ["ARG " ++ resolvedKey ++ "=" ++ resolvedValue])

/-- The loop of the `EnvCommand` case; the last argument is `dependencies` so far. -/
def envCommandLoop (env : Env) (dockerStageID : Nat)
    (isOnbuildInstruction isBaseImageOnbuildInstruction : Bool) :
    List KeyValuePair → DockerStages → List String → Except Fault (List String × DockerStages)
  | [], ds, dependencies => .ok (dependencies, ds)
  | keyValuePair :: rest, ds, dependencies =>
    match processEnvFunc env ds dockerStageID isOnbuildInstruction isBaseImageOnbuildInstruction
        keyValuePair.Key keyValuePair.Value with
    | .error err => .error err
    | .ok ((resolvedKey, resolvedValue), ds1) =>
      envCommandLoop env dockerStageID isOnbuildInstruction isBaseImageOnbuildInstruction rest ds1
        (dependencies ++ ["ENV " ++ resolvedKey ++ "=" ++ resolvedValue])

/-- The result of the extractor: `(dependencies, onBuildDependencies)` and the engine after
the call. -/
abbrev Extracted := Except Fault ((List String × List String) × DockerStages)

/-- The body of `dockerfileInstructionDependencies`, the call of
`dockerfileOnBuildInstructionDependencies` being the argument `onBuild`
(stage id, expression, `isBaseImageOnbuildInstruction`). -/
def instructionDependenciesBody (env : Env) (args : DockerRunArgs)
    (onBuild : DockerStages → Nat → String → Bool → Extracted)
    (ds : DockerStages) (dockerStageID : Nat) (cmd : Command)
    (isOnbuildInstruction isBaseImageOnbuildInstruction : Bool) : Extracted :=
  match cmd with
  | .ArgCommand Args =>
    match argCommandLoop env dockerStageID isOnbuildInstruction isBaseImageOnbuildInstruction
        Args ds [] with
    | .error err => .error err
    | .ok (dependencies, ds1) => .ok ((dependencies, []), ds1)
  | .EnvCommand Env =>
    match envCommandLoop env dockerStageID isOnbuildInstruction isBaseImageOnbuildInstruction
        Env ds [] with
    | .error err => .error err
    | .ok (dependencies, ds1) => .ok ((dependencies, []), ds1)
  | .AddCommand text sources =>
    match resolveSourcesFunc env ds dockerStageID isOnbuildInstruction
        isBaseImageOnbuildInstruction sources [] with
    | .error err => .error err
    | .ok resolvedSources =>
      match calculateFilesChecksum env args resolvedSources with
      | .error err => .error err
      | .ok checksum => .ok (([text, checksum], []), ds)
  | .CopyCommand text From sources =>
    if From = "" then
      match resolveSourcesFunc env ds dockerStageID isOnbuildInstruction
          isBaseImageOnbuildInstruction sources [] with
      | .error err => .error err
      | .ok resolvedSources =>
        match calculateFilesChecksum env args resolvedSources with
        | .error err => .error err
        | .ok checksum => .ok (([text, checksum], []), ds)
    else .ok (([text], []), ds)
  | .OnbuildCommand Expression =>
    match onBuild ds dockerStageID Expression false with
    | .error err => .error err
    | .ok ((cDependencies, cOnBuildDependencies), ds1) =>
      .ok ((cDependencies, cOnBuildDependencies), ds1)
  | .Other text =>
    match resolveValueFunc env ds dockerStageID isOnbuildInstruction
        isBaseImageOnbuildInstruction text with
    | .error err => .error err
    | .ok resolvedValue => .ok (([resolvedValue], []), ds)
  | .Unknown => .error (.panic "runtime error")

/-- Method `DockerfileStage.dockerfileOnBuildInstructionDependencies`.  The first argument
bounds the depth of the calls through embedded `ONBUILD` instructions. -/
def dockerfileOnBuildInstructionDependencies (env : Env) (args : DockerRunArgs) :
    Nat → DockerStages → Nat → String → Bool → Extracted
  | 0, _, _, _, _ => .error .outOfFuel
  | fuel + 1, ds, dockerStageID, expression, isBaseImageOnbuildInstruction =>
    match env.parseInstruction expression with
    | .error err => .error err
    | .ok cmd =>
      match instructionDependenciesBody env args
          (dockerfileOnBuildInstructionDependencies env args fuel) ds dockerStageID cmd true
          isBaseImageOnbuildInstruction with
      | .error err => .error err
      | .ok ((onBuildDependencies, _), ds1) => .ok (([expression], onBuildDependencies), ds1)

/-- Method `DockerfileStage.dockerfileInstructionDependencies`. -/
def dockerfileInstructionDependencies (env : Env) (args : DockerRunArgs) (fuel : Nat)
    (ds : DockerStages) (dockerStageID : Nat) (cmd : Command)
    (isOnbuildInstruction isBaseImageOnbuildInstruction : Bool) : Extracted :=
  instructionDependenciesBody env args (dockerfileOnBuildInstructionDependencies env args fuel)
    ds dockerStageID cmd isOnbuildInstruction isBaseImageOnbuildInstruction

/-- The loop over the inherited instructions of the base image in `GetDependencies`: only
the second result of `dockerfileOnBuildInstructionDependencies` is appended. -/
def inheritedLoop (env : Env) (args : DockerRunArgs) (fuel : Nat) (ind : Nat) :
    List String → DockerStages → List String → Except Fault (List String × DockerStages)
  | [], ds, dependencies => .ok (dependencies, ds)
  | instruction :: rest, ds, dependencies =>
    match dockerfileOnBuildInstructionDependencies env args fuel ds ind instruction true with
    | .error err => .error err
    | .ok ((_, iOnBuildDependencies), ds1) =>
      inheritedLoop env args fuel ind rest ds1 (dependencies ++ iOnBuildDependencies)

/-- The loop over `stage.Commands` in the first pass of `GetDependencies`; the last two
arguments are `dependencies` and `onBuildDependencies` so far. -/
def commandsLoop (env : Env) (args : DockerRunArgs) (fuel : Nat) (ind : Nat) :
    List Command → DockerStages → List String → List String → Extracted
  | [], ds, dependencies, onBuildDependencies => .ok ((dependencies, onBuildDependencies), ds)
  | cmd :: rest, ds, dependencies, onBuildDependencies =>
    match dockerfileInstructionDependencies env args fuel ds ind cmd false false with
    | .error err => .error err
    | .ok ((cmdDependencies, cmdOnBuildDependencies), ds1) =>
      commandsLoop env args fuel ind rest ds1 (dependencies ++ cmdDependencies)
        (onBuildDependencies ++ cmdOnBuildDependencies)

/-- The body of the first loop of `GetDependencies` for one stage: the stage's
`dependencies` and `onBuildDependencies` before propagation. -/
def stageDependencies (env : Env) (args : DockerRunArgs) (fuel : Nat) (ds : DockerStages)
    (ind : Nat) (stage : Stage) : Extracted :=
  match ShlexProcessWordWithMetaArgs env ds stage.BaseName with
  | .error err => .error err
  | .ok resolvedBaseName =>
    match ds.imageOnBuildInstructions.lookup resolvedBaseName with
    | some onBuildInstructions =>
      match inheritedLoop env args fuel ind onBuildInstructions ds
          (args.addHost ++ [resolvedBaseName]) with
      | .error err => .error err
      | .ok (dependencies, ds1) => commandsLoop env args fuel ind stage.Commands ds1 dependencies []
    | none => commandsLoop env args fuel ind stage.Commands ds (args.addHost ++ [resolvedBaseName]) []

/-- The first loop of `GetDependencies` over the stages from index `ind` on; the last two
arguments are `stagesDependencies` and `stagesOnBuildDependencies` so far. -/
def firstPass (env : Env) (args : DockerRunArgs) (fuel : Nat) :
    List Stage → Nat → DockerStages → List (List String) → List (List String) →
      Except Fault ((List (List String) × List (List String)) × DockerStages)
  | [], _, ds, stagesDependencies, stagesOnBuildDependencies =>
    .ok ((stagesDependencies, stagesOnBuildDependencies), ds)
  | stage :: rest, ind, ds, stagesDependencies, stagesOnBuildDependencies =>
    match stageDependencies env args fuel ds ind stage with
    | .error err => .error err
    | .ok ((dependencies, onBuildDependencies), ds1) =>
      firstPass env args fuel rest (ind + 1) ds1 (stagesDependencies ++ [dependencies])
        (stagesOnBuildDependencies ++ [onBuildDependencies])

/-- The digits of `strconv.Atoi`: the value of a string of decimal digits. -/
def atoiDigits : List Char → Nat → Option Nat
  | [], n => some n
  | ch :: rest, n => if ch.isDigit then atoiDigits rest (n * 10 + (ch.toNat - 48)) else none

/-- Function `strconv.Atoi` on a 64-bit platform: an optional sign, at least one decimal
digit and nothing else, the value within the range of `int`. -/
def atoi (s : String) : Option Int :=
  match s.toList with
  | [] => none
  | '-' :: rest =>
    if rest = [] then none
    else
      match atoiDigits rest 0 with
      | some n => if n ≤ 2 ^ 63 then some (-(n : Int)) else none
      | none => none
  | '+' :: rest =>
    if rest = [] then none
    else
      match atoiDigits rest 0 with
      | some n => if n < 2 ^ 63 then some (n : Int) else none
      | none => none
  | ch :: rest =>
    match atoiDigits (ch :: rest) 0 with
    | some n => if n < 2 ^ 63 then some (n : Int) else none
    | none => none

/-- The loop over the related stages in the second loop of `GetDependencies`; `ind` and
`stage` are the stage being extended, the first `Nat` is `relatedStageIndex`.  Both
indices are loop indices below `len(stagesDependencies)`. -/
def relatedStagesLoop (stage : Stage) (ind : Nat) (stagesOnBuildDependencies : List (List String)) :
    List Stage → Nat → List (List String) → List (List String)
  | [], _, stagesDependencies => stagesDependencies
  | relatedStage :: rest, relatedStageIndex, stagesDependencies =>
    if ind = relatedStageIndex then
      relatedStagesLoop stage ind stagesOnBuildDependencies rest (relatedStageIndex + 1)
        stagesDependencies
    else if stage.BaseName = relatedStage.Name then
      let d1 := stagesDependencies.set ind
        (stagesDependencies.getD ind [] ++ stagesDependencies.getD relatedStageIndex [])
      let d2 := d1.set ind (d1.getD ind [] ++ stagesOnBuildDependencies.getD relatedStageIndex [])
      relatedStagesLoop stage ind stagesOnBuildDependencies rest (relatedStageIndex + 1) d2
    else
      relatedStagesLoop stage ind stagesOnBuildDependencies rest (relatedStageIndex + 1)
        stagesDependencies

/-- The loop over `stage.Commands` in the second loop of `GetDependencies`.  The index read
from `--from` is only compared with the length from above; a negative one is an index out
of range. -/
def copyFromLoop (ind : Nat) : List Command → List (List String) → Except Fault (List (List String))
  | [], stagesDependencies => .ok stagesDependencies
  | .CopyCommand _ From _ :: rest, stagesDependencies =>
    if From ≠ "" then
      match atoi From with
      | some relatedStageIndex =>
        if relatedStageIndex < (stagesDependencies.length : Int) then
          if relatedStageIndex < 0 then .error (.panic "index out of range")
          else
            copyFromLoop ind rest (stagesDependencies.set ind
              (stagesDependencies.getD ind [] ++
                stagesDependencies.getD relatedStageIndex.toNat []))
        else copyFromLoop ind rest stagesDependencies
      | none => copyFromLoop ind rest stagesDependencies
    else copyFromLoop ind rest stagesDependencies
  | _ :: rest, stagesDependencies => copyFromLoop ind rest stagesDependencies

/-- The second loop of `GetDependencies` (cross-stage propagation) over the stages from
index `ind` on; `dockerStages` is the whole stage list. -/
def propagateLoop (dockerStages : List Stage) (stagesOnBuildDependencies : List (List String)) :
    List Stage → Nat → List (List String) → Except Fault (List (List String))
  | [], _, stagesDependencies => .ok stagesDependencies
  | stage :: rest, ind, stagesDependencies =>
    match copyFromLoop ind stage.Commands
        (relatedStagesLoop stage ind stagesOnBuildDependencies dockerStages 0
          stagesDependencies) with
    | .error err => .error err
    | .ok d => propagateLoop dockerStages stagesOnBuildDependencies rest (ind + 1) d

/-- The read `stagesDependencies[s.dockerTargetStageIndex]`. -/
def targetList (stagesDependencies : List (List String)) (dockerTargetStageIndex : Int) :
    Except Fault (List String) :=
  if dockerTargetStageIndex < 0 then .error (.panic "index out of range")
  else
    match stagesDependencies.get? dockerTargetStageIndex.toNat with
    | some dockerfileStageDependencies => .ok dockerfileStageDependencies
    | none => .error (.panic "index out of range")

/-- Method `DockerfileStage.GetDependencies` up to the hash: the dependency list of the
target stage, and the engine after the call. -/
def targetDependencies (env : Env) (args : DockerRunArgs) (fuel : Nat) (ds : DockerStages) :
    Except Fault (List String × DockerStages) :=
  match firstPass env args fuel ds.dockerStages 0 ds [] [] with
  | .error err => .error err
  | .ok ((stagesDependencies, stagesOnBuildDependencies), ds1) =>
    match propagateLoop ds.dockerStages stagesOnBuildDependencies ds.dockerStages 0
        stagesDependencies with
    | .error err => .error err
    | .ok propagated =>
      match targetList propagated ds.dockerTargetStageIndex with
      | .error err => .error err
      | .ok dockerfileStageDependencies => .ok (dockerfileStageDependencies, ds1)

/-- Method `DockerfileStage.GetDependencies`: the digest and the engine after the call. -/
def GetDependencies (env : Env) (args : DockerRunArgs) (fuel : Nat) (ds : DockerStages) :
    Except Fault (String × DockerStages) :=
  match targetDependencies env args fuel ds with
  | .error err => .error err
  | .ok (dockerfileStageDependencies, ds1) => .ok (env.sha256Hash dockerfileStageDependencies, ds1)

/-! ## The fetch phase (`DockerfileStage.FetchDependencies`)

The container runtime and the registry are functions of a state `σ` of the world outside
the engine (the local image store); a pull changes it.  The calls made are recorded in
the order they are made. -/

/-- A call of the container runtime or of the registry, with the image reference. -/
inductive FetchCall where
  | getImageInfo (ref : String)
  | getRepoImageConfigFile (ref : String)
  | pull (ref : String)
deriving DecidableEq, Repr

/-- The image reference a call is made for. -/
def FetchCall.ref : FetchCall → String
  | .getImageInfo ref => ref
  | .getRepoImageConfigFile ref => ref
  | .pull ref => ref

/-- The container runtime and the registry. -/
structure ContainerRuntime (σ : Type) where
  /-- Method `containerRuntime.GetImageInfo`: a failure, no info (`nil`, the image is not
  there locally) or the `OnBuild` list of the info. -/
  getImageInfo : σ → String → Except Fault (Option (List String))
  /-- Method `docker_registry.API().GetRepoImageConfigFile`: a failure or the `OnBuild`
  list of the config. -/
  getRepoImageConfigFile : σ → String → Except Fault (List String)
  /-- Method `containerRuntime.Pull`: a failure or the local image store after the pull. -/
  pull : σ → String → Except Fault σ

/-- The engine, the world outside it and the calls made so far. -/
structure FetchState (σ : Type) where
  ds : DockerStages
  world : σ
  calls : List FetchCall

/-- The state with one more call recorded. -/
def FetchState.log {σ : Type} (st : FetchState σ) (call : FetchCall) : FetchState σ :=
  { st with calls := st.calls ++ [call] }

/-- The state with another local image store. -/
def FetchState.setWorld {σ : Type} (st : FetchState σ) (world : σ) : FetchState σ :=
  { st with world := world }

/-- The write `s.imageOnBuildInstructions[resolvedBaseName] = onBuild`. -/
def setOnBuild (ds : DockerStages) (resolvedBaseName : String) (onBuild : List String) :
    DockerStages :=
  { ds with
    imageOnBuildInstructions := assocSet ds.imageOnBuildInstructions resolvedBaseName onBuild }

/-- The state with the write `s.imageOnBuildInstructions[resolvedBaseName] = onBuild`. -/
def FetchState.store {σ : Type} (st : FetchState σ) (resolvedBaseName : String)
    (onBuild : List String) : FetchState σ :=
  { st with ds := setOnBuild st.ds resolvedBaseName onBuild }

/-- Variable `errImageNotExistLocally`. -/
def errImageNotExistLocally : Fault := .error "IMAGE_NOT_EXIST_LOCALLY"

/-- The result of the closure `getBaseImageOnBuildLocally`: an error of the runtime, the
error value `errImageNotExistLocally` itself (told apart by identity in the source), or
the `OnBuild` list. -/
inductive LocalOnBuild where
  | failed (err : Fault)
  | notExistLocally
  | found (onBuild : List String)
deriving DecidableEq, Repr

/-- Closure `getBaseImageOnBuildLocally` of `FetchDependencies`. -/
def getBaseImageOnBuildLocally {σ : Type} (rt : ContainerRuntime σ) (world : σ)
    (resolvedBaseName : String) : LocalOnBuild :=
  match rt.getImageInfo world resolvedBaseName with
  | .error err => .failed err
  | .ok none => .notExistLocally
  | .ok (some onBuild) => .found onBuild

/-- Closure `getBaseImageOnBuildRemotely` of `FetchDependencies`. -/
def getBaseImageOnBuildRemotely {σ : Type} (rt : ContainerRuntime σ) (world : σ)
    (resolvedBaseName : String) : Except Fault (List String) :=
  match rt.getRepoImageConfigFile world resolvedBaseName with
  | .error err =>
    .error (err.wrap ("get repo image " ++ resolvedBaseName ++ " config file failed: "))
  | .ok onBuild => .ok onBuild

/-- Function `strings.Contains` on the characters of the two strings. -/
def stringsContains (s substr : String) : Bool :=
  s.toList.tails.any fun t => substr.toList.isPrefixOf t

/-- Function `isUnsupportedMediaTypeError`. -/
def isUnsupportedMediaTypeError : Fault → Bool
  | .error msg => stringsContains msg "unsupported MediaType"
  | _ => false

/-- The inner loop of `FetchDependencies` over the related stages: whether a stage other
than `ind` has the base name of `stage` as its name (`continue outerLoop`). -/
def baseIsStage (stage : Stage) (ind : Nat) : List Stage → Nat → Bool
  | [], _ => false
  | relatedStage :: rest, relatedStageIndex =>
    if ind = relatedStageIndex then baseIsStage stage ind rest (relatedStageIndex + 1)
    else if stage.BaseName = relatedStage.Name then true
    else baseIsStage stage ind rest (relatedStageIndex + 1)

/-- The part of the body of the outer loop of `FetchDependencies` after the remote lookup
failed with the unsupported media type: the pull and the second local inspection. -/
def fetchAfterPull {σ : Type} (rt : ContainerRuntime σ) (st : FetchState σ)
    (resolvedBaseName : String) : FetchState σ × Option Fault :=
  match rt.pull st.world resolvedBaseName with
  | .error err => (st.log (.pull resolvedBaseName), some err)
  | .ok world =>
    match getBaseImageOnBuildLocally rt world resolvedBaseName with
    | .failed err =>
      (((st.log (.pull resolvedBaseName)).setWorld world).log (.getImageInfo resolvedBaseName),
        some err)
    | .notExistLocally =>
      (((st.log (.pull resolvedBaseName)).setWorld world).log (.getImageInfo resolvedBaseName),
        some errImageNotExistLocally)
    | .found onBuild =>
      ((((st.log (.pull resolvedBaseName)).setWorld world).log
        (.getImageInfo resolvedBaseName)).store resolvedBaseName onBuild, none)

/-- The part of the body of the outer loop of `FetchDependencies` that looks the resolved
base name up: local inspection, remote lookup when the image is not there locally, pull
and second local inspection when the remote lookup fails with the unsupported media type,
and the write of the list found. -/
def fetchLookup {σ : Type} (rt : ContainerRuntime σ) (st : FetchState σ)
    (resolvedBaseName : String) : FetchState σ × Option Fault :=
  match getBaseImageOnBuildLocally rt st.world resolvedBaseName with
  | .failed err => (st.log (.getImageInfo resolvedBaseName), some err)
  | .found onBuild =>
    ((st.log (.getImageInfo resolvedBaseName)).store resolvedBaseName onBuild, none)
  | .notExistLocally =>
    match getBaseImageOnBuildRemotely rt st.world resolvedBaseName with
    | .ok onBuild =>
      (((st.log (.getImageInfo resolvedBaseName)).log
        (.getRepoImageConfigFile resolvedBaseName)).store resolvedBaseName onBuild, none)
    | .error getRemotelyErr =>
      if isUnsupportedMediaTypeError getRemotelyErr then
        fetchAfterPull rt ((st.log (.getImageInfo resolvedBaseName)).log
          (.getRepoImageConfigFile resolvedBaseName)) resolvedBaseName
      else
        ((st.log (.getImageInfo resolvedBaseName)).log
          (.getRepoImageConfigFile resolvedBaseName), some getRemotelyErr)

/-- The body of the outer loop of `FetchDependencies` for the stage `ind`: the state after
it and the error it returns, if any. -/
def fetchStage {σ : Type} (rt : ContainerRuntime σ) (env : Env) (st : FetchState σ)
    (ind : Nat) (stage : Stage) : FetchState σ × Option Fault :=
  if baseIsStage stage ind st.ds.dockerStages 0 then (st, none)
  else
    match ShlexProcessWordWithMetaArgs env st.ds stage.BaseName with
    | .error err => (st, some err)
    | .ok resolvedBaseName =>
      if (st.ds.imageOnBuildInstructions.lookup resolvedBaseName).isSome ∨
          resolvedBaseName = "scratch" then (st, none)
      else fetchLookup rt st resolvedBaseName

/-- The outer loop of `FetchDependencies` over the stages from index `ind` on. -/
def fetchLoop {σ : Type} (rt : ContainerRuntime σ) (env : Env) :
    List Stage → Nat → FetchState σ → FetchState σ × Option Fault
  | [], _, st => (st, none)
  | stage :: rest, ind, st =>
    match fetchStage rt env st ind stage with
    | (st1, some err) => (st1, some err)
    | (st1, none) => fetchLoop rt env rest (ind + 1) st1

/-- Method `DockerfileStage.FetchDependencies`: the state after the call and the error
returned, if any. -/
def FetchDependencies {σ : Type} (rt : ContainerRuntime σ) (env : Env) (st : FetchState σ) :
    FetchState σ × Option Fault :=
  fetchLoop rt env st.ds.dockerStages 0 st

/-! ## The function `path.Clean` of the Go standard library

`path.Clean` by path elements: empty elements and `.` are dropped, `..` removes the
element before it, is dropped at the root and is kept at the start of a path that is not
rooted; the elements are joined by single slashes, and the empty result is `.`. -/

/-- The elements of a path: the runs of characters between its slashes. -/
def splitSlash : List Char → List (List Char)
  | [] => [[]]
  | c :: rest =>
    if c = '/' then [] :: splitSlash rest
    else
      match splitSlash rest with
      | [] => [[c]]
      | e :: es => (c :: e) :: es

/-- One element of the path in `path.Clean`; `out` holds the elements kept so far, the
last one first. -/
def cleanStep (rooted : Bool) (out : List (List Char)) (elem : List Char) : List (List Char) :=
  if elem = [] ∨ elem = ['.'] then out
  else if elem = ['.', '.'] then
    match out with
    | [] => if rooted then [] else [['.', '.']]
    | top :: below => if top = ['.', '.'] then ['.', '.'] :: top :: below else below
  else elem :: out

/-- Function `path.Clean`. -/
def pathClean (path : String) : String :=
  let rooted := path.toList.head? = some '/'
  let body := List.intercalate ['/']
    (((splitSlash path.toList).foldl (cleanStep rooted) []).reverse)
  if rooted then String.mk ('/' :: body)
  else if body = [] then "."
  else String.mk body

/-! ## A concrete environment

A small instance of `Env`, used to run the engine on concrete build descriptions. -/

/-- Characters of a variable name. -/
def isNameChar (c : Char) : Bool := c.isAlphanum || c = '_'

/-- The value of `name` in a list of `KEY=VALUE` entries, the first entry of a key
counting; the empty string when unset. -/
def envValue (name : List Char) : List String → List Char
  | [] => []
  | e :: rest =>
    if (e.toList.span (fun c => c ≠ '=')).1 = name then
      ((e.toList.span (fun c => c ≠ '=')).2).drop 1
    else envValue name rest

/-- One character of the scan: the state is the output so far and the variable name being
read after a dollar sign, if any. -/
def sampleLexStep (envs : List String) (st : List Char × Option (List Char)) (c : Char) :
    List Char × Option (List Char) :=
  match st.2 with
  | none => if c = '$' then (st.1, some []) else (st.1 ++ [c], none)
  | some name =>
    if isNameChar c then (st.1, some (name ++ [c]))
    else if c = '$' then (st.1 ++ envValue name envs, some [])
    else (st.1 ++ envValue name envs ++ [c], none)

/-- Expansion of the `$NAME` references of a word; it stands for `ProcessWord` on words
without quotes, escapes and braces. -/
def sampleProcessWord (word : String) (envs : List String) : Except Fault String :=
  match word.toList.foldl (sampleLexStep envs) ([], none) with
  | (out, none) => .ok (String.mk out)
  | (out, some name) => .ok (String.mk (out ++ envValue name envs))

/-- A parser of embedded instructions that knows `RUN` only. -/
def sampleParseInstruction (expression : String) : Except Fault Command :=
  match expression.toList with
  | 'R' :: 'U' :: 'N' :: ' ' :: _ => .ok (.Other expression)
  | _ => .error (.error "unknown instruction")

/-- The concrete environment: the checksum of a glob list is the list itself in brackets,
nothing is rejected by the inspector, and the hash is the joined argument list. -/
def sampleEnv : Env where
  processWord := sampleProcessWord
  parseInstruction := sampleParseInstruction
  pathClean := pathClean
  gitChecksum := fun globs => .ok ("tree[" ++ ",".intercalate globs ++ "]")
  inspectBuildContextFiles := fun _ => .ok ()
  contextAddFilesChecksum := fun _ => .ok ""
  sha256Hash := fun parts => "sha256[" ++ ":::".intercalate parts ++ "]"

/-- Run arguments without add-host aliases and without added context files. -/
def sampleArgs : DockerRunArgs where
  contextAddFiles := []
  addHost := []

/-- An engine as `NewDockerStages` returns it for the given stages and overrides, with no
meta ARG. -/
def sampleEngine (dockerStages : List Stage) (dockerBuildArgsHash : StrMap)
    (dockerTargetStageIndex : Int) : DockerStages where
  dockerStages := dockerStages
  dockerTargetStageIndex := dockerTargetStageIndex
  dockerBuildArgsHash := dockerBuildArgsHash
  dockerMetaArgsHash := []
  dockerStageArgsHash := []
  dockerStageEnvs := []
  imageOnBuildInstructions := []

/-! ## Definitions that follow the specification -/

/-- The bindings of a scope as the `KEY=VALUE` list handed to the word resolver. -/
def bindingList (m : StrMap) : List String := m.map fun kv => kv.1 ++ "=" ++ kv.2

/-- Global ARG resolution of one declaration as the specification words it: the key is
resolved against the global bindings so far; an external override of the resolved key is
the value as it stands, else the value is the declared default resolved against the global
bindings so far; the pair is stored in the global bindings. -/
def resolveGlobalArg (env : Env) (overrides globals : StrMap) (key value : String) :
    Except Fault StrMap :=
  match env.processWord key (bindingList globals) with
  | .error err => .error err
  | .ok resolvedKey =>
    match overrides.lookup resolvedKey with
    | some o => .ok (assocSet globals resolvedKey o)
    | none =>
      match env.processWord value (bindingList globals) with
      | .error err => .error err
      | .ok resolvedValue => .ok (assocSet globals resolvedKey resolvedValue)

/-- Global ARG resolution of a sequence of declarations, the first failure ending it. -/
def resolveGlobalArgs (env : Env) (overrides : StrMap) :
    List (String × String) → StrMap → Except Fault StrMap
  | [], globals => .ok globals
  | (key, value) :: rest, globals =>
    match resolveGlobalArg env overrides globals key value with
    | .error err => .error err
    | .ok globals1 => resolveGlobalArgs env overrides rest globals1

/-- The engine `NewDockerStages` builds around the resolved global bindings. -/
def newEngine (dockerStages : List Stage) (dockerBuildArgsHash globals : StrMap)
    (dockerTargetStageIndex : Int) : DockerStages where
  dockerStages := dockerStages
  dockerTargetStageIndex := dockerTargetStageIndex
  dockerBuildArgsHash := dockerBuildArgsHash
  dockerMetaArgsHash := globals
  dockerStageArgsHash := []
  dockerStageEnvs := []
  imageOnBuildInstructions := []

/-- The strings each inherited instruction of a base image contributes to a stage, one
list per instruction, in the order of the OnBuild Index. -/
def inheritedContributions (env : Env) (args : DockerRunArgs) (fuel : Nat) (ind : Nat) :
    List String → DockerStages → Except Fault (List (List String) × DockerStages)
  | [], ds => .ok ([], ds)
  | instruction :: rest, ds =>
    match dockerfileOnBuildInstructionDependencies env args fuel ds ind instruction true with
    | .error err => .error err
    | .ok ((_, contribution), ds1) =>
      match inheritedContributions env args fuel ind rest ds1 with
      | .error err => .error err
      | .ok (contributions, ds2) => .ok (contribution :: contributions, ds2)

/-- The primary and secondary contributions of each own instruction of a stage, one pair
per instruction, in file order. -/
def ownContributions (env : Env) (args : DockerRunArgs) (fuel : Nat) (ind : Nat) :
    List Command → DockerStages → Except Fault (List (List String × List String) × DockerStages)
  | [], ds => .ok ([], ds)
  | cmd :: rest, ds =>
    match dockerfileInstructionDependencies env args fuel ds ind cmd false false with
    | .error err => .error err
    | .ok (contribution, ds1) =>
      match ownContributions env args fuel ind rest ds1 with
      | .error err => .error err
      | .ok (contributions, ds2) => .ok (contribution :: contributions, ds2)

/-- The per-stage dependency list as the specification lays it out: the add-host aliases,
the base name resolved against the global bindings, the strings of the inherited
instructions recorded for that resolved base name, the primary contributions of the own
instructions in file order; the secondary list is the secondary contributions in file
order. -/
def stageDependenciesLayout (env : Env) (args : DockerRunArgs) (fuel : Nat) (ds : DockerStages)
    (ind : Nat) (stage : Stage) : Extracted :=
  match env.processWord stage.BaseName (toArgsArray [ds.dockerMetaArgsHash]) with
  | .error err => .error err
  | .ok resolvedBaseName =>
    match inheritedContributions env args fuel ind
        ((ds.imageOnBuildInstructions.lookup resolvedBaseName).getD []) ds with
    | .error err => .error err
    | .ok (inherited, ds1) =>
      match ownContributions env args fuel ind stage.Commands ds1 with
      | .error err => .error err
      | .ok (own, ds2) =>
        .ok ((args.addHost ++ [resolvedBaseName] ++ inherited.flatten ++
          (own.map Prod.fst).flatten, (own.map Prod.snd).flatten), ds2)

/-- What the loop over the related stages appends to the list of stage `ind`: for every
other stage whose name is the base name of the stage, in index order, that stage's list
followed by its secondary onbuild list.  `names` are the stage names from index `rel` on,
`cur` holds the lists of the stages at that time. -/
def namedSegments (baseName : String) (ind : Nat) (stagesOnBuildDependencies cur : List (List String)) :
    List String → Nat → List String
  | [], _ => []
  | name :: rest, rel =>
    (if ind ≠ rel ∧ baseName = name then
        cur.getD rel [] ++ stagesOnBuildDependencies.getD rel []
      else []) ++
      namedSegments baseName ind stagesOnBuildDependencies cur rest (rel + 1)

/-- The list of stage `ind` after the loop over its `COPY` instructions: a `--from` that
reads as an index below the number `n` of stages appends the list of that stage (the list
so far when it is the stage itself); `acc` is the list of stage `ind` so far. -/
def copySegments (ind n : Nat) (cur : List (List String)) :
    List Command → List String → Except Fault (List String)
  | [], acc => .ok acc
  | .CopyCommand _ From _ :: rest, acc =>
    if From ≠ "" then
      match atoi From with
      | some relatedStageIndex =>
        if relatedStageIndex < (n : Int) then
          if relatedStageIndex < 0 then .error (.panic "index out of range")
          else
            copySegments ind n cur rest
              (acc ++ if relatedStageIndex.toNat = ind then acc
                else cur.getD relatedStageIndex.toNat [])
        else copySegments ind n cur rest acc
      | none => copySegments ind n cur rest acc
    else copySegments ind n cur rest acc
  | _ :: rest, acc => copySegments ind n cur rest acc

/-- The propagated list of stage `ind`, given the lists `cur` of the stages when the second
loop of `GetDependencies` reaches it. -/
def stageFinal (stage : Stage) (ind : Nat) (stagesOnBuildDependencies : List (List String))
    (names : List String) (cur : List (List String)) : Except Fault (List String) :=
  copySegments ind cur.length cur stage.Commands
    (cur.getD ind [] ++ namedSegments stage.BaseName ind stagesOnBuildDependencies cur names 0)

/-- The per-stage lists when the second loop of `GetDependencies` reaches stage `ind`: the
stages before it carry their propagated list, the others their list of the first pass. -/
def listsAt (ind : Nat) (propagated firstPassLists : List (List String)) : List (List String) :=
  propagated.take ind ++ firstPassLists.drop ind

/-- Whether an own instruction writes the bindings of its stage: `ARG` and `ENV` do. -/
def writesBindings : Command → Bool
  | .ArgCommand _ => true
  | .EnvCommand _ => true
  | _ => false

/-- What the extractor can read of the engine while it works on stage `i`: the external
overrides, the global bindings, the OnBuild Index and the two binding maps of the stage. -/
def scopeOf (ds : DockerStages) (i : Nat) :
    StrMap × StrMap × List (String × List String) × StrMap × StrMap :=
  (ds.dockerBuildArgsHash, ds.dockerMetaArgsHash, ds.imageOnBuildInstructions,
    DockerStageArgsHash ds i, DockerStageEnvs ds i)

/-- The engine `ds1` differs from `ds` in the binding maps of stage `i` at most. -/
def Frame (i : Nat) (ds ds1 : DockerStages) : Prop :=
  ds1.dockerStages = ds.dockerStages ∧ ds1.dockerTargetStageIndex = ds.dockerTargetStageIndex ∧
  ds1.dockerBuildArgsHash = ds.dockerBuildArgsHash ∧
  ds1.dockerMetaArgsHash = ds.dockerMetaArgsHash ∧
  ds1.imageOnBuildInstructions = ds.imageOnBuildInstructions ∧
  ∀ j, j ≠ i → DockerStageArgsHash ds1 j = DockerStageArgsHash ds j ∧
    DockerStageEnvs ds1 j = DockerStageEnvs ds j

/-- Two results of a computation on stage `i` agree: the same failure, or the same value
and engines that agree on what stage `i` can read. -/
def SameResult {α : Type} (i : Nat) : Except Fault (α × DockerStages) →
    Except Fault (α × DockerStages) → Prop
  | .error e, .error e2 => e = e2
  | .ok (r, d), .ok (r2, d2) => r = r2 ∧ scopeOf d i = scopeOf d2 i
  | _, _ => False

/-- Stage `a` draws on stage `b` in the propagation pass: `b` is another stage whose name
is the base name of `a`, or a `COPY` instruction of `a` has a `--from` that reads as the
index `b` of a stage. -/
def stageEdge (stages : List Stage) (a b : Nat) : Prop :=
  ∃ sa, stages[a]? = some sa ∧
    ((a ≠ b ∧ ∃ sb, stages[b]? = some sb ∧ sa.BaseName = sb.Name) ∨
      (∃ text From sources, Command.CopyCommand text From sources ∈ sa.Commands ∧
        atoi From = some (b : Int) ∧ b < stages.length))

/-- The lineage of a stage: the stages reachable from it along `stageEdge`, itself
included. -/
def InLineage (stages : List Stage) (target i : Nat) : Prop :=
  Relation.ReflTransGen (stageEdge stages) target i

/-- The engine with another list of stages. -/
def withStages (ds : DockerStages) (stages : List Stage) : DockerStages :=
  { ds with dockerStages := stages }

/-- The concrete environment with the git tree checksum fixed to `tree`. -/
def sampleEnvWithTree (tree : String) : Env :=
  { sampleEnv with gitChecksum := fun _ => .ok tree }

/-- The two-stage description `FROM base:1.0 AS builder`, `COPY app.go .`, then
`FROM alpine`, `COPY --from=<from> /app /app`. -/
def twoStages (copyFrom : String) : List Stage :=
  [⟨"builder", "base:1.0", [.CopyCommand "COPY app.go ." "" ["app.go"]]⟩,
   ⟨"", "alpine",
    [.CopyCommand ("COPY --from=" ++ copyFrom ++ " /app /app") copyFrom ["/app"]]⟩]

/-- The one-stage description `FROM alpine`, `ARG A=$B`, `ARG B=x`. -/
def lateBinding : List Stage :=
  [⟨"", "alpine", [.ArgCommand [⟨"A", some "$B"⟩], .ArgCommand [⟨"B", some "x"⟩]]⟩]

/-- The two-stage description `FROM busybox AS other`, `ARG UNUSED=<value>`, then
`FROM alpine`, `RUN make`. -/
def unrelatedArg (value : String) : List Stage :=
  [⟨"other", "busybox", [.ArgCommand [⟨"UNUSED", some value⟩]]⟩,
   ⟨"", "alpine", [.Other "RUN make"]⟩]

/-- The engine for `lateBinding` without overrides, as `NewDockerStages` returns it. -/
def lateBindingEngine : DockerStages := sampleEngine lateBinding [] 0

/-- The engine for `lateBinding` after one digest computation: the stage ARG bindings
`A` (empty) and `B=x` are left in it. -/
def lateBindingAfterRun : DockerStages :=
  setDockerStageArg (setDockerStageArg lateBindingEngine 0 "A" "") 0 "B" "x"

/-- Two results of a computation over all stages agree: the same failure, or the same value
and engines that agree on what every stage can read. -/
def SameRun {α : Type} : Except Fault (α × DockerStages) →
    Except Fault (α × DockerStages) → Prop
  | .error e, .error e2 => e = e2
  | .ok (r, d), .ok (r2, d2) => r = r2 ∧ ∀ i, scopeOf d i = scopeOf d2 i
  | _, _ => False

/-- The one-stage description `FROM alpine`, `ARG B=x`, `RUN echo $B`. -/
def literalBinding : List Stage :=
  [⟨"", "alpine", [.ArgCommand [⟨"B", some "x"⟩], .Other "RUN echo $B"]⟩]

/-- The words of a list resolved one after the other, the first failure ending it. -/
def resolveEach (resolve : String → Except Fault String) :
    List String → Except Fault (List String)
  | [] => .ok []
  | word :: rest =>
    match resolve word with
    | .error err => .error err
    | .ok resolved =>
      match resolveEach resolve rest with
      | .error err => .error err
      | .ok resolvedRest => .ok (resolved :: resolvedRest)

/-- The pairs of a list resolved one after the other, the key before the value, the first
failure ending it. -/
def resolvePairs (resolve : String → Except Fault String) :
    List (String × String) → Except Fault (List (String × String))
  | [] => .ok []
  | (key, value) :: rest =>
    match resolve key with
    | .error err => .error err
    | .ok resolvedKey =>
      match resolve value with
      | .error err => .error err
      | .ok resolvedValue =>
        match resolvePairs resolve rest with
        | .error err => .error err
        | .ok resolvedRest => .ok ((resolvedKey, resolvedValue) :: resolvedRest)

/-- The dependency strings the extraction rules give an instruction in the inherited scope,
where no binding is written and every word goes through `resolve`: `ARG key=value` and
`ENV key=value` per pair, the literal text and the checksum of the resolved sources for
`ADD` and for `COPY` without `--from`, the literal text for `COPY` with `--from`, the
resolved text for any other instruction.  An `ONBUILD` container is not covered here: it
contributes the text of its embedded instruction when that one can be extracted. -/
def inheritedScopeDependencies (env : Env) (args : DockerRunArgs)
    (resolve : String → Except Fault String) : Command → Except Fault (List String)
  | .ArgCommand Args =>
    match resolvePairs resolve (Args.map fun kv => (kv.Key, kv.Value.getD "")) with
    | .error err => .error err
    | .ok pairs => .ok (pairs.map fun kv => "ARG " ++ kv.1 ++ "=" ++ kv.2)
  | .EnvCommand Env =>
    match resolvePairs resolve (Env.map fun kv => (kv.Key, kv.Value)) with
    | .error err => .error err
    | .ok pairs => .ok (pairs.map fun kv => "ENV " ++ kv.1 ++ "=" ++ kv.2)
  | .AddCommand text sources =>
    match resolveEach resolve sources with
    | .error err => .error err
    | .ok resolvedSources =>
      match calculateFilesChecksum env args resolvedSources with
      | .error err => .error err
      | .ok checksum => .ok [text, checksum]
  | .CopyCommand text From sources =>
    if From = "" then
      match resolveEach resolve sources with
      | .error err => .error err
      | .ok resolvedSources =>
        match calculateFilesChecksum env args resolvedSources with
        | .error err => .error err
        | .ok checksum => .ok [text, checksum]
    else .ok [text]
  | .OnbuildCommand Expression => .ok [Expression]
  | .Other text =>
    match resolve text with
    | .error err => .error err
    | .ok resolvedValue => .ok [resolvedValue]
  | .Unknown => .error (.panic "runtime error")

/-- The assignments of an own `ENV` instruction resolved and stored one after the other by
the stage-ENV rule (`AddDockerStageEnv`): the resolved pairs in assignment order and the
engine after the last one. -/
def stageEnvPairs (env : Env) (dockerStageID : Nat) :
    List KeyValuePair → DockerStages → Except Fault (List (String × String) × DockerStages)
  | [], ds => .ok ([], ds)
  | keyValuePair :: rest, ds =>
    match AddDockerStageEnv env ds dockerStageID keyValuePair.Key keyValuePair.Value with
    | .error err => .error err
    | .ok (resolved, ds1) =>
      match stageEnvPairs env dockerStageID rest ds1 with
      | .error err => .error err
      | .ok (resolvedRest, ds2) => .ok (resolved :: resolvedRest, ds2)

/-- The textual form (`String()`) of the `ONBUILD` instruction that carries the embedded
instruction `Expression`, written with one blank after the keyword. -/
def onbuildInstructionText (Expression : String) : String := "ONBUILD " ++ Expression

/-- An engine for one stage `FROM alpine` with the given own instructions, the OnBuild
Index holding the given inherited instructions of `alpine`, and the stage ARG `X=a`
bound. -/
def alpineEngine (inherited : List String) (commands : List Command) : DockerStages :=
  setDockerStageArg
    { sampleEngine [⟨"", "alpine", commands⟩] [] 0 with
      imageOnBuildInstructions := [("alpine", inherited)] } 0 "X" "a"

/-- The calls of one lookup of the resolved base name `ref`: the local inspection, then
the remote lookup, then the pull, then the second local inspection, as far as it got. -/
def IsLookupBlock (ref : String) (block : List FetchCall) : Prop :=
  block = [.getImageInfo ref] ∨
  block = [.getImageInfo ref, .getRepoImageConfigFile ref] ∨
  block = [.getImageInfo ref, .getRepoImageConfigFile ref, .pull ref] ∨
  block = [.getImageInfo ref, .getRepoImageConfigFile ref, .pull ref, .getImageInfo ref]

/-- The list `onBuild` is what the local inspection or the remote lookup returned for
`ref` in some state of the world. -/
def ObtainedFor {σ : Type} (rt : ContainerRuntime σ) (ref : String) (onBuild : List String) :
    Prop :=
  ∃ world, rt.getImageInfo world ref = .ok (some onBuild) ∨
    rt.getRepoImageConfigFile world ref = .ok onBuild

/-- A container runtime over a local store of images with their `OnBuild` lists: the
registry answers by the function `registry`, and a pull adds the image with the list
`pulled`. -/
def sampleRuntime (registry : String → Except Fault (List String)) (pulled : List String) :
    ContainerRuntime (List (String × List String)) where
  getImageInfo := fun world ref => .ok (world.lookup ref)
  getRepoImageConfigFile := fun _ ref => registry ref
  pull := fun world ref => .ok (world ++ [(ref, pulled)])

/-- The three-stage description `FROM alpine AS base`, `FROM base`, `FROM scratch`. -/
def fetchStages : List Stage :=
  [⟨"base", "alpine", []⟩, ⟨"", "base", []⟩, ⟨"", "scratch", [.Other "RUN make"]⟩]

/-- The state before the fetch phase for `fetchStages`, the local store holding the
given images. -/
def fetchStart (images : List (String × List String)) :
    FetchState (List (String × List String)) where
  ds := sampleEngine fetchStages [] 2
  world := images
  calls := []

/-- The content checksum as the specification words it: the second checksum is computed
over the added context files that match the same normalized globs as the tree checksum,
and the two are combined by the hash. -/
def calculateFilesChecksumNormalized (env : Env) (args : DockerRunArgs)
    (wildcards : List String) : Except Fault String :=
  let normalizedWildcards := normalizeCopyAddSources env.pathClean wildcards
  match calculateFilesChecksumWithGit env normalizedWildcards with
  | .error err => .error err
  | .ok checksum =>
    if 0 < args.contextAddFiles.length then
      match env.contextAddFilesChecksum normalizedWildcards with
      | .error err =>
        .error (err.wrap "unable to calculate checksum for contextAddFiles files list: ")
      | .ok contextAddChecksum =>
        if contextAddChecksum ≠ "" then .ok (env.sha256Hash [checksum, contextAddChecksum])
        else .ok checksum
    else .ok checksum

/-- The concrete environment with a checksum of the added context files that shows the
include globs of its matcher. -/
def sampleEnvWithAddFiles : Env :=
  { sampleEnv with
    contextAddFilesChecksum := fun globs => .ok ("add[" ++ ",".intercalate globs ++ "]") }

/-- Run arguments with one added context file. -/
def sampleArgsWithAddFiles : DockerRunArgs where
  contextAddFiles := ["extra.txt"]
  addHost := []

/-- The one-stage description `FROM alpine`, `COPY --from=<From> /a /b`. -/
def copyFromStages (From : String) : List Stage :=
  [⟨"", "alpine", [.CopyCommand ("COPY --from=" ++ From ++ " /a /b") From ["/a"]]⟩]

/-! ## The background host cleanup (`host_cleanup.go`) -/

/-- Type `HostCleanupOptions`; a `nil` pointer is `none`. -/
structure HostCleanupOptions where
  AllowedDockerStorageVolumeUsagePercentage : Option Nat
  AllowedDockerStorageVolumeUsageMarginPercentage : Option Nat
  AllowedLocalCacheVolumeUsagePercentage : Option Nat
  AllowedLocalCacheVolumeUsageMarginPercentage : Option Nat
  DockerServerStoragePath : Option String
  DryRun : Bool
  Force : Bool
deriving DecidableEq, Repr

/-- Type `AutoHostCleanupOptions`. -/
structure AutoHostCleanupOptions extends HostCleanupOptions where
  ForceShouldRun : Bool
deriving DecidableEq, Repr

/-- The verb `%v` of `fmt.Sprintf` on a `bool`. -/
def sprintBool (b : Bool) : String := if b then "true" else "false"

/-- The flag and the value appended for a numeric option that is set, in the way of
`args = append(args, flag, fmt.Sprintf("%d", *value))`. -/
def appendUint (args : List String) (flag : String) : Option Nat → List String
  | some value => args ++ [flag, toString value]
  | none => args

/-- The flag and the value appended for a string option that is set. -/
def appendString (args : List String) (flag : String) : Option String → List String
  | some value => args ++ [flag, value]
  | none => args

/-- The list `args` that `RunAutoHostCleanup` builds for the background process. -/
def autoHostCleanupArgs (options : AutoHostCleanupOptions) : List String :=
  let args := ["host", "cleanup", "--dry-run=" ++ sprintBool options.DryRun,
    "--force=" ++ sprintBool options.Force]
  let args := appendUint args "--allowed-docker-storage-volume-usage"
    options.AllowedDockerStorageVolumeUsagePercentage
  let args := appendUint args "--allowed-docker-storage-volume-usage-margin"
    options.AllowedDockerStorageVolumeUsageMarginPercentage
  let args := appendUint args "--allowed-local-cache-volume-usage"
    options.AllowedLocalCacheVolumeUsagePercentage
  let args := appendUint args "--allowed-docker-storage-volume-usage-margin"
    options.AllowedLocalCacheVolumeUsageMarginPercentage
  appendString args "--docker-server-storage-path" options.DockerServerStoragePath

/-- Function `RunAutoHostCleanup`: the argument list of the background process it starts,
if it starts one; `shouldRun` is the answer of `ShouldRunAutoHostCleanup`. -/
def RunAutoHostCleanup (shouldRun : Except Fault Bool) (options : AutoHostCleanupOptions) :
    Option (List String) :=
  if options.ForceShouldRun then some (autoHostCleanupArgs options)
  else
    match shouldRun with
    | .error _ => none
    | .ok false => none
    | .ok true => some (autoHostCleanupArgs options)

/-- Options of the automatic host cleanup with the two margins set. -/
def sampleCleanupOptions (dockerMargin localCacheMargin : Option Nat) :
    AutoHostCleanupOptions where
  AllowedDockerStorageVolumeUsagePercentage := none
  AllowedDockerStorageVolumeUsageMarginPercentage := dockerMargin
  AllowedLocalCacheVolumeUsagePercentage := none
  AllowedLocalCacheVolumeUsageMarginPercentage := localCacheMargin
  DockerServerStoragePath := none
  DryRun := false
  Force := false
  ForceShouldRun := true

/-! ## The git archive stage (`git_archive.go`) -/

/-- The comparison `<` of Go strings on their characters: the first differing character
decides, and a proper prefix is less. -/
def stringLess : List Char → List Char → Bool
  | _, [] => false
  | [], _ :: _ => true
  | a :: as, b :: bs =>
    if a.toNat < b.toNat then true
    else if b.toNat < a.toNat then false
    else stringLess as bs

/-- The order `a <= b` of Go strings. -/
abbrev stringsLE (a b : String) : Prop := stringLess b.toList a.toList = false

/-- Function `sort.Strings`: the strings in ascending order. -/
def sortStrings (args : List String) : List String := args.insertionSort stringsLE

/-- The methods of a git mapping that `GitArchiveStage.GetDependencies` calls; the
inspection is `InspectBuildContextFiles` on the path matcher of the mapping. -/
structure GitMappingOps (μ : Type) where
  IsLocal : μ → Bool
  InspectBuildContextFiles : μ → Except Fault Unit
  GetParamshash : μ → String

/-- The loop of `GitArchiveStage.GetDependencies` over the git mappings; the last argument
is `args` so far. -/
def gitArchiveArgs {μ : Type} (ops : GitMappingOps μ) :
    List μ → List String → Except Fault (List String)
  | [], args => .ok args
  | gitMapping :: rest, args =>
    if ops.IsLocal gitMapping then
      match ops.InspectBuildContextFiles gitMapping with
      | .error err => .error err
      | .ok _ => gitArchiveArgs ops rest (args ++ [ops.GetParamshash gitMapping])
    else gitArchiveArgs ops rest (args ++ [ops.GetParamshash gitMapping])

/-- Method `GitArchiveStage.GetDependencies`; `sha256Hash` is `util.Sha256Hash`. -/
def GitArchiveStage.GetDependencies {μ : Type} (sha256Hash : List String → String)
    (ops : GitMappingOps μ) (gitMappings : List μ) : Except Fault String :=
  match gitArchiveArgs ops gitMappings [] with
  | .error err => .error err
  | .ok args => .ok (sha256Hash (sortStrings args))

/-- Git mappings given by their parameter hash and whether they are local; the inspection
rejects the local mapping with the hash `bad`. -/
def sampleMappingOps : GitMappingOps (String × Bool) where
  IsLocal := fun m => m.2
  InspectBuildContextFiles := fun m => if m.1 = "bad" then .error (.error "rejected") else .ok ()
  GetParamshash := fun m => m.1

/-- The concrete environment with a parser of embedded instructions that reads every
expression as the instruction `cmd`. -/
def sampleEnvParsing (cmd : Command) : Env :=
  { sampleEnv with parseInstruction := fun _ => .ok cmd }

/-- Stage `b` is a named base of stage `a`: another stage whose name is the base-image
reference of `a`. -/
def namedBase (stages : List Stage) (a b : Nat) : Prop :=
  a ≠ b ∧ ∃ sa sb, stages[a]? = some sa ∧ stages[b]? = some sb ∧ sa.BaseName = sb.Name

/-- Stage `b` is a named base of stage `a` that stands before it in the description. -/
def namedBaseBefore (stages : List Stage) (a b : Nat) : Prop :=
  b < a ∧ ∃ sa sb, stages[a]? = some sa ∧ stages[b]? = some sb ∧ sa.BaseName = sb.Name

/-- The description `FROM b AS a`, `FROM c AS b`, `FROM alpine AS c`, `RUN x`: each
named base stands after the stage that refers to it. -/
def forwardChain : List Stage :=
  [⟨"a", "b", []⟩, ⟨"b", "c", []⟩, ⟨"c", "alpine", [.Other "RUN x"]⟩]

/-- The description `FROM alpine AS c`, `RUN x`, `FROM c AS b`, `FROM b AS a`: each named
base stands before the stage that refers to it. -/
def backwardChain : List Stage :=
  [⟨"c", "alpine", [.Other "RUN x"]⟩, ⟨"b", "c", []⟩, ⟨"a", "b", []⟩]

/-- The two-stage description `FROM alpine`, then `FROM busybox` with the own instruction
`ONBUILD BOGUS`, whose embedded instruction does not parse. -/
def brokenSecondStage : List Stage :=
  [⟨"", "alpine", []⟩, ⟨"", "busybox", [.OnbuildCommand "BOGUS"]⟩]

/-- The bindings `bound` of a stage, followed by the bindings of `final` for the keys that
`bound` does not bind yet: the scope an instruction meets when the bindings that a
finished run defined later in its stage are already there. -/
def laterBindings (bound final : StrMap) : StrMap :=
  bound ++ final.filter fun kv => (bound.lookup kv.1).isNone

/-- The engine with the ARG map of stage `i` replaced. -/
def replaceStageArgs (d : DockerStages) (i : Nat) (m : StrMap) : DockerStages :=
  { d with dockerStageArgsHash := assocSet d.dockerStageArgsHash i m }

/-- The engine with the ENV map of stage `i` replaced. -/
def replaceStageEnvs (d : DockerStages) (i : Nat) (m : StrMap) : DockerStages :=
  { d with dockerStageEnvs := assocSet d.dockerStageEnvs i m }

/-- The engine `d` with the bindings that the engine `final` holds for stage `i` and that
`d` does not hold yet added to the ARG and ENV maps of stage `i`. -/
def withLaterBindings (d final : DockerStages) (i : Nat) : DockerStages :=
  replaceStageEnvs
    (replaceStageArgs d i (laterBindings (DockerStageArgsHash d i) (DockerStageArgsHash final i)))
    i (laterBindings (DockerStageEnvs d i) (DockerStageEnvs final i))

/-- No own instruction of the list reads a binding that is defined at or after it: along
the run of the instructions from the engine `d`, each instruction yields the same entries
and leaves the same bindings when the bindings of `final` that are not there yet are
added to the scope of the stage.  (Nothing is asked of the instructions after a failing
one.) -/
def stableCommands (env : Env) (args : DockerRunArgs) (fuel : Nat) (i : Nat)
    (final : DockerStages) : List Command → DockerStages → Prop
  | [], _ => True
  | cmd :: rest, d =>
    match dockerfileInstructionDependencies env args fuel d i cmd false false with
    | .error _ => True
    | .ok (contribution, d1) =>
      (∃ t1, dockerfileInstructionDependencies env args fuel (withLaterBindings d final i) i
          cmd false false = .ok (contribution, t1) ∧
        scopeOf t1 i = scopeOf (withLaterBindings d1 final i) i) ∧
      stableCommands env args fuel i final rest d1

/-- No instruction of the stage, inherited or own, reads a binding that the stage defines
at or after it: the inherited instructions yield the same entries with the bindings of
`final` added to the scope of the stage, and the own instructions are `stableCommands`. -/
def StableStage (env : Env) (args : DockerRunArgs) (fuel : Nat) (ds final : DockerStages)
    (i : Nat) (stage : Stage) : Prop :=
  ∀ resolvedBaseName, ShlexProcessWordWithMetaArgs env ds stage.BaseName = .ok resolvedBaseName →
    (inheritedContributions env args fuel i
        ((ds.imageOnBuildInstructions.lookup resolvedBaseName).getD [])
        (withLaterBindings ds final i)).map Prod.fst =
      (inheritedContributions env args fuel i
        ((ds.imageOnBuildInstructions.lookup resolvedBaseName).getD []) ds).map Prod.fst ∧
    stableCommands env args fuel i final stage.Commands ds

theorem lookup_assocSet_self {α β : Type} [DecidableEq α] (m : List (α × β)) (k : α) (v : β) :
    (assocSet m k v).lookup k = some v := by
  induction m with
  | nil => simp [assocSet, List.lookup]
  | cons kv rest ih =>
    obtain ⟨k1, v1⟩ := kv
    by_cases h : k1 = k
    · simp [assocSet, h, List.lookup]
    · have h2 : (k == k1) = false := by
        simpa using fun e => h e.symm
      simp [assocSet, h, List.lookup, h2, ih]

theorem lookup_assocSet_ne {α β : Type} [DecidableEq α] (m : List (α × β)) (k j : α) (v : β)
    (hne : j ≠ k) : (assocSet m k v).lookup j = m.lookup j := by
  induction m with
  | nil =>
    have h2 : (j == k) = false := by simpa using hne
    simp [assocSet, List.lookup, h2]
  | cons kv rest ih =>
    obtain ⟨k1, v1⟩ := kv
    by_cases h : k1 = k
    · subst h
      have h2 : (j == k1) = false := by simpa using hne
      simp [assocSet, List.lookup, h2]
    · by_cases h3 : j = k1
      · subst h3
        simp [assocSet, h, List.lookup]
      · have h4 : (j == k1) = false := by simpa using h3
        simp [assocSet, h, List.lookup, h4, ih]

theorem stageGet_stageSet_self (m : StageMaps) (i : Nat) (k v : String) :
    stageGet (stageSet m i k v) i = assocSet (stageGet m i) k v := by
  simp [stageGet, stageSet, lookup_assocSet_self]

theorem stageGet_stageSet_ne (m : StageMaps) (i j : Nat) (k v : String) (hne : j ≠ i) :
    stageGet (stageSet m i k v) j = stageGet m j := by
  simp [stageGet, stageSet, lookup_assocSet_ne _ _ _ _ hne]

/-! ### Stage ARG resolution -/

/-- C1. Override precedence for a stage ARG: when the external build-arg map binds the
resolved key to `o`, `AddDockerStageArg` returns `o` itself whatever the declared default
is, binds the resolved key to `o` in the ARG bindings of the stage, and the `ARG`
instruction contributes the single entry `ARG <resolvedKey>=o`. -/
theorem C1_override_precedence (env : Env) (args : DockerRunArgs) (fuel : Nat)
    (ds : DockerStages) (dockerStageID : Nat) (key : String) (value : Option String)
    (resolvedKey o : String)
    (hkey : ShlexProcessWordWithStageArgsAndEnvs env ds dockerStageID key = .ok resolvedKey)
    (hover : ds.dockerBuildArgsHash.lookup resolvedKey = some o) :
    ∃ ds1 : DockerStages,
      AddDockerStageArg env ds dockerStageID key (value.getD "") = .ok ((resolvedKey, o), ds1) ∧
      (DockerStageArgsHash ds1 dockerStageID).lookup resolvedKey = some o ∧
      dockerfileInstructionDependencies env args fuel ds dockerStageID
          (.ArgCommand [⟨key, value⟩]) false false =
        .ok ((["ARG " ++ resolvedKey ++ "=" ++ o], []), ds1) := by
  have hadd : AddDockerStageArg env ds dockerStageID key (value.getD "") =
      .ok ((resolvedKey, o), setDockerStageArg ds dockerStageID resolvedKey o) := by
    simp [AddDockerStageArg, hkey, hover]
  refine ⟨_, hadd, ?_, ?_⟩
  · simp [DockerStageArgsHash, setDockerStageArg, stageGet_stageSet_self, lookup_assocSet_self]
  · simp [dockerfileInstructionDependencies, instructionDependenciesBody, argCommandLoop,
      processArgFunc, hadd]

/-- C1 at a concrete stage: `ARG X=default` with the override `X=override`. -/
theorem C1_override_precedence_witness :
    ∃ ds1 : DockerStages,
      AddDockerStageArg sampleEnv (sampleEngine [] [("X", "override")] 0) 0 "X"
          ((some "default").getD "") = .ok (("X", "override"), ds1) ∧
      (DockerStageArgsHash ds1 0).lookup "X" = some "override" ∧
      dockerfileInstructionDependencies sampleEnv sampleArgs 0
          (sampleEngine [] [("X", "override")] 0) 0
          (.ArgCommand [⟨"X", some "default"⟩]) false false =
        .ok ((["ARG " ++ "X" ++ "=" ++ "override"], []), ds1) :=
  C1_override_precedence sampleEnv sampleArgs 0 (sampleEngine [] [("X", "override")] 0) 0 "X"
    (some "default") "X" "override" rfl rfl

/-- C2. Global fallback for a stage ARG: with an empty declared default and no external
override of the resolved key, `AddDockerStageArg` takes the value the global (meta)
bindings give the resolved key, the empty string when they give none, binds it in the ARG
bindings of the stage, and the `ARG` instruction contributes `ARG <resolvedKey>=<value>`. -/
theorem C2_global_fallback (env : Env) (args : DockerRunArgs) (fuel : Nat)
    (ds : DockerStages) (dockerStageID : Nat) (key : String) (value : Option String)
    (resolvedKey : String)
    (hkey : ShlexProcessWordWithStageArgsAndEnvs env ds dockerStageID key = .ok resolvedKey)
    (hempty : value.getD "" = "")
    (hover : ds.dockerBuildArgsHash.lookup resolvedKey = none) :
    ∃ ds1 : DockerStages,
      AddDockerStageArg env ds dockerStageID key (value.getD "") =
        .ok ((resolvedKey, (ds.dockerMetaArgsHash.lookup resolvedKey).getD ""), ds1) ∧
      (DockerStageArgsHash ds1 dockerStageID).lookup resolvedKey =
        some ((ds.dockerMetaArgsHash.lookup resolvedKey).getD "") ∧
      dockerfileInstructionDependencies env args fuel ds dockerStageID
          (.ArgCommand [⟨key, value⟩]) false false =
        .ok ((["ARG " ++ resolvedKey ++ "=" ++
          (ds.dockerMetaArgsHash.lookup resolvedKey).getD ""], []), ds1) := by
  have hadd : AddDockerStageArg env ds dockerStageID key (value.getD "") =
      .ok ((resolvedKey, (ds.dockerMetaArgsHash.lookup resolvedKey).getD ""),
        setDockerStageArg ds dockerStageID resolvedKey
          ((ds.dockerMetaArgsHash.lookup resolvedKey).getD "")) := by
    simp [AddDockerStageArg, hkey, hover, hempty, mapGet]
  refine ⟨_, hadd, ?_, ?_⟩
  · simp [DockerStageArgsHash, setDockerStageArg, stageGet_stageSet_self, lookup_assocSet_self]
  · simp [dockerfileInstructionDependencies, instructionDependenciesBody, argCommandLoop,
      processArgFunc, hadd]

/-- C2 at a concrete stage: `ARG X` after the global `ARG X=g` gives `ARG X=g`. -/
theorem C2_global_fallback_witness :
    ∃ ds1 : DockerStages,
      AddDockerStageArg sampleEnv
          (setDockerMetaArg (sampleEngine [] [] 0) "X" "g") 0 "X"
          ((none : Option String).getD "") = .ok (("X", ((some "g" : Option String)).getD ""), ds1) ∧
      (DockerStageArgsHash ds1 0).lookup "X" = some "g" ∧
      dockerfileInstructionDependencies sampleEnv sampleArgs 0
          (setDockerMetaArg (sampleEngine [] [] 0) "X" "g") 0
          (.ArgCommand [⟨"X", none⟩]) false false =
        .ok ((["ARG X=g"], []), ds1) :=
  C2_global_fallback sampleEnv sampleArgs 0
    (setDockerMetaArg (sampleEngine [] [] 0) "X" "g") 0 "X" none "X" rfl rfl rfl

/-! ### Merged scopes -/

theorem foldl_toArgsArrayEntry_nodup (m : StrMap) (acc keys : List String)
    (hnd : (m.map Prod.fst).Nodup) (hdis : ∀ k ∈ m.map Prod.fst, k ∉ keys) :
    m.foldl toArgsArrayEntry (acc, keys) = (acc ++ bindingList m, keys ++ m.map Prod.fst) := by
  induction m generalizing acc keys with
  | nil => simp [bindingList]
  | cons kv rest ih =>
    obtain ⟨k, v⟩ := kv
    have hk : k ∉ keys := hdis k (by simp)
    simp only [List.map_cons, List.nodup_cons] at hnd
    have hstep : toArgsArrayEntry (acc, keys) (k, v) = (acc ++ [k ++ "=" ++ v], keys ++ [k]) := by
      simp [toArgsArrayEntry, hk]
    rw [List.foldl_cons, hstep, ih _ _ hnd.2]
    · simp [bindingList]
    · intro j hj hmem
      rcases List.mem_append.mp hmem with h | h
      · exact hdis j (by simp [List.mem_map] at hj ⊢; exact Or.inr hj) h
      · simp only [List.mem_singleton] at h
        subst h
        exact hnd.1 hj

theorem toArgsArray_single (m : StrMap) (hnd : (m.map Prod.fst).Nodup) :
    toArgsArray [m] = bindingList m := by
  have h := foldl_toArgsArrayEntry_nodup m [] [] hnd (by simp)
  simp [toArgsArray, toArgsArrayPass, List.range, List.range.loop, h]

theorem assocSet_keys_nodup {β : Type} (m : List (String × β)) (k : String) (v : β)
    (hnd : (m.map Prod.fst).Nodup) : ((assocSet m k v).map Prod.fst).Nodup := by
  induction m with
  | nil => simp [assocSet]
  | cons kv rest ih =>
    obtain ⟨k1, v1⟩ := kv
    simp only [List.map_cons, List.nodup_cons] at hnd
    by_cases h : k1 = k
    · subst h
      simpa [assocSet] using hnd
    · have hmem : ∀ j, j ∈ (assocSet rest k v).map Prod.fst → j = k ∨ j ∈ rest.map Prod.fst := by
        intro j
        clear ih hnd
        induction rest with
        | nil => simp [assocSet]
        | cons kv2 rest2 ih2 =>
          obtain ⟨k2, v2⟩ := kv2
          by_cases h2 : k2 = k
          · subst h2
            simp [assocSet]
          · simp only [assocSet, h2, if_false, List.map_cons, List.mem_cons]
            rintro (hj | hj)
            · exact Or.inr (Or.inl hj)
            · rcases ih2 hj with h3 | h3
              · exact Or.inl h3
              · exact Or.inr (Or.inr h3)
      simp only [assocSet, h, if_false, List.map_cons, List.nodup_cons]
      refine ⟨?_, ih hnd.2⟩
      intro hin
      rcases hmem _ hin with h3 | h3
      · exact h h3
      · exact hnd.1 h3

/-! ### Global ARG resolution -/

theorem addDockerMetaArg_eq (env : Env) (ds : DockerStages) (key value : String)
    (hnd : (ds.dockerMetaArgsHash.map Prod.fst).Nodup) :
    (match addDockerMetaArg env ds key value with
      | .error err => (.error err : Except Fault DockerStages)
      | .ok (_, ds1) => .ok ds1) =
    (match resolveGlobalArg env ds.dockerBuildArgsHash ds.dockerMetaArgsHash key value with
      | .error err => .error err
      | .ok globals => .ok { ds with dockerMetaArgsHash := globals }) := by
  simp only [addDockerMetaArg, resolveGlobalArg, ShlexProcessWordWithMetaArgs, shlexProcessWord,
    toArgsArray_single _ hnd]
  cases env.processWord key (bindingList ds.dockerMetaArgsHash) with
  | error e => rfl
  | ok rk =>
    simp only []
    cases ds.dockerBuildArgsHash.lookup rk with
    | some o => rfl
    | none =>
      simp only []
      cases env.processWord value (bindingList ds.dockerMetaArgsHash) with
      | error e => rfl
      | ok rv => rfl

theorem resolveGlobalArg_nodup (env : Env) (overrides globals globals1 : StrMap)
    (key value : String) (hnd : (globals.map Prod.fst).Nodup)
    (h : resolveGlobalArg env overrides globals key value = .ok globals1) :
    (globals1.map Prod.fst).Nodup := by
  unfold resolveGlobalArg at h
  split at h
  · cases h
  · split at h
    · cases h
      exact assocSet_keys_nodup _ _ _ hnd
    · split at h
      · cases h
      · cases h
        exact assocSet_keys_nodup _ _ _ hnd

theorem metaArgPairs_eq (env : Env) (pairs : List KeyValuePairOptional) (ds : DockerStages)
    (hnd : (ds.dockerMetaArgsHash.map Prod.fst).Nodup) :
    metaArgPairs env pairs ds =
      (match resolveGlobalArgs env ds.dockerBuildArgsHash
          (pairs.map fun kv => (kv.Key, kv.Value.getD "")) ds.dockerMetaArgsHash with
        | .error err => .error err
        | .ok globals => .ok { ds with dockerMetaArgsHash := globals }) := by
  induction pairs generalizing ds with
  | nil => simp [metaArgPairs, resolveGlobalArgs]
  | cons kv rest ih =>
    have h1 := addDockerMetaArg_eq env ds kv.Key (kv.Value.getD "") hnd
    simp only [metaArgPairs, List.map_cons, resolveGlobalArgs]
    cases hr : resolveGlobalArg env ds.dockerBuildArgsHash ds.dockerMetaArgsHash kv.Key
        (kv.Value.getD "") with
    | error e =>
      rw [hr] at h1
      cases ha : addDockerMetaArg env ds kv.Key (kv.Value.getD "") with
      | error e2 =>
        rw [ha] at h1
        simp only [] at h1 ⊢
        exact h1
      | ok r =>
        rw [ha] at h1
        cases h1
    | ok globals =>
      rw [hr] at h1
      cases ha : addDockerMetaArg env ds kv.Key (kv.Value.getD "") with
      | error e2 =>
        rw [ha] at h1
        cases h1
      | ok r =>
        rw [ha] at h1
        obtain ⟨kvr, ds1⟩ := r
        simp only [Except.ok.injEq] at h1
        subst h1
        simp only []
        rw [ih _ (resolveGlobalArg_nodup env _ _ _ _ _ hnd hr)]

theorem resolveGlobalArgs_nodup (env : Env) (overrides : StrMap) (pairs : List (String × String))
    (globals globals1 : StrMap) (hnd : (globals.map Prod.fst).Nodup)
    (h : resolveGlobalArgs env overrides pairs globals = .ok globals1) :
    (globals1.map Prod.fst).Nodup := by
  induction pairs generalizing globals with
  | nil =>
    simp only [resolveGlobalArgs, Except.ok.injEq] at h
    subst h
    exact hnd
  | cons kv rest ih =>
    obtain ⟨key, value⟩ := kv
    simp only [resolveGlobalArgs] at h
    cases hr : resolveGlobalArg env overrides globals key value with
    | error e =>
      rw [hr] at h
      cases h
    | ok g =>
      rw [hr] at h
      exact ih g (resolveGlobalArg_nodup env _ _ _ _ _ hnd hr) h

theorem resolveGlobalArgs_append (env : Env) (overrides : StrMap)
    (xs ys : List (String × String)) (globals : StrMap) :
    resolveGlobalArgs env overrides (xs ++ ys) globals =
      (match resolveGlobalArgs env overrides xs globals with
        | .error err => .error err
        | .ok globals1 => resolveGlobalArgs env overrides ys globals1) := by
  induction xs generalizing globals with
  | nil => simp [resolveGlobalArgs]
  | cons kv rest ih =>
    obtain ⟨key, value⟩ := kv
    simp only [List.cons_append, resolveGlobalArgs]
    cases resolveGlobalArg env overrides globals key value with
    | error e => rfl
    | ok g => exact ih g

theorem metaArgInstructions_eq (env : Env) (instrs : List (List KeyValuePairOptional))
    (ds : DockerStages) (hnd : (ds.dockerMetaArgsHash.map Prod.fst).Nodup) :
    metaArgInstructions env instrs ds =
      (match resolveGlobalArgs env ds.dockerBuildArgsHash
          (instrs.flatten.map fun kv => (kv.Key, kv.Value.getD "")) ds.dockerMetaArgsHash with
        | .error err => .error err
        | .ok globals => .ok { ds with dockerMetaArgsHash := globals }) := by
  induction instrs generalizing ds with
  | nil => simp [metaArgInstructions, resolveGlobalArgs]
  | cons pairs rest ih =>
    simp only [metaArgInstructions, List.flatten_cons, List.map_append, resolveGlobalArgs_append,
      metaArgPairs_eq env pairs ds hnd]
    cases hr : resolveGlobalArgs env ds.dockerBuildArgsHash
        (pairs.map fun kv => (kv.Key, kv.Value.getD "")) ds.dockerMetaArgsHash with
    | error e => rfl
    | ok g =>
      simp only []
      rw [ih _ (resolveGlobalArgs_nodup env _ _ _ _ hnd hr)]

/-- C3. Global ARG resolution: `NewDockerStages` processes the meta ARG declarations in
order, each one by the global rule (key resolved against the global bindings so far; an
external override of the resolved key stored as it stands, else the declared default
resolved against the global bindings so far), the engine holding the resulting global
bindings, and it fails with the first resolution error. -/
theorem C3_global_arg_resolution (env : Env) (dockerStages : List Stage)
    (dockerBuildArgsHash : StrMap) (dockerMetaArgs : List (List KeyValuePairOptional))
    (dockerTargetStageIndex : Int) :
    NewDockerStages env dockerStages dockerBuildArgsHash dockerMetaArgs dockerTargetStageIndex =
      (match resolveGlobalArgs env dockerBuildArgsHash
          (dockerMetaArgs.flatten.map fun kv => (kv.Key, kv.Value.getD "")) [] with
        | .error err => .error err
        | .ok globals =>
          .ok (newEngine dockerStages dockerBuildArgsHash globals dockerTargetStageIndex)) := by
  unfold NewDockerStages
  rw [metaArgInstructions_eq env dockerMetaArgs _ (by simp)]
  rfl

/-- C4 (the code at the failing input). A key bound in the stage ARGs and in the stage ENVs
gets one entry, and it carries the value of the ARG scope, the scope added first:
`toArgsArray` never reads its scopes from the last one back. -/
theorem C4_first_scope_wins :
    (∀ key a e : String, toArgsArray [[(key, a)], [(key, e)]] = [key ++ "=" ++ a]) ∧
    ShlexProcessWordWithStageArgsAndEnvs sampleEnv
      (setDockerStageEnv (setDockerStageArg (sampleEngine [] [] 0) 0 "X" "a") 0 "X" "e") 0 "$X" =
        .ok "a" := by
  refine ⟨?_, rfl⟩
  intro key a e
  simp [toArgsArray, toArgsArrayPass, toArgsArrayEntry, List.range, List.range.loop]

/-! ### The first pass over one stage -/

theorem inheritedLoop_eq (env : Env) (args : DockerRunArgs) (fuel ind : Nat)
    (instrs : List String) (ds : DockerStages) (acc : List String) :
    inheritedLoop env args fuel ind instrs ds acc =
      (match inheritedContributions env args fuel ind instrs ds with
        | .error err => .error err
        | .ok (cs, ds1) => .ok (acc ++ cs.flatten, ds1)) := by
  induction instrs generalizing ds acc with
  | nil => simp [inheritedLoop, inheritedContributions]
  | cons instruction rest ih =>
    simp only [inheritedLoop, inheritedContributions]
    cases dockerfileOnBuildInstructionDependencies env args fuel ds ind instruction true with
    | error e => rfl
    | ok r =>
      obtain ⟨⟨x, c⟩, ds1⟩ := r
      simp only []
      rw [ih]
      cases inheritedContributions env args fuel ind rest ds1 with
      | error e => rfl
      | ok r2 =>
        obtain ⟨cs, ds2⟩ := r2
        simp [List.append_assoc]

theorem commandsLoop_eq (env : Env) (args : DockerRunArgs) (fuel ind : Nat)
    (cmds : List Command) (ds : DockerStages) (acc accOnBuild : List String) :
    commandsLoop env args fuel ind cmds ds acc accOnBuild =
      (match ownContributions env args fuel ind cmds ds with
        | .error err => .error err
        | .ok (cs, ds1) =>
          .ok ((acc ++ (cs.map Prod.fst).flatten, accOnBuild ++ (cs.map Prod.snd).flatten),
            ds1)) := by
  induction cmds generalizing ds acc accOnBuild with
  | nil => simp [commandsLoop, ownContributions]
  | cons cmd rest ih =>
    simp only [commandsLoop, ownContributions]
    cases dockerfileInstructionDependencies env args fuel ds ind cmd false false with
    | error e => rfl
    | ok r =>
      obtain ⟨⟨c, o⟩, ds1⟩ := r
      simp only []
      rw [ih]
      cases ownContributions env args fuel ind rest ds1 with
      | error e => rfl
      | ok r2 =>
        obtain ⟨cs, ds2⟩ := r2
        simp [List.append_assoc]

theorem stageDependencies_eq_layout (env : Env) (args : DockerRunArgs) (fuel : Nat)
    (ds : DockerStages) (ind : Nat) (stage : Stage) :
    stageDependencies env args fuel ds ind stage =
      stageDependenciesLayout env args fuel ds ind stage := by
  unfold stageDependencies stageDependenciesLayout ShlexProcessWordWithMetaArgs shlexProcessWord
  cases env.processWord stage.BaseName (toArgsArray [ds.dockerMetaArgsHash]) with
  | error e => rfl
  | ok rb =>
    simp only []
    cases hl : ds.imageOnBuildInstructions.lookup rb with
    | none =>
      simp only [Option.getD, inheritedContributions, commandsLoop_eq]
      cases ownContributions env args fuel ind stage.Commands ds with
      | error e => rfl
      | ok r =>
        obtain ⟨cs, ds2⟩ := r
        simp
    | some instrs =>
      simp only [Option.getD, inheritedLoop_eq]
      cases inheritedContributions env args fuel ind instrs ds with
      | error e => rfl
      | ok r =>
        obtain ⟨inh, ds1⟩ := r
        simp only [commandsLoop_eq]
        cases ownContributions env args fuel ind stage.Commands ds1 with
        | error e => rfl
        | ok r2 =>
          obtain ⟨cs, ds2⟩ := r2
          simp

/-- C6. Layout of the per-stage dependency list: what the first loop of `GetDependencies`
computes for a stage is, in this order, the add-host aliases, the base name resolved
against the global bindings only, the strings contributed by the inherited instructions
the OnBuild Index records for that resolved base name, and the primary contributions of
the stage's own instructions in file order (and it fails exactly when one of these
fails). -/
theorem C6_stage_list_layout (env : Env) (args : DockerRunArgs) (fuel : Nat)
    (ds : DockerStages) (ind : Nat) (stage : Stage) :
    stageDependencies env args fuel ds ind stage =
      stageDependenciesLayout env args fuel ds ind stage := by
  unfold stageDependencies stageDependenciesLayout ShlexProcessWordWithMetaArgs shlexProcessWord
  cases env.processWord stage.BaseName (toArgsArray [ds.dockerMetaArgsHash]) with
  | error e => rfl
  | ok rb =>
    simp only []
    cases hl : ds.imageOnBuildInstructions.lookup rb with
    | none =>
      simp only [Option.getD, inheritedContributions, commandsLoop_eq]
      cases ownContributions env args fuel ind stage.Commands ds with
      | error e => rfl
      | ok r =>
        obtain ⟨cs, ds2⟩ := r
        simp
    | some instrs =>
      simp only [Option.getD, inheritedLoop_eq]
      cases inheritedContributions env args fuel ind instrs ds with
      | error e => rfl
      | ok r =>
        obtain ⟨inh, ds1⟩ := r
        simp only [commandsLoop_eq]
        cases ownContributions env args fuel ind stage.Commands ds1 with
        | error e => rfl
        | ok r2 =>
          obtain ⟨cs, ds2⟩ := r2
          simp

/-! ### The propagation pass -/

theorem getD_set_self (l : List (List String)) (i : Nat) (x : List String)
    (h : i < l.length) : (l.set i x).getD i [] = x := by
  simp [List.getD_eq_getElem?_getD, List.getElem?_set, h]

theorem getD_set_ne (l : List (List String)) (i j : Nat) (x : List String) (h : i ≠ j) :
    (l.set i x).getD j [] = l.getD j [] := by
  simp [List.getD_eq_getElem?_getD, List.getElem?_set, h]

theorem namedSegments_congr (baseName : String) (ind : Nat)
    (onb onb2 cur cur2 : List (List String)) (names : List String) (rel : Nat)
    (h : ∀ k, k < names.length → ind ≠ rel + k → baseName = names.getD k "" →
      cur.getD (rel + k) [] = cur2.getD (rel + k) [] ∧
        onb.getD (rel + k) [] = onb2.getD (rel + k) []) :
    namedSegments baseName ind onb cur names rel =
      namedSegments baseName ind onb2 cur2 names rel := by
  induction names generalizing rel with
  | nil => rfl
  | cons name rest ih =>
    simp only [namedSegments]
    have hrest : namedSegments baseName ind onb cur rest (rel + 1) =
        namedSegments baseName ind onb2 cur2 rest (rel + 1) := by
      apply ih
      intro k hk hne hb
      have := h (k + 1) (by simpa using hk) (by omega) (by simpa using hb)
      have e : rel + (k + 1) = rel + 1 + k := by omega
      rw [e] at this
      exact this
    rw [hrest]
    by_cases hc : ind ≠ rel ∧ baseName = name
    · have := h 0 (by simp) (by simpa using hc.1) (by simpa using hc.2)
      simp only [Nat.add_zero] at this
      simp only [hc, and_self, if_true, ne_eq, not_false_eq_true, this.1, this.2]
    · simp only [hc, if_false]

theorem relatedStagesLoop_eq (stage : Stage) (ind : Nat) (onb : List (List String))
    (rest : List Stage) (rel : Nat) (deps : List (List String)) (hind : ind < deps.length) :
    relatedStagesLoop stage ind onb rest rel deps =
      deps.set ind (deps.getD ind [] ++
        namedSegments stage.BaseName ind onb deps (rest.map fun s => s.Name) rel) := by
  induction rest generalizing rel deps with
  | nil =>
    simp only [relatedStagesLoop, List.map_nil, namedSegments, List.append_nil]
    apply List.ext_getElem?
    intro j
    by_cases hj : ind = j
    · subst hj
      simp [List.getElem?_set, hind, List.getD_eq_getElem?_getD]
    · simp [List.getElem?_set, hj]
  | cons relatedStage rest ih =>
    simp only [relatedStagesLoop, List.map_cons, namedSegments]
    by_cases h1 : ind = rel
    · simp only [h1, if_true, ne_eq, not_true_eq_false, false_and, if_false, List.nil_append]
      rw [← h1]
      exact ih (rel + 1) deps hind |> fun e => by rw [h1] at e ⊢; exact e
    · by_cases h2 : stage.BaseName = relatedStage.Name
      · simp only [h1, if_false, h2, if_true, ne_eq, not_false_eq_true, and_self]
        have hset : (deps.set ind (deps.getD ind [] ++ deps.getD rel [])).set ind
            ((deps.set ind (deps.getD ind [] ++ deps.getD rel [])).getD ind [] ++
              onb.getD rel []) =
            deps.set ind (deps.getD ind [] ++ deps.getD rel [] ++ onb.getD rel []) := by
          rw [getD_set_self _ _ _ hind, List.set_set]
        rw [hset, ih (rel + 1) _ (by simpa using hind), getD_set_self _ _ _ hind, List.set_set]
        have hc : namedSegments stage.BaseName ind onb
            (deps.set ind (deps.getD ind [] ++ deps.getD rel [] ++ onb.getD rel []))
            (rest.map fun s => s.Name) (rel + 1) =
            namedSegments stage.BaseName ind onb deps (rest.map fun s => s.Name) (rel + 1) := by
          apply namedSegments_congr
          intro k _ hne _
          exact ⟨getD_set_ne _ _ _ _ hne, rfl⟩
        rw [hc]
        simp [List.append_assoc, h2]
      · simp only [h1, if_false, h2, ne_eq, not_false_eq_true, and_false, List.nil_append]
        exact ih (rel + 1) deps hind

theorem copySegments_congr (ind n : Nat) (cur cur2 : List (List String)) (cmds : List Command)
    (acc : List String)
    (h : ∀ text From sources r, Command.CopyCommand text From sources ∈ cmds →
      atoi From = some r → 0 ≤ r → r < (n : Int) → r.toNat ≠ ind →
        cur.getD r.toNat [] = cur2.getD r.toNat []) :
    copySegments ind n cur cmds acc = copySegments ind n cur2 cmds acc := by
  induction cmds generalizing acc with
  | nil => rfl
  | cons cmd rest ih =>
    have hrest : ∀ acc2, copySegments ind n cur rest acc2 = copySegments ind n cur2 rest acc2 := by
      intro acc2
      apply ih
      intro text From sources r hm
      exact h text From sources r (List.mem_cons_of_mem _ hm)
    cases cmd with
    | CopyCommand text From sources =>
      simp only [copySegments]
      split
      · cases ha : atoi From with
        | none => simp only [hrest]
        | some r =>
          simp only []
          split
          · split
            · rfl
            · rename_i hlt hneg
              by_cases hri : r.toNat = ind
              · simp only [hri, if_true, hrest]
              · have := h text From sources r (List.mem_cons_self _ _) ha (by omega) hlt hri
                simp only [hri, if_false, this, hrest]
          · exact hrest acc
      · exact hrest acc
    | ArgCommand a => simp only [copySegments, hrest]
    | EnvCommand a => simp only [copySegments, hrest]
    | AddCommand a b => simp only [copySegments, hrest]
    | OnbuildCommand a => simp only [copySegments, hrest]
    | Other a => simp only [copySegments, hrest]
    | Unknown => simp only [copySegments, hrest]

theorem copyFromLoop_eq (ind : Nat) (cmds : List Command) (deps : List (List String))
    (hind : ind < deps.length) :
    copyFromLoop ind cmds deps =
      (match copySegments ind deps.length deps cmds (deps.getD ind []) with
        | .error err => .error err
        | .ok a => .ok (deps.set ind a)) := by
  induction cmds generalizing deps with
  | nil =>
    simp only [copyFromLoop, copySegments]
    congr 1
    apply List.ext_getElem?
    intro j
    by_cases hj : ind = j
    · subst hj
      simp [List.getElem?_set, hind, List.getD_eq_getElem?_getD]
    · simp [List.getElem?_set, hj]
  | cons cmd rest ih =>
    cases cmd with
    | CopyCommand text From sources =>
      simp only [copyFromLoop, copySegments]
      split
      · cases ha : atoi From with
        | none => exact ih deps hind
        | some r =>
          simp only []
          split
          · split
            · rfl
            · rw [ih _ (by simpa using hind), getD_set_self _ _ _ hind, List.length_set]
              have hacc : (deps.getD ind [] ++ if r.toNat = ind then deps.getD ind []
                  else deps.getD r.toNat []) = deps.getD ind [] ++ deps.getD r.toNat [] := by
                by_cases hri : r.toNat = ind
                · simp [hri]
                · simp [hri]
              rw [hacc]
              have hc : copySegments ind deps.length
                  (deps.set ind (deps.getD ind [] ++ deps.getD r.toNat [])) rest
                  (deps.getD ind [] ++ deps.getD r.toNat []) =
                  copySegments ind deps.length deps rest
                  (deps.getD ind [] ++ deps.getD r.toNat []) := by
                apply copySegments_congr
                intro _ _ _ r2 _ _ _ _ hne
                exact getD_set_ne _ _ _ _ (fun e => hne e.symm)
              rw [hc]
              cases copySegments ind deps.length deps rest
                  (deps.getD ind [] ++ deps.getD r.toNat []) with
              | error e => rfl
              | ok a => simp [List.set_set]
          · exact ih deps hind
      · exact ih deps hind
    | ArgCommand a => simpa only [copyFromLoop, copySegments] using ih deps hind
    | EnvCommand a => simpa only [copyFromLoop, copySegments] using ih deps hind
    | AddCommand a b => simpa only [copyFromLoop, copySegments] using ih deps hind
    | OnbuildCommand a => simpa only [copyFromLoop, copySegments] using ih deps hind
    | Other a => simpa only [copyFromLoop, copySegments] using ih deps hind
    | Unknown => simpa only [copyFromLoop, copySegments] using ih deps hind

theorem propagateStep_eq (all : List Stage) (onb : List (List String)) (stage : Stage)
    (ind : Nat) (deps : List (List String)) (hind : ind < deps.length) :
    copyFromLoop ind stage.Commands (relatedStagesLoop stage ind onb all 0 deps) =
      (match stageFinal stage ind onb (all.map fun s => s.Name) deps with
        | .error err => .error err
        | .ok a => .ok (deps.set ind a)) := by
  rw [relatedStagesLoop_eq _ _ _ _ _ _ hind, copyFromLoop_eq _ _ _ (by simpa using hind),
    getD_set_self _ _ _ hind, List.length_set]
  unfold stageFinal
  have hc : ∀ x acc, copySegments ind deps.length (deps.set ind x) stage.Commands acc =
      copySegments ind deps.length deps stage.Commands acc := by
    intro x acc
    apply copySegments_congr
    intro _ _ _ r2 _ _ _ _ hne
    exact getD_set_ne _ _ _ _ (fun e => hne e.symm)
  rw [hc]
  cases copySegments ind deps.length deps stage.Commands
      (deps.getD ind [] ++ namedSegments stage.BaseName ind onb deps
        (all.map fun s => s.Name) 0) with
  | error e => rfl
  | ok a => simp [List.set_set]

theorem list_eq_of_getD (l1 l2 : List (List String)) (hlen : l1.length = l2.length)
    (h : ∀ j, l1.getD j [] = l2.getD j []) : l1 = l2 := by
  apply List.ext_getElem hlen
  intro j h1 h2
  have := h j
  simpa [List.getD_eq_getElem?_getD, List.getElem?_eq_getElem h1,
    List.getElem?_eq_getElem h2] using this

theorem propagateLoop_spec (all : List Stage) (onb : List (List String)) (rest : List Stage)
    (ind : Nat) (deps final : List (List String)) (hlen : ind + rest.length = deps.length)
    (h : propagateLoop all onb rest ind deps = .ok final) :
    final.length = deps.length ∧ (∀ j, j < ind → final.getD j [] = deps.getD j []) ∧
      ∀ k stage cur, rest[k]? = some stage → cur.length = deps.length →
        (∀ j, j < ind + k → cur.getD j [] = final.getD j []) →
        (∀ j, ind + k ≤ j → cur.getD j [] = deps.getD j []) →
        stageFinal stage (ind + k) onb (all.map fun s => s.Name) cur =
          .ok (final.getD (ind + k) []) := by
  induction rest generalizing ind deps with
  | nil =>
    simp only [propagateLoop, Except.ok.injEq] at h
    subst h
    refine ⟨rfl, fun _ _ => rfl, ?_⟩
    intro k stage cur hk
    simp at hk
  | cons stage0 rest ih =>
    have hind : ind < deps.length := by
      simp only [List.length_cons] at hlen
      omega
    simp only [propagateLoop] at h
    rw [propagateStep_eq all onb stage0 ind deps hind] at h
    cases hs : stageFinal stage0 ind onb (all.map fun s => s.Name) deps with
    | error e =>
      rw [hs] at h
      cases h
    | ok a =>
      rw [hs] at h
      simp only [] at h
      have hlen2 : ind + 1 + rest.length = (deps.set ind a).length := by
        simp only [List.length_cons] at hlen
        simp only [List.length_set]
        omega
      obtain ⟨h1, h2, h3⟩ := ih (ind + 1) (deps.set ind a) hlen2 h
      have hbelow : ∀ j, j < ind → final.getD j [] = deps.getD j [] := by
        intro j hj
        rw [h2 j (by omega), getD_set_ne _ _ _ _ (by omega)]
      refine ⟨by simpa using h1, hbelow, ?_⟩
      intro k stage cur hk hcl hlo hhi
      cases k with
      | zero =>
        simp only [List.getElem?_cons_zero, Option.some.injEq] at hk
        subst hk
        have hcur : cur = deps := by
          apply list_eq_of_getD _ _ hcl
          intro j
          by_cases hj : j < ind
          · rw [hlo j (by simpa using hj), hbelow j hj]
          · exact hhi j (by omega)
        subst hcur
        simp only [Nat.add_zero]
        rw [hs, h2 ind (by omega), getD_set_self _ _ _ hind]
      | succ k =>
        simp only [List.getElem?_cons_succ] at hk
        have e : ind + (k + 1) = ind + 1 + k := by omega
        rw [e] at hlo hhi ⊢
        apply h3 k stage cur hk (by simpa using hcl) hlo
        intro j hj
        rw [hhi j hj, getD_set_ne _ _ _ _ (by omega)]

theorem getD_listsAt (ind : Nat) (final own : List (List String))
    (hlen : final.length = own.length) (hind : ind ≤ own.length) (j : Nat) :
    (listsAt ind final own).getD j [] = if j < ind then final.getD j [] else own.getD j [] := by
  unfold listsAt
  simp only [List.getD_eq_getElem?_getD]
  by_cases hj : j < ind
  · rw [List.getElem?_append_left (by simp; omega)]
    simp [hj, List.getElem?_take]
  · rw [List.getElem?_append_right (by simp; omega)]
    have e : (List.take ind final).length = ind := by simp; omega
    simp only [hj, if_false, e, List.getElem?_drop]
    congr 2
    omega

theorem length_listsAt (ind : Nat) (final own : List (List String))
    (hlen : final.length = own.length) (hind : ind ≤ own.length) :
    (listsAt ind final own).length = own.length := by
  unfold listsAt
  simp
  omega

theorem propagate_final (all : List Stage) (onb own final : List (List String))
    (hlen : own.length = all.length) (h : propagateLoop all onb all 0 own = .ok final) :
    final.length = own.length ∧
      ∀ A stage, all[A]? = some stage →
        stageFinal stage A onb (all.map fun s => s.Name) (listsAt A final own) =
          .ok (final.getD A []) := by
  obtain ⟨h1, _, h3⟩ := propagateLoop_spec all onb all 0 own final (by omega) h
  refine ⟨h1, ?_⟩
  intro A stage hA
  have hAlt : A < all.length := by
    by_contra hge
    rw [List.getElem?_eq_none (by omega)] at hA
    cases hA
  have := h3 A stage (listsAt A final own) hA (length_listsAt A final own h1 (by omega))
    (by
      intro j hj
      rw [getD_listsAt A final own h1 (by omega)]
      simp only [Nat.zero_add] at hj
      simp [hj])
    (by
      intro j hj
      rw [getD_listsAt A final own h1 (by omega)]
      simp only [Nat.zero_add] at hj
      have : ¬ j < A := by omega
      simp [this])
  simpa using this

/-! ### Instructions that leave the bindings alone -/

theorem argCommandLoop_onbuild_state (env : Env) (i : Nat) (isBase : Bool)
    (pairs : List KeyValuePairOptional) (ds ds1 : DockerStages) (acc deps : List String)
    (h : argCommandLoop env i true isBase pairs ds acc = .ok (deps, ds1)) : ds1 = ds := by
  induction pairs generalizing ds acc with
  | nil =>
    simp only [argCommandLoop, Except.ok.injEq, Prod.mk.injEq] at h
    exact h.2.symm
  | cons kv rest ih =>
    simp only [argCommandLoop] at h
    cases hp : processArgFunc env ds i true isBase kv.Key (kv.Value.getD "") with
    | error e =>
      rw [hp] at h
      cases h
    | ok r =>
      obtain ⟨⟨rk, rv⟩, ds2⟩ := r
      rw [hp] at h
      simp only [] at h
      have h2 : ds2 = ds := by
        simp only [processArgFunc, Bool.not_true, Bool.false_eq_true, if_false] at hp
        split at hp
        · cases hp
        · simp only [Except.ok.injEq, Prod.mk.injEq] at hp
          exact hp.2.symm
      subst h2
      exact ih _ _ h

theorem envCommandLoop_onbuild_state (env : Env) (i : Nat) (isBase : Bool)
    (pairs : List KeyValuePair) (ds ds1 : DockerStages) (acc deps : List String)
    (h : envCommandLoop env i true isBase pairs ds acc = .ok (deps, ds1)) : ds1 = ds := by
  induction pairs generalizing ds acc with
  | nil =>
    simp only [envCommandLoop, Except.ok.injEq, Prod.mk.injEq] at h
    exact h.2.symm
  | cons kv rest ih =>
    simp only [envCommandLoop] at h
    cases hp : processEnvFunc env ds i true isBase kv.Key kv.Value with
    | error e =>
      rw [hp] at h
      cases h
    | ok r =>
      obtain ⟨⟨rk, rv⟩, ds2⟩ := r
      rw [hp] at h
      simp only [] at h
      have h2 : ds2 = ds := by
        simp only [processEnvFunc, Bool.not_true, Bool.false_eq_true, if_false] at hp
        split at hp
        · cases hp
        · simp only [Except.ok.injEq, Prod.mk.injEq] at hp
          exact hp.2.symm
      subst h2
      exact ih _ _ h

theorem body_state_unchanged (env : Env) (args : DockerRunArgs)
    (onBuild : DockerStages → Nat → String → Bool → Extracted)
    (hcb : ∀ ds i e b r ds1, onBuild ds i e b = .ok (r, ds1) → ds1 = ds)
    (ds ds1 : DockerStages) (i : Nat) (cmd : Command) (isOnb isBase : Bool)
    (r : List String × List String)
    (hmode : isOnb = true ∨ writesBindings cmd = false)
    (h : instructionDependenciesBody env args onBuild ds i cmd isOnb isBase = .ok (r, ds1)) :
    ds1 = ds := by
  cases cmd with
  | ArgCommand a =>
    rcases hmode with hm | hm
    · subst hm
      simp only [instructionDependenciesBody] at h
      cases hl : argCommandLoop env i true isBase a ds [] with
      | error e =>
        rw [hl] at h
        cases h
      | ok x =>
        obtain ⟨deps, ds2⟩ := x
        rw [hl] at h
        simp only [Except.ok.injEq, Prod.mk.injEq] at h
        rw [← h.2]
        exact argCommandLoop_onbuild_state env i isBase a ds ds2 [] deps hl
    · simp [writesBindings] at hm
  | EnvCommand a =>
    rcases hmode with hm | hm
    · subst hm
      simp only [instructionDependenciesBody] at h
      cases hl : envCommandLoop env i true isBase a ds [] with
      | error e =>
        rw [hl] at h
        cases h
      | ok x =>
        obtain ⟨deps, ds2⟩ := x
        rw [hl] at h
        simp only [Except.ok.injEq, Prod.mk.injEq] at h
        rw [← h.2]
        exact envCommandLoop_onbuild_state env i isBase a ds ds2 [] deps hl
    · simp [writesBindings] at hm
  | AddCommand text sources =>
    simp only [instructionDependenciesBody] at h
    split at h
    · cases h
    · split at h
      · cases h
      · simp only [Except.ok.injEq, Prod.mk.injEq] at h
        exact h.2.symm
  | CopyCommand text From sources =>
    simp only [instructionDependenciesBody] at h
    split at h
    · split at h
      · cases h
      · split at h
        · cases h
        · simp only [Except.ok.injEq, Prod.mk.injEq] at h
          exact h.2.symm
    · simp only [Except.ok.injEq, Prod.mk.injEq] at h
      exact h.2.symm
  | OnbuildCommand e =>
    simp only [instructionDependenciesBody] at h
    cases ho : onBuild ds i e false with
    | error e2 =>
      rw [ho] at h
      cases h
    | ok x =>
      obtain ⟨⟨c, o⟩, ds2⟩ := x
      rw [ho] at h
      simp only [Except.ok.injEq, Prod.mk.injEq] at h
      rw [← h.2]
      exact hcb _ _ _ _ _ _ ho
  | Other text =>
    simp only [instructionDependenciesBody] at h
    split at h
    · cases h
    · simp only [Except.ok.injEq, Prod.mk.injEq] at h
      exact h.2.symm
  | Unknown =>
    simp only [instructionDependenciesBody] at h
    cases h

theorem onBuild_state_unchanged (env : Env) (args : DockerRunArgs) (fuel : Nat) :
    ∀ (ds : DockerStages) (i : Nat) (e : String) (b : Bool) (r : List String × List String)
      (ds1 : DockerStages),
      dockerfileOnBuildInstructionDependencies env args fuel ds i e b = .ok (r, ds1) →
        ds1 = ds := by
  induction fuel with
  | zero =>
    intro ds i e b r ds1 h
    simp only [dockerfileOnBuildInstructionDependencies] at h
    cases h
  | succ fuel ih =>
    intro ds i e b r ds1 h
    simp only [dockerfileOnBuildInstructionDependencies] at h
    cases hp : env.parseInstruction e with
    | error e2 =>
      rw [hp] at h
      cases h
    | ok cmd =>
      rw [hp] at h
      simp only [] at h
      cases hb : instructionDependenciesBody env args
          (dockerfileOnBuildInstructionDependencies env args fuel) ds i cmd true b with
      | error e2 =>
        rw [hb] at h
        cases h
      | ok x =>
        obtain ⟨⟨c, o⟩, ds2⟩ := x
        rw [hb] at h
        simp only [Except.ok.injEq, Prod.mk.injEq] at h
        rw [← h.2]
        exact body_state_unchanged env args _ ih ds ds2 i cmd true b (c, o) (Or.inl rfl) hb

theorem instruction_state_unchanged (env : Env) (args : DockerRunArgs) (fuel : Nat)
    (ds ds1 : DockerStages) (i : Nat) (cmd : Command) (isOnb isBase : Bool)
    (r : List String × List String) (hmode : isOnb = true ∨ writesBindings cmd = false)
    (h : dockerfileInstructionDependencies env args fuel ds i cmd isOnb isBase = .ok (r, ds1)) :
    ds1 = ds :=
  body_state_unchanged env args _ (onBuild_state_unchanged env args fuel) ds ds1 i cmd isOnb
    isBase r hmode h

/-! ### Writes stay within the stage -/

theorem Frame.refl (i : Nat) (ds : DockerStages) : Frame i ds ds :=
  ⟨rfl, rfl, rfl, rfl, rfl, fun _ _ => ⟨rfl, rfl⟩⟩

theorem Frame.trans {i : Nat} {a b c : DockerStages} (h1 : Frame i a b) (h2 : Frame i b c) :
    Frame i a c := by
  obtain ⟨a1, a2, a3, a4, a5, a6⟩ := h1
  obtain ⟨b1, b2, b3, b4, b5, b6⟩ := h2
  refine ⟨b1.trans a1, b2.trans a2, b3.trans a3, b4.trans a4, b5.trans a5, ?_⟩
  intro j hj
  exact ⟨(b6 j hj).1.trans (a6 j hj).1, (b6 j hj).2.trans (a6 j hj).2⟩

theorem setDockerStageArg_frame (ds : DockerStages) (i : Nat) (k v : String) :
    Frame i ds (setDockerStageArg ds i k v) := by
  refine ⟨rfl, rfl, rfl, rfl, rfl, ?_⟩
  intro j hj
  exact ⟨by simp [DockerStageArgsHash, setDockerStageArg, stageGet_stageSet_ne _ _ _ _ _ hj], rfl⟩

theorem setDockerStageEnv_frame (ds : DockerStages) (i : Nat) (k v : String) :
    Frame i ds (setDockerStageEnv ds i k v) := by
  refine ⟨rfl, rfl, rfl, rfl, rfl, ?_⟩
  intro j hj
  exact ⟨rfl, by simp [DockerStageEnvs, setDockerStageEnv, stageGet_stageSet_ne _ _ _ _ _ hj]⟩

theorem AddDockerStageArg_frame (env : Env) (ds ds1 : DockerStages) (i : Nat) (k v : String)
    (r : String × String) (h : AddDockerStageArg env ds i k v = .ok (r, ds1)) :
    Frame i ds ds1 := by
  unfold AddDockerStageArg at h
  split at h
  · cases h
  · split at h
    · simp only [Except.ok.injEq, Prod.mk.injEq] at h
      rw [← h.2]
      exact setDockerStageArg_frame _ _ _ _
    · split at h
      · simp only [Except.ok.injEq, Prod.mk.injEq] at h
        rw [← h.2]
        exact setDockerStageArg_frame _ _ _ _
      · split at h
        · cases h
        · simp only [Except.ok.injEq, Prod.mk.injEq] at h
          rw [← h.2]
          exact setDockerStageArg_frame _ _ _ _

theorem AddDockerStageEnv_frame (env : Env) (ds ds1 : DockerStages) (i : Nat) (k v : String)
    (r : String × String) (h : AddDockerStageEnv env ds i k v = .ok (r, ds1)) :
    Frame i ds ds1 := by
  unfold AddDockerStageEnv at h
  split at h
  · cases h
  · split at h
    · cases h
    · simp only [Except.ok.injEq, Prod.mk.injEq] at h
      rw [← h.2]
      exact setDockerStageEnv_frame _ _ _ _

theorem argCommandLoop_frame (env : Env) (i : Nat) (isOnb isBase : Bool)
    (pairs : List KeyValuePairOptional) (ds ds1 : DockerStages) (acc deps : List String)
    (h : argCommandLoop env i isOnb isBase pairs ds acc = .ok (deps, ds1)) : Frame i ds ds1 := by
  induction pairs generalizing ds acc with
  | nil =>
    simp only [argCommandLoop, Except.ok.injEq, Prod.mk.injEq] at h
    rw [← h.2]
    exact Frame.refl _ _
  | cons kv rest ih =>
    simp only [argCommandLoop] at h
    cases hp : processArgFunc env ds i isOnb isBase kv.Key (kv.Value.getD "") with
    | error e =>
      rw [hp] at h
      cases h
    | ok r =>
      obtain ⟨⟨rk, rv⟩, ds2⟩ := r
      rw [hp] at h
      simp only [] at h
      have h2 : Frame i ds ds2 := by
        unfold processArgFunc at hp
        split at hp
        · exact AddDockerStageArg_frame _ _ _ _ _ _ _ hp
        · split at hp
          · cases hp
          · simp only [Except.ok.injEq, Prod.mk.injEq] at hp
            rw [← hp.2]
            exact Frame.refl _ _
      exact h2.trans (ih _ _ h)

theorem envCommandLoop_frame (env : Env) (i : Nat) (isOnb isBase : Bool)
    (pairs : List KeyValuePair) (ds ds1 : DockerStages) (acc deps : List String)
    (h : envCommandLoop env i isOnb isBase pairs ds acc = .ok (deps, ds1)) : Frame i ds ds1 := by
  induction pairs generalizing ds acc with
  | nil =>
    simp only [envCommandLoop, Except.ok.injEq, Prod.mk.injEq] at h
    rw [← h.2]
    exact Frame.refl _ _
  | cons kv rest ih =>
    simp only [envCommandLoop] at h
    cases hp : processEnvFunc env ds i isOnb isBase kv.Key kv.Value with
    | error e =>
      rw [hp] at h
      cases h
    | ok r =>
      obtain ⟨⟨rk, rv⟩, ds2⟩ := r
      rw [hp] at h
      simp only [] at h
      have h2 : Frame i ds ds2 := by
        unfold processEnvFunc at hp
        split at hp
        · exact AddDockerStageEnv_frame _ _ _ _ _ _ _ hp
        · split at hp
          · cases hp
          · simp only [Except.ok.injEq, Prod.mk.injEq] at hp
            rw [← hp.2]
            exact Frame.refl _ _
      exact h2.trans (ih _ _ h)

theorem instruction_frame (env : Env) (args : DockerRunArgs) (fuel : Nat)
    (ds ds1 : DockerStages) (i : Nat) (cmd : Command) (isOnb isBase : Bool)
    (r : List String × List String)
    (h : dockerfileInstructionDependencies env args fuel ds i cmd isOnb isBase = .ok (r, ds1)) :
    Frame i ds ds1 := by
  by_cases hw : writesBindings cmd = false
  · rw [instruction_state_unchanged env args fuel ds ds1 i cmd isOnb isBase r (Or.inr hw) h]
    exact Frame.refl _ _
  · cases cmd with
    | ArgCommand a =>
      simp only [dockerfileInstructionDependencies, instructionDependenciesBody] at h
      cases hl : argCommandLoop env i isOnb isBase a ds [] with
      | error e =>
        rw [hl] at h
        cases h
      | ok x =>
        obtain ⟨deps, ds2⟩ := x
        rw [hl] at h
        simp only [Except.ok.injEq, Prod.mk.injEq] at h
        rw [← h.2]
        exact argCommandLoop_frame _ _ _ _ _ _ _ _ _ hl
    | EnvCommand a =>
      simp only [dockerfileInstructionDependencies, instructionDependenciesBody] at h
      cases hl : envCommandLoop env i isOnb isBase a ds [] with
      | error e =>
        rw [hl] at h
        cases h
      | ok x =>
        obtain ⟨deps, ds2⟩ := x
        rw [hl] at h
        simp only [Except.ok.injEq, Prod.mk.injEq] at h
        rw [← h.2]
        exact envCommandLoop_frame _ _ _ _ _ _ _ _ _ hl
    | AddCommand a b => simp [writesBindings] at hw
    | CopyCommand a b c => simp [writesBindings] at hw
    | OnbuildCommand a => simp [writesBindings] at hw
    | Other a => simp [writesBindings] at hw
    | Unknown => simp [writesBindings] at hw

theorem inheritedContributions_state (env : Env) (args : DockerRunArgs) (fuel ind : Nat)
    (instrs : List String) (ds ds1 : DockerStages) (cs : List (List String))
    (h : inheritedContributions env args fuel ind instrs ds = .ok (cs, ds1)) : ds1 = ds := by
  induction instrs generalizing ds ds1 cs with
  | nil =>
    simp only [inheritedContributions, Except.ok.injEq, Prod.mk.injEq] at h
    exact h.2.symm
  | cons instruction rest ih =>
    simp only [inheritedContributions] at h
    cases ho : dockerfileOnBuildInstructionDependencies env args fuel ds ind instruction true with
    | error e =>
      rw [ho] at h
      cases h
    | ok x =>
      obtain ⟨⟨a, c⟩, ds2⟩ := x
      rw [ho] at h
      simp only [] at h
      have h2 := onBuild_state_unchanged env args fuel _ _ _ _ _ _ ho
      subst h2
      cases hr : inheritedContributions env args fuel ind rest ds2 with
      | error e =>
        rw [hr] at h
        cases h
      | ok y =>
        obtain ⟨cs2, ds3⟩ := y
        rw [hr] at h
        simp only [Except.ok.injEq, Prod.mk.injEq] at h
        rw [← h.2]
        exact ih _ _ _ hr

theorem ownContributions_frame (env : Env) (args : DockerRunArgs) (fuel ind : Nat)
    (cmds : List Command) (ds ds1 : DockerStages) (cs : List (List String × List String))
    (h : ownContributions env args fuel ind cmds ds = .ok (cs, ds1)) : Frame ind ds ds1 := by
  induction cmds generalizing ds ds1 cs with
  | nil =>
    simp only [ownContributions, Except.ok.injEq, Prod.mk.injEq] at h
    rw [← h.2]
    exact Frame.refl _ _
  | cons cmd rest ih =>
    simp only [ownContributions] at h
    cases ho : dockerfileInstructionDependencies env args fuel ds ind cmd false false with
    | error e =>
      rw [ho] at h
      cases h
    | ok x =>
      obtain ⟨c, ds2⟩ := x
      rw [ho] at h
      simp only [] at h
      have h2 := instruction_frame env args fuel _ _ _ _ _ _ _ ho
      cases hr : ownContributions env args fuel ind rest ds2 with
      | error e =>
        rw [hr] at h
        cases h
      | ok y =>
        obtain ⟨cs2, ds3⟩ := y
        rw [hr] at h
        simp only [Except.ok.injEq, Prod.mk.injEq] at h
        rw [← h.2]
        exact h2.trans (ih _ _ _ hr)

theorem ownContributions_state (env : Env) (args : DockerRunArgs) (fuel ind : Nat)
    (cmds : List Command) (ds ds1 : DockerStages) (cs : List (List String × List String))
    (hw : ∀ cmd ∈ cmds, writesBindings cmd = false)
    (h : ownContributions env args fuel ind cmds ds = .ok (cs, ds1)) : ds1 = ds := by
  induction cmds generalizing ds ds1 cs with
  | nil =>
    simp only [ownContributions, Except.ok.injEq, Prod.mk.injEq] at h
    exact h.2.symm
  | cons cmd rest ih =>
    simp only [ownContributions] at h
    cases ho : dockerfileInstructionDependencies env args fuel ds ind cmd false false with
    | error e =>
      rw [ho] at h
      cases h
    | ok x =>
      obtain ⟨c, ds2⟩ := x
      rw [ho] at h
      simp only [] at h
      have h2 := instruction_state_unchanged env args fuel _ _ _ _ _ _ _
        (Or.inr (hw cmd (List.mem_cons_self _ _))) ho
      subst h2
      cases hr : ownContributions env args fuel ind rest ds2 with
      | error e =>
        rw [hr] at h
        cases h
      | ok y =>
        obtain ⟨cs2, ds3⟩ := y
        rw [hr] at h
        simp only [Except.ok.injEq, Prod.mk.injEq] at h
        rw [← h.2]
        exact ih _ _ _ (fun c hc => hw c (List.mem_cons_of_mem _ hc)) hr

theorem stageDependencies_frame (env : Env) (args : DockerRunArgs) (fuel : Nat)
    (ds ds1 : DockerStages) (ind : Nat) (stage : Stage) (r : List String × List String)
    (h : stageDependencies env args fuel ds ind stage = .ok (r, ds1)) : Frame ind ds ds1 := by
  rw [stageDependencies_eq_layout] at h
  unfold stageDependenciesLayout at h
  split at h
  · cases h
  · split at h
    · cases h
    · rename_i hinh
      have h2 := inheritedContributions_state _ _ _ _ _ _ _ _ hinh
      subst h2
      split at h
      · cases h
      · rename_i hown
        simp only [Except.ok.injEq, Prod.mk.injEq] at h
        rw [← h.2]
        exact ownContributions_frame _ _ _ _ _ _ _ _ hown

theorem stageDependencies_state (env : Env) (args : DockerRunArgs) (fuel : Nat)
    (ds ds1 : DockerStages) (ind : Nat) (stage : Stage) (r : List String × List String)
    (hw : ∀ cmd ∈ stage.Commands, writesBindings cmd = false)
    (h : stageDependencies env args fuel ds ind stage = .ok (r, ds1)) : ds1 = ds := by
  rw [stageDependencies_eq_layout] at h
  unfold stageDependenciesLayout at h
  split at h
  · cases h
  · split at h
    · cases h
    · rename_i hinh
      have h2 := inheritedContributions_state _ _ _ _ _ _ _ _ hinh
      subst h2
      split at h
      · cases h
      · rename_i hown
        simp only [Except.ok.injEq, Prod.mk.injEq] at h
        rw [← h.2]
        exact ownContributions_state _ _ _ _ _ _ _ _ hw hown

/-! ### The extractor reads the scope of its stage only -/

theorem SameResult.of_eq {α : Type} (i : Nat) (x : Except Fault (α × DockerStages)) :
    SameResult i x x := by
  cases x with
  | error e => simp [SameResult]
  | ok r =>
    obtain ⟨a, d⟩ := r
    simp [SameResult]

theorem shlexArgsEnvs_congr (env : Env) (ds ds2 : DockerStages) (i : Nat) (v : String)
    (h : scopeOf ds i = scopeOf ds2 i) :
    ShlexProcessWordWithStageArgsAndEnvs env ds i v =
      ShlexProcessWordWithStageArgsAndEnvs env ds2 i v := by
  simp only [scopeOf, Prod.mk.injEq] at h
  obtain ⟨_, _, _, h4, h5⟩ := h
  simp only [ShlexProcessWordWithStageArgsAndEnvs, h4, h5]

theorem shlexEnvs_congr (env : Env) (ds ds2 : DockerStages) (i : Nat) (v : String)
    (h : scopeOf ds i = scopeOf ds2 i) :
    ShlexProcessWordWithStageEnvs env ds i v = ShlexProcessWordWithStageEnvs env ds2 i v := by
  simp only [scopeOf, Prod.mk.injEq] at h
  obtain ⟨_, _, _, _, h5⟩ := h
  simp only [ShlexProcessWordWithStageEnvs, h5]

theorem shlexMeta_congr (env : Env) (ds ds2 : DockerStages) (i : Nat) (v : String)
    (h : scopeOf ds i = scopeOf ds2 i) :
    ShlexProcessWordWithMetaArgs env ds v = ShlexProcessWordWithMetaArgs env ds2 v := by
  simp only [scopeOf, Prod.mk.injEq] at h
  obtain ⟨_, h2, _, _, _⟩ := h
  simp only [ShlexProcessWordWithMetaArgs, h2]

theorem resolveValueFunc_congr (env : Env) (ds ds2 : DockerStages) (i : Nat) (o b : Bool)
    (v : String) (h : scopeOf ds i = scopeOf ds2 i) :
    resolveValueFunc env ds i o b v = resolveValueFunc env ds2 i o b v := by
  simp only [resolveValueFunc, shlexArgsEnvs_congr env ds ds2 i v h,
    shlexEnvs_congr env ds ds2 i v h]

theorem resolveKeyAndValueFunc_congr (env : Env) (ds ds2 : DockerStages) (i : Nat) (o b : Bool)
    (k v : String) (h : scopeOf ds i = scopeOf ds2 i) :
    resolveKeyAndValueFunc env ds i o b k v = resolveKeyAndValueFunc env ds2 i o b k v := by
  simp only [resolveKeyAndValueFunc, resolveValueFunc_congr env ds ds2 i o b _ h]

theorem resolveSourcesFunc_congr (env : Env) (ds ds2 : DockerStages) (i : Nat) (o b : Bool)
    (sources acc : List String) (h : scopeOf ds i = scopeOf ds2 i) :
    resolveSourcesFunc env ds i o b sources acc = resolveSourcesFunc env ds2 i o b sources acc := by
  induction sources generalizing acc with
  | nil => rfl
  | cons s rest ih =>
    simp only [resolveSourcesFunc, resolveValueFunc_congr env ds ds2 i o b _ h, ih]

theorem scopeOf_setDockerStageArg (ds ds2 : DockerStages) (i : Nat) (k v : String)
    (h : scopeOf ds i = scopeOf ds2 i) :
    scopeOf (setDockerStageArg ds i k v) i = scopeOf (setDockerStageArg ds2 i k v) i := by
  simp only [scopeOf, Prod.mk.injEq, DockerStageArgsHash, DockerStageEnvs] at h
  obtain ⟨h1, h2, h3, h4, h5⟩ := h
  simp only [scopeOf, setDockerStageArg, DockerStageArgsHash, DockerStageEnvs,
    stageGet_stageSet_self, h1, h2, h3, h4, h5]

theorem scopeOf_setDockerStageEnv (ds ds2 : DockerStages) (i : Nat) (k v : String)
    (h : scopeOf ds i = scopeOf ds2 i) :
    scopeOf (setDockerStageEnv ds i k v) i = scopeOf (setDockerStageEnv ds2 i k v) i := by
  simp only [scopeOf, Prod.mk.injEq, DockerStageArgsHash, DockerStageEnvs] at h
  obtain ⟨h1, h2, h3, h4, h5⟩ := h
  simp only [scopeOf, setDockerStageEnv, DockerStageArgsHash, DockerStageEnvs,
    stageGet_stageSet_self, h1, h2, h3, h4, h5]

theorem AddDockerStageArg_same (env : Env) (ds ds2 : DockerStages) (i : Nat) (k v : String)
    (h : scopeOf ds i = scopeOf ds2 i) :
    SameResult i (AddDockerStageArg env ds i k v) (AddDockerStageArg env ds2 i k v) := by
  have hs := h
  simp only [scopeOf, Prod.mk.injEq] at hs
  obtain ⟨h1, h2, _, _, _⟩ := hs
  simp only [AddDockerStageArg, shlexArgsEnvs_congr env ds ds2 i _ h, h1, h2]
  cases ShlexProcessWordWithStageArgsAndEnvs env ds2 i k with
  | error e => simp [SameResult]
  | ok rk =>
    simp only []
    cases ds2.dockerBuildArgsHash.lookup rk with
    | some o =>
      simp only [SameResult, true_and]
      exact scopeOf_setDockerStageArg _ _ _ _ _ h
    | none =>
      simp only []
      by_cases hv : v = ""
      · simp only [hv, if_true, SameResult, true_and]
        exact scopeOf_setDockerStageArg _ _ _ _ _ h
      · simp only [hv, if_false]
        cases ShlexProcessWordWithStageArgsAndEnvs env ds2 i v with
        | error e => simp [SameResult]
        | ok rv =>
          simp only [SameResult, true_and]
          exact scopeOf_setDockerStageArg _ _ _ _ _ h

theorem AddDockerStageEnv_same (env : Env) (ds ds2 : DockerStages) (i : Nat) (k v : String)
    (h : scopeOf ds i = scopeOf ds2 i) :
    SameResult i (AddDockerStageEnv env ds i k v) (AddDockerStageEnv env ds2 i k v) := by
  simp only [AddDockerStageEnv, shlexArgsEnvs_congr env ds ds2 i _ h]
  cases ShlexProcessWordWithStageArgsAndEnvs env ds2 i k with
  | error e => simp [SameResult]
  | ok rk =>
    simp only []
    cases ShlexProcessWordWithStageArgsAndEnvs env ds2 i v with
    | error e => simp [SameResult]
    | ok rv =>
      simp only [SameResult, true_and]
      exact scopeOf_setDockerStageEnv _ _ _ _ _ h

theorem processArgFunc_same (env : Env) (ds ds2 : DockerStages) (i : Nat) (o b : Bool)
    (k v : String) (h : scopeOf ds i = scopeOf ds2 i) :
    SameResult i (processArgFunc env ds i o b k v) (processArgFunc env ds2 i o b k v) := by
  unfold processArgFunc
  cases o with
  | false => simpa using AddDockerStageArg_same env ds ds2 i k v h
  | true =>
    simp only [Bool.not_true, Bool.false_eq_true, if_false,
      resolveKeyAndValueFunc_congr env ds ds2 i true b k v h]
    cases resolveKeyAndValueFunc env ds2 i true b k v with
    | error e => simp [SameResult]
    | ok kv => simpa [SameResult] using h

theorem processEnvFunc_same (env : Env) (ds ds2 : DockerStages) (i : Nat) (o b : Bool)
    (k v : String) (h : scopeOf ds i = scopeOf ds2 i) :
    SameResult i (processEnvFunc env ds i o b k v) (processEnvFunc env ds2 i o b k v) := by
  unfold processEnvFunc
  cases o with
  | false => simpa using AddDockerStageEnv_same env ds ds2 i k v h
  | true =>
    simp only [Bool.not_true, Bool.false_eq_true, if_false,
      resolveKeyAndValueFunc_congr env ds ds2 i true b k v h]
    cases resolveKeyAndValueFunc env ds2 i true b k v with
    | error e => simp [SameResult]
    | ok kv => simpa [SameResult] using h

theorem argCommandLoop_same (env : Env) (i : Nat) (o b : Bool)
    (pairs : List KeyValuePairOptional) (ds ds2 : DockerStages) (acc : List String)
    (h : scopeOf ds i = scopeOf ds2 i) :
    SameResult i (argCommandLoop env i o b pairs ds acc)
      (argCommandLoop env i o b pairs ds2 acc) := by
  induction pairs generalizing ds ds2 acc with
  | nil => simpa [argCommandLoop, SameResult] using h
  | cons kv rest ih =>
    have hp := processArgFunc_same env ds ds2 i o b kv.Key (kv.Value.getD "") h
    simp only [argCommandLoop]
    cases hx : processArgFunc env ds i o b kv.Key (kv.Value.getD "") with
    | error e =>
      cases hy : processArgFunc env ds2 i o b kv.Key (kv.Value.getD "") with
      | error e2 =>
        rw [hx, hy] at hp
        simpa [SameResult] using hp
      | ok r2 =>
        rw [hx, hy] at hp
        simp [SameResult] at hp
    | ok r =>
      cases hy : processArgFunc env ds2 i o b kv.Key (kv.Value.getD "") with
      | error e2 =>
        rw [hx, hy] at hp
        obtain ⟨a, d⟩ := r
        simp [SameResult] at hp
      | ok r2 =>
        rw [hx, hy] at hp
        obtain ⟨⟨rk, rv⟩, d⟩ := r
        obtain ⟨⟨rk2, rv2⟩, d2⟩ := r2
        simp only [SameResult, Prod.mk.injEq] at hp
        obtain ⟨⟨e1, e2⟩, e3⟩ := hp
        subst e1 e2
        exact ih d d2 _ e3

theorem envCommandLoop_same (env : Env) (i : Nat) (o b : Bool)
    (pairs : List KeyValuePair) (ds ds2 : DockerStages) (acc : List String)
    (h : scopeOf ds i = scopeOf ds2 i) :
    SameResult i (envCommandLoop env i o b pairs ds acc)
      (envCommandLoop env i o b pairs ds2 acc) := by
  induction pairs generalizing ds ds2 acc with
  | nil => simpa [envCommandLoop, SameResult] using h
  | cons kv rest ih =>
    have hp := processEnvFunc_same env ds ds2 i o b kv.Key kv.Value h
    simp only [envCommandLoop]
    cases hx : processEnvFunc env ds i o b kv.Key kv.Value with
    | error e =>
      cases hy : processEnvFunc env ds2 i o b kv.Key kv.Value with
      | error e2 =>
        rw [hx, hy] at hp
        simpa [SameResult] using hp
      | ok r2 =>
        rw [hx, hy] at hp
        simp [SameResult] at hp
    | ok r =>
      cases hy : processEnvFunc env ds2 i o b kv.Key kv.Value with
      | error e2 =>
        rw [hx, hy] at hp
        obtain ⟨a, d⟩ := r
        simp [SameResult] at hp
      | ok r2 =>
        rw [hx, hy] at hp
        obtain ⟨⟨rk, rv⟩, d⟩ := r
        obtain ⟨⟨rk2, rv2⟩, d2⟩ := r2
        simp only [SameResult, Prod.mk.injEq] at hp
        obtain ⟨⟨e1, e2⟩, e3⟩ := hp
        subst e1 e2
        exact ih d d2 _ e3

theorem SameResult.cases {α : Type} {i : Nat} {x y : Except Fault (α × DockerStages)}
    (h : SameResult i x y) :
    (∃ e, x = .error e ∧ y = .error e) ∨
      (∃ r d d2, x = .ok (r, d) ∧ y = .ok (r, d2) ∧ scopeOf d i = scopeOf d2 i) := by
  cases x with
  | error e =>
    cases y with
    | error e2 =>
      simp only [SameResult] at h
      subst h
      exact Or.inl ⟨e, rfl, rfl⟩
    | ok r2 => simp [SameResult] at h
  | ok r =>
    obtain ⟨a, d⟩ := r
    cases y with
    | error e2 => simp [SameResult] at h
    | ok r2 =>
      obtain ⟨a2, d2⟩ := r2
      simp only [SameResult] at h
      obtain ⟨e1, e2⟩ := h
      subst e1
      exact Or.inr ⟨a, d, d2, rfl, rfl, e2⟩

theorem body_same (env : Env) (args : DockerRunArgs) (i : Nat)
    (onBuild : DockerStages → Nat → String → Bool → Extracted)
    (hcb : ∀ ds ds2 e b, scopeOf ds i = scopeOf ds2 i →
      SameResult i (onBuild ds i e b) (onBuild ds2 i e b))
    (ds ds2 : DockerStages) (cmd : Command) (o b : Bool) (h : scopeOf ds i = scopeOf ds2 i) :
    SameResult i (instructionDependenciesBody env args onBuild ds i cmd o b)
      (instructionDependenciesBody env args onBuild ds2 i cmd o b) := by
  cases cmd with
  | ArgCommand a =>
    simp only [instructionDependenciesBody]
    rcases (argCommandLoop_same env i o b a ds ds2 [] h).cases with
      ⟨e, hx, hy⟩ | ⟨r, d, d2, hx, hy, hs⟩
    · rw [hx, hy]
      simp [SameResult]
    · rw [hx, hy]
      simpa [SameResult] using hs
  | EnvCommand a =>
    simp only [instructionDependenciesBody]
    rcases (envCommandLoop_same env i o b a ds ds2 [] h).cases with
      ⟨e, hx, hy⟩ | ⟨r, d, d2, hx, hy, hs⟩
    · rw [hx, hy]
      simp [SameResult]
    · rw [hx, hy]
      simpa [SameResult] using hs
  | AddCommand text sources =>
    simp only [instructionDependenciesBody, resolveSourcesFunc_congr env ds ds2 i o b _ _ h]
    cases resolveSourcesFunc env ds2 i o b sources [] with
    | error e => simp [SameResult]
    | ok rs =>
      simp only []
      cases calculateFilesChecksum env args rs with
      | error e => simp [SameResult]
      | ok c => simpa [SameResult] using h
  | CopyCommand text From sources =>
    simp only [instructionDependenciesBody, resolveSourcesFunc_congr env ds ds2 i o b _ _ h]
    by_cases hf : From = ""
    · simp only [hf, if_true]
      cases resolveSourcesFunc env ds2 i o b sources [] with
      | error e => simp [SameResult]
      | ok rs =>
        simp only []
        cases calculateFilesChecksum env args rs with
        | error e => simp [SameResult]
        | ok c => simpa [SameResult] using h
    · simpa [hf, SameResult] using h
  | OnbuildCommand e =>
    simp only [instructionDependenciesBody]
    rcases (hcb ds ds2 e false h).cases with ⟨e, hx, hy⟩ | ⟨r, d, d2, hx, hy, hs⟩
    · rw [hx, hy]
      simp [SameResult]
    · rw [hx, hy]
      simpa [SameResult] using hs
  | Other text =>
    simp only [instructionDependenciesBody, resolveValueFunc_congr env ds ds2 i o b _ h]
    cases resolveValueFunc env ds2 i o b text with
    | error e => simp [SameResult]
    | ok rv => simpa [SameResult] using h
  | Unknown => simp [instructionDependenciesBody, SameResult]

theorem onBuild_same (env : Env) (args : DockerRunArgs) (i : Nat) (fuel : Nat) :
    ∀ (ds ds2 : DockerStages) (e : String) (b : Bool), scopeOf ds i = scopeOf ds2 i →
      SameResult i (dockerfileOnBuildInstructionDependencies env args fuel ds i e b)
        (dockerfileOnBuildInstructionDependencies env args fuel ds2 i e b) := by
  induction fuel with
  | zero =>
    intro ds ds2 e b _
    simp [dockerfileOnBuildInstructionDependencies, SameResult]
  | succ fuel ih =>
    intro ds ds2 e b h
    simp only [dockerfileOnBuildInstructionDependencies]
    cases env.parseInstruction e with
    | error e2 => simp [SameResult]
    | ok cmd =>
      simp only []
      rcases (body_same env args i _ ih ds ds2 cmd true b h).cases with
        ⟨e, hx, hy⟩ | ⟨r, d, d2, hx, hy, hs⟩
      · rw [hx, hy]
        simp [SameResult]
      · rw [hx, hy]
        simpa [SameResult] using hs

theorem instruction_same (env : Env) (args : DockerRunArgs) (fuel i : Nat)
    (ds ds2 : DockerStages) (cmd : Command) (o b : Bool) (h : scopeOf ds i = scopeOf ds2 i) :
    SameResult i (dockerfileInstructionDependencies env args fuel ds i cmd o b)
      (dockerfileInstructionDependencies env args fuel ds2 i cmd o b) :=
  body_same env args i _ (onBuild_same env args i fuel) ds ds2 cmd o b h

theorem inheritedContributions_same (env : Env) (args : DockerRunArgs) (fuel i : Nat)
    (instrs : List String) (ds ds2 : DockerStages) (h : scopeOf ds i = scopeOf ds2 i) :
    SameResult i (inheritedContributions env args fuel i instrs ds)
      (inheritedContributions env args fuel i instrs ds2) := by
  induction instrs generalizing ds ds2 with
  | nil => simpa [inheritedContributions, SameResult] using h
  | cons instruction rest ih =>
    simp only [inheritedContributions]
    rcases (onBuild_same env args i fuel ds ds2 instruction true h).cases with
      ⟨e, hx, hy⟩ | ⟨r, d, d2, hx, hy, hs⟩
    · rw [hx, hy]
      simp [SameResult]
    · rw [hx, hy]
      simp only []
      rcases (ih d d2 hs).cases with ⟨e, hx2, hy2⟩ | ⟨r2, d3, d4, hx2, hy2, hs2⟩
      · rw [hx2, hy2]
        simp [SameResult]
      · rw [hx2, hy2]
        simpa [SameResult] using hs2

theorem ownContributions_same (env : Env) (args : DockerRunArgs) (fuel i : Nat)
    (cmds : List Command) (ds ds2 : DockerStages) (h : scopeOf ds i = scopeOf ds2 i) :
    SameResult i (ownContributions env args fuel i cmds ds)
      (ownContributions env args fuel i cmds ds2) := by
  induction cmds generalizing ds ds2 with
  | nil => simpa [ownContributions, SameResult] using h
  | cons cmd rest ih =>
    simp only [ownContributions]
    rcases (instruction_same env args fuel i ds ds2 cmd false false h).cases with
      ⟨e, hx, hy⟩ | ⟨r, d, d2, hx, hy, hs⟩
    · rw [hx, hy]
      simp [SameResult]
    · rw [hx, hy]
      simp only []
      rcases (ih d d2 hs).cases with ⟨e, hx2, hy2⟩ | ⟨r2, d3, d4, hx2, hy2, hs2⟩
      · rw [hx2, hy2]
        simp [SameResult]
      · rw [hx2, hy2]
        simpa [SameResult] using hs2

theorem stageDependencies_same (env : Env) (args : DockerRunArgs) (fuel i : Nat)
    (stage : Stage) (ds ds2 : DockerStages) (h : scopeOf ds i = scopeOf ds2 i) :
    SameResult i (stageDependencies env args fuel ds i stage)
      (stageDependencies env args fuel ds2 i stage) := by
  have hs := h
  simp only [scopeOf, Prod.mk.injEq] at hs
  obtain ⟨_, h2, h3, _, _⟩ := hs
  simp only [stageDependencies_eq_layout, stageDependenciesLayout, h2, h3]
  cases env.processWord stage.BaseName (toArgsArray [ds2.dockerMetaArgsHash]) with
  | error e => simp [SameResult]
  | ok rb =>
    simp only []
    rcases (inheritedContributions_same env args fuel i
      ((ds2.imageOnBuildInstructions.lookup rb).getD []) ds ds2 h).cases with
      ⟨e, hx, hy⟩ | ⟨r, d, d2, hx, hy, hs⟩
    · rw [hx, hy]
      simp [SameResult]
    · rw [hx, hy]
      simp only []
      rcases (ownContributions_same env args fuel i stage.Commands d d2 hs).cases with
        ⟨e, hx2, hy2⟩ | ⟨r2, d3, d4, hx2, hy2, hs2⟩
      · rw [hx2, hy2]
        simp [SameResult]
      · rw [hx2, hy2]
        simpa [SameResult] using hs2

/-! ### The first pass over all stages -/

theorem Frame.scopeOf_ne {i j : Nat} {ds ds1 : DockerStages} (h : Frame i ds ds1) (hj : j ≠ i) :
    scopeOf ds1 j = scopeOf ds j := by
  obtain ⟨_, _, h3, h4, h5, h6⟩ := h
  simp only [scopeOf, h3, h4, h5, (h6 j hj).1, (h6 j hj).2]

theorem firstPass_spec (env : Env) (args : DockerRunArgs) (fuel : Nat) (rest : List Stage)
    (ind : Nat) (ds ds1 : DockerStages) (acc accOnb deps onb : List (List String))
    (h : firstPass env args fuel rest ind ds acc accOnb = .ok ((deps, onb), ds1)) :
    ∃ L L2, deps = acc ++ L ∧ onb = accOnb ++ L2 ∧ L.length = rest.length ∧
      L2.length = rest.length ∧
      ∀ k stage, rest[k]? = some stage → ∃ dsk dsk1,
        scopeOf dsk (ind + k) = scopeOf ds (ind + k) ∧
        stageDependencies env args fuel dsk (ind + k) stage =
          .ok ((L.getD k [], L2.getD k []), dsk1) := by
  induction rest generalizing ind ds acc accOnb with
  | nil =>
    simp only [firstPass, Except.ok.injEq, Prod.mk.injEq] at h
    refine ⟨[], [], by simp [h.1.1], by simp [h.1.2], rfl, rfl, ?_⟩
    intro k stage hk
    simp at hk
  | cons stage0 rest ih =>
    simp only [firstPass] at h
    cases hs : stageDependencies env args fuel ds ind stage0 with
    | error e =>
      rw [hs] at h
      cases h
    | ok x =>
      obtain ⟨⟨d, o⟩, ds2⟩ := x
      rw [hs] at h
      simp only [] at h
      obtain ⟨L, L2, hd, ho, hl, hl2, hk⟩ := ih _ _ _ _ h
      have hfr := stageDependencies_frame env args fuel ds ds2 ind stage0 (d, o) hs
      refine ⟨d :: L, o :: L2, by simp [hd], by simp [ho], by simp [hl], by simp [hl2], ?_⟩
      intro k stage hget
      cases k with
      | zero =>
        simp only [List.getElem?_cons_zero, Option.some.injEq] at hget
        subst hget
        exact ⟨ds, ds2, rfl, by simpa using hs⟩
      | succ k =>
        simp only [List.getElem?_cons_succ] at hget
        obtain ⟨dsk, dsk1, hsc, hrun⟩ := hk k stage hget
        have e : ind + (k + 1) = ind + 1 + k := by omega
        rw [e]
        refine ⟨dsk, dsk1, ?_, by simpa using hrun⟩
        rw [hsc]
        exact hfr.scopeOf_ne (by omega)

theorem firstPass_stage (env : Env) (args : DockerRunArgs) (fuel : Nat) (stages : List Stage)
    (ds ds1 : DockerStages) (own onb : List (List String))
    (h : firstPass env args fuel stages 0 ds [] [] = .ok ((own, onb), ds1)) :
    own.length = stages.length ∧ onb.length = stages.length ∧
      ∀ k stage, stages[k]? = some stage → ∃ dsk dsk1,
        scopeOf dsk k = scopeOf ds k ∧
        stageDependencies env args fuel dsk k stage =
          .ok ((own.getD k [], onb.getD k []), dsk1) := by
  obtain ⟨L, L2, hd, ho, hl, hl2, hk⟩ := firstPass_spec env args fuel stages 0 ds ds1 [] [] own onb h
  simp only [List.nil_append] at hd ho
  subst hd ho
  refine ⟨hl, hl2, ?_⟩
  intro k stage hget
  simpa using hk k stage hget

theorem targetList_ok (final : List (List String)) (t : Int) (l : List String)
    (h : targetList final t = .ok l) :
    0 ≤ t ∧ t.toNat < final.length ∧ l = final.getD t.toNat [] := by
  unfold targetList at h
  split at h
  · cases h
  · rename_i hneg
    split at h
    · rename_i x hx
      simp only [Except.ok.injEq] at h
      subst h
      rw [List.get?_eq_getElem?] at hx
      have hlt : t.toNat < final.length := by
        by_contra hge
        rw [List.getElem?_eq_none (by omega)] at hx
        cases hx
      refine ⟨by omega, hlt, ?_⟩
      simp [List.getD_eq_getElem?_getD, hx]
    · cases h

/-! ### Independence from stages outside the lineage -/

theorem targetDependencies_ok (env : Env) (args : DockerRunArgs) (fuel : Nat)
    (ds e : DockerStages) (l : List String)
    (h : targetDependencies env args fuel ds = .ok (l, e)) :
    ∃ own onb final, firstPass env args fuel ds.dockerStages 0 ds [] [] = .ok ((own, onb), e) ∧
      propagateLoop ds.dockerStages onb ds.dockerStages 0 own = .ok final ∧
      targetList final ds.dockerTargetStageIndex = .ok l := by
  unfold targetDependencies at h
  split at h
  · cases h
  · rename_i own onb ds1 hf
    split at h
    · cases h
    · rename_i final hp
      split at h
      · cases h
      · rename_i l2 ht
        simp only [Except.ok.injEq, Prod.mk.injEq] at h
        obtain ⟨h1, h2⟩ := h
        subst h1 h2
        exact ⟨own, onb, final, hf, hp, ht⟩

theorem getD_map_Name (stages : List Stage) (k : Nat) (s : Stage) (h : stages[k]? = some s) :
    (stages.map fun x => x.Name).getD k "" = s.Name := by
  simp [List.getD_eq_getElem?_getD, List.getElem?_map, h]

theorem lineage_final_eq (stages stages2 : List Stage)
    (own onb final own2 onb2 final2 : List (List String)) (target : Nat)
    (hnames : (stages.map fun s => s.Name) = stages2.map fun s => s.Name)
    (hl1 : own.length = stages.length) (hl2 : own2.length = stages2.length)
    (hp1 : propagateLoop stages onb stages 0 own = .ok final)
    (hp2 : propagateLoop stages2 onb2 stages2 0 own2 = .ok final2)
    (hstage : ∀ i, InLineage stages target i → stages[i]? = stages2[i]?)
    (hown : ∀ i, InLineage stages target i →
      own.getD i [] = own2.getD i [] ∧ onb.getD i [] = onb2.getD i []) :
    ∀ i, InLineage stages target i → i < stages.length →
      final.getD i [] = final2.getD i [] := by
  have hlenS : stages.length = stages2.length := by
    have := congrArg List.length hnames
    simpa using this
  obtain ⟨hf1, hfin1⟩ := propagate_final stages onb own final hl1 hp1
  obtain ⟨hf2, hfin2⟩ := propagate_final stages2 onb2 own2 final2 hl2 hp2
  intro i
  induction i using Nat.strong_induction_on with
  | _ i ih =>
    intro hlin hi
    have hs : stages[i]? = some stages[i] := List.getElem?_eq_getElem hi
    have hs2 : stages2[i]? = some stages[i] := by rw [← hstage i hlin, hs]
    have f1 := hfin1 i _ hs
    have f2 := hfin2 i _ hs2
    have hcur : ∀ k, InLineage stages target k → k ≠ i → k < stages.length →
        (listsAt i final own).getD k [] = (listsAt i final2 own2).getD k [] := by
      intro k hk hne hklt
      rw [getD_listsAt i final own hf1 (by omega), getD_listsAt i final2 own2 hf2 (by omega)]
      by_cases hki : k < i
      · simp only [hki, if_true]
        exact ih k hki hk hklt
      · simp only [hki, if_false]
        exact (hown k hk).1
    have key : stageFinal stages[i] i onb (stages.map fun s => s.Name) (listsAt i final own) =
        stageFinal stages[i] i onb2 (stages2.map fun s => s.Name) (listsAt i final2 own2) := by
      unfold stageFinal
      rw [← hnames, length_listsAt i final own hf1 (by omega),
        length_listsAt i final2 own2 hf2 (by omega), hl1, hl2, ← hlenS]
      have hacc0 : (listsAt i final own).getD i [] = (listsAt i final2 own2).getD i [] := by
        rw [getD_listsAt i final own hf1 (by omega), getD_listsAt i final2 own2 hf2 (by omega)]
        simp only [lt_self_iff_false, if_false]
        exact (hown i hlin).1
      have hnamed : namedSegments stages[i].BaseName i onb (listsAt i final own)
          (stages.map fun s => s.Name) 0 =
          namedSegments stages[i].BaseName i onb2 (listsAt i final2 own2)
          (stages.map fun s => s.Name) 0 := by
        apply namedSegments_congr
        intro k hk hne hb
        simp only [Nat.zero_add] at hne ⊢
        have hk2 : k < stages.length := by simpa using hk
        have hsk : stages[k]? = some stages[k] := List.getElem?_eq_getElem hk2
        rw [getD_map_Name stages k _ hsk] at hb
        have hedge : stageEdge stages i k :=
          ⟨stages[i], hs, Or.inl ⟨hne, stages[k], hsk, hb⟩⟩
        have hlk : InLineage stages target k := Relation.ReflTransGen.tail hlin hedge
        exact ⟨hcur k hlk (fun e => hne e.symm) hk2, (hown k hlk).2⟩
      rw [hacc0, hnamed]
      apply copySegments_congr
      intro text From sources r hmem hr h0 hlt hne
      have hrn : r.toNat < stages.length := by omega
      have hcast : ((r.toNat : Nat) : Int) = r := Int.toNat_of_nonneg h0
      have hedge : stageEdge stages i r.toNat :=
        ⟨stages[i], hs, Or.inr ⟨text, From, sources, hmem, by rw [hcast]; exact hr, hrn⟩⟩
      have hlk : InLineage stages target r.toNat := Relation.ReflTransGen.tail hlin hedge
      exact hcur r.toNat hlk hne hrn
    rw [key, f2] at f1
    simp only [Except.ok.injEq] at f1
    exact f1.symm

/-- C10. Independence from stages outside the lineage: when two descriptions have the
same stage names and the same stages throughout the lineage of the target (the stages
reachable from it along named-stage `FROM` matches and numeric `COPY --from` indices),
whatever the other stages contain, and the digest computation succeeds on both from the
same engine, the target's propagated dependency list is the same, hence the digest. -/
theorem C10_lineage_independence (env : Env) (args : DockerRunArgs) (fuel : Nat)
    (ds : DockerStages) (stages2 : List Stage) (target : Nat) (l l2 : List String)
    (e e2 : DockerStages)
    (htarget : ds.dockerTargetStageIndex = (target : Int))
    (hnames : (ds.dockerStages.map fun s => s.Name) = stages2.map fun s => s.Name)
    (hlineage : ∀ i, InLineage ds.dockerStages target i → ds.dockerStages[i]? = stages2[i]?)
    (h1 : targetDependencies env args fuel ds = .ok (l, e))
    (h2 : targetDependencies env args fuel (withStages ds stages2) = .ok (l2, e2)) :
    l = l2 ∧ env.sha256Hash l = env.sha256Hash l2 := by
  obtain ⟨own, onb, final, hf1, hp1, ht1⟩ := targetDependencies_ok env args fuel ds e l h1
  obtain ⟨own2, onb2, final2, hf2, hp2, ht2⟩ :=
    targetDependencies_ok env args fuel (withStages ds stages2) e2 l2 h2
  simp only [withStages] at hf2 hp2 ht2
  obtain ⟨hl1, hlo1, hst1⟩ := firstPass_stage env args fuel _ _ _ _ _ hf1
  obtain ⟨hl2, hlo2, hst2⟩ := firstPass_stage env args fuel _ _ _ _ _ hf2
  have hlenS : ds.dockerStages.length = stages2.length := by
    have := congrArg List.length hnames
    simpa using this
  have hown : ∀ i, InLineage ds.dockerStages target i →
      own.getD i [] = own2.getD i [] ∧ onb.getD i [] = onb2.getD i [] := by
    intro i hlin
    by_cases hi : i < ds.dockerStages.length
    · have hs : ds.dockerStages[i]? = some ds.dockerStages[i] := List.getElem?_eq_getElem hi
      have hs2 : stages2[i]? = some ds.dockerStages[i] := by rw [← hlineage i hlin, hs]
      obtain ⟨dsk, dsk1, hsc, hrun⟩ := hst1 i _ hs
      obtain ⟨dsk2, dsk3, hsc2, hrun2⟩ := hst2 i _ hs2
      have hscope : scopeOf dsk i = scopeOf dsk2 i := by
        rw [hsc, hsc2]
        rfl
      have hsame := stageDependencies_same env args fuel i ds.dockerStages[i] dsk dsk2 hscope
      rw [hrun, hrun2] at hsame
      simp only [SameResult, Prod.mk.injEq] at hsame
      exact hsame.1
    · have g1 : own.getD i [] = [] := by
        simp [List.getD_eq_getElem?_getD, List.getElem?_eq_none (show own.length ≤ i by omega)]
      have g2 : own2.getD i [] = [] := by
        simp [List.getD_eq_getElem?_getD, List.getElem?_eq_none (show own2.length ≤ i by omega)]
      have g3 : onb.getD i [] = [] := by
        simp [List.getD_eq_getElem?_getD, List.getElem?_eq_none (show onb.length ≤ i by omega)]
      have g4 : onb2.getD i [] = [] := by
        simp [List.getD_eq_getElem?_getD, List.getElem?_eq_none (show onb2.length ≤ i by omega)]
      rw [g1, g2, g3, g4]
      exact ⟨rfl, rfl⟩
  obtain ⟨_, ht1lt, hl⟩ := targetList_ok _ _ _ ht1
  obtain ⟨_, _, hl2'⟩ := targetList_ok _ _ _ ht2
  have hpf := propagate_final ds.dockerStages onb own final hl1 hp1
  rw [htarget] at ht1lt hl hl2'
  simp only [Int.toNat_ofNat] at ht1lt hl hl2'
  have heq := lineage_final_eq ds.dockerStages stages2 own onb final own2 onb2 final2 target
    hnames hl1 hl2 hp1 hp2 hlineage hown target Relation.ReflTransGen.refl
    (by rw [hpf.1, hl1] at ht1lt; exact ht1lt)
  have : l = l2 := by rw [hl, hl2', heq]
  exact ⟨this, by rw [this]⟩

/-! ### Named-stage and copy-from propagation -/

theorem copySegments_extends (ind n : Nat) (cur : List (List String)) (cmds : List Command)
    (acc r : List String) (h : copySegments ind n cur cmds acc = .ok r) :
    ∃ ext, r = acc ++ ext := by
  induction cmds generalizing acc with
  | nil =>
    simp only [copySegments, Except.ok.injEq] at h
    exact ⟨[], by simp [h]⟩
  | cons cmd rest ih =>
    cases cmd with
    | CopyCommand text From sources =>
      simp only [copySegments] at h
      split at h
      · split at h
        · split at h
          · split at h
            · cases h
            · obtain ⟨ext, hext⟩ := ih _ h
              exact ⟨_, by rw [hext, List.append_assoc]⟩
          · exact ih _ h
        · exact ih _ h
      · exact ih _ h
    | ArgCommand a => exact ih _ (by simpa only [copySegments] using h)
    | EnvCommand a => exact ih _ (by simpa only [copySegments] using h)
    | AddCommand a b => exact ih _ (by simpa only [copySegments] using h)
    | OnbuildCommand a => exact ih _ (by simpa only [copySegments] using h)
    | Other a => exact ih _ (by simpa only [copySegments] using h)
    | Unknown => exact ih _ (by simpa only [copySegments] using h)

theorem namedSegments_split (baseName : String) (ind : Nat) (onb cur : List (List String))
    (names : List String) (rel k : Nat) (hk : names[k]? = some baseName)
    (hne : ind ≠ rel + k) :
    ∃ pre post, namedSegments baseName ind onb cur names rel =
      pre ++ (cur.getD (rel + k) [] ++ onb.getD (rel + k) []) ++ post := by
  induction names generalizing rel k with
  | nil => simp at hk
  | cons name rest ih =>
    cases k with
    | zero =>
      simp only [List.getElem?_cons_zero, Option.some.injEq] at hk
      subst hk
      simp only [Nat.add_zero] at hne ⊢
      refine ⟨[], namedSegments name ind onb cur rest (rel + 1), ?_⟩
      simp [namedSegments, hne]
    | succ k =>
      simp only [List.getElem?_cons_succ] at hk
      have e : rel + (k + 1) = rel + 1 + k := by omega
      rw [e] at hne ⊢
      obtain ⟨pre, post, hsplit⟩ := ih (rel + 1) k hk hne
      refine ⟨(if ind ≠ rel ∧ baseName = name then cur.getD rel [] ++ onb.getD rel []
        else []) ++ pre, post, ?_⟩
      simp only [namedSegments, hsplit, List.append_assoc]

/-- C7. Named-stage propagation: for distinct stages `A` and `B` with the base-image
reference of `A` equal to the name of `B`, the propagated list of `A` is the first-pass
list of `A`, followed at some point by the list `B` has when the pass reaches `A` (the
propagated list of `B` when `B` comes before `A`, else its first-pass list) with the
secondary onbuild list of `B` right behind it. -/
theorem C7_named_stage_propagation (stages : List Stage) (onb own final : List (List String))
    (A B : Nat) (stageA stageB : Stage)
    (hlen : own.length = stages.length)
    (hrun : propagateLoop stages onb stages 0 own = .ok final)
    (hA : stages[A]? = some stageA) (hB : stages[B]? = some stageB) (hne : A ≠ B)
    (hname : stageA.BaseName = stageB.Name) :
    ∃ pre post, final.getD A [] =
      own.getD A [] ++ pre ++
        ((if B < A then final.getD B [] else own.getD B []) ++ onb.getD B []) ++ post := by
  obtain ⟨hfl, hfin⟩ := propagate_final stages onb own final hlen hrun
  have hAlt : A < stages.length := by
    by_contra hge
    rw [List.getElem?_eq_none (by omega)] at hA
    cases hA
  have hf := hfin A stageA hA
  unfold stageFinal at hf
  obtain ⟨ext, hext⟩ := copySegments_extends _ _ _ _ _ _ hf
  have hnameB : (stages.map fun s => s.Name)[B]? = some stageA.BaseName := by
    simp [List.getElem?_map, hB, hname]
  obtain ⟨pre, post, hsplit⟩ := namedSegments_split stageA.BaseName A onb
    (listsAt A final own) (stages.map fun s => s.Name) 0 B hnameB (by omega)
  rw [hext, hsplit, getD_listsAt A final own hfl (by omega),
    Nat.zero_add, getD_listsAt A final own hfl (by omega)]
  refine ⟨pre, post ++ ext, ?_⟩
  simp [List.append_assoc]

/-- C7 on two stages: `FROM alpine AS base` with `ONBUILD RUN x`, then `FROM base`. -/
theorem C7_named_stage_propagation_witness :
    propagateLoop [⟨"base", "alpine", [.OnbuildCommand "RUN x"]⟩, ⟨"", "base", []⟩]
        [["RUN x"], []] [⟨"base", "alpine", [.OnbuildCommand "RUN x"]⟩, ⟨"", "base", []⟩] 0
        [["alpine", "RUN x"], ["base"]] =
      .ok [["alpine", "RUN x"], ["base", "alpine", "RUN x", "RUN x"]] ∧
    ∃ pre post, [["alpine", "RUN x"], ["base", "alpine", "RUN x", "RUN x"]].getD 1 [] =
      [["alpine", "RUN x"], ["base"]].getD 1 [] ++ pre ++
        ((if 0 < 1 then [["alpine", "RUN x"], ["base", "alpine", "RUN x", "RUN x"]].getD 0 []
          else [["alpine", "RUN x"], ["base"]].getD 0 []) ++
          [["RUN x"], []].getD 0 []) ++ post :=
  ⟨rfl, C7_named_stage_propagation
    [⟨"base", "alpine", [.OnbuildCommand "RUN x"]⟩, ⟨"", "base", []⟩]
    [["RUN x"], []] [["alpine", "RUN x"], ["base"]]
    [["alpine", "RUN x"], ["base", "alpine", "RUN x", "RUN x"]] 1 0
    ⟨"", "base", []⟩ ⟨"base", "alpine", [.OnbuildCommand "RUN x"]⟩ rfl rfl rfl rfl (by decide) rfl⟩

theorem copyFromLoop_length (ind : Nat) (cmds : List Command) (deps d : List (List String))
    (h : copyFromLoop ind cmds deps = .ok d) : d.length = deps.length := by
  induction cmds generalizing deps with
  | nil =>
    simp only [copyFromLoop, Except.ok.injEq] at h
    rw [h]
  | cons cmd rest ih =>
    cases cmd with
    | CopyCommand text From sources =>
      simp only [copyFromLoop] at h
      split at h
      · split at h
        · split at h
          · split at h
            · cases h
            · simpa using ih _ h
          · exact ih _ h
        · exact ih _ h
      · exact ih _ h
    | ArgCommand a => exact ih _ (by simpa only [copyFromLoop] using h)
    | EnvCommand a => exact ih _ (by simpa only [copyFromLoop] using h)
    | AddCommand a b => exact ih _ (by simpa only [copyFromLoop] using h)
    | OnbuildCommand a => exact ih _ (by simpa only [copyFromLoop] using h)
    | Other a => exact ih _ (by simpa only [copyFromLoop] using h)
    | Unknown => exact ih _ (by simpa only [copyFromLoop] using h)

theorem copyFromLoop_append (ind : Nat) (xs ys : List Command) (deps : List (List String)) :
    copyFromLoop ind (xs ++ ys) deps =
      (match copyFromLoop ind xs deps with
        | .error err => .error err
        | .ok mid => copyFromLoop ind ys mid) := by
  induction xs generalizing deps with
  | nil => simp [copyFromLoop]
  | cons cmd rest ih =>
    cases cmd with
    | CopyCommand text From sources =>
      simp only [List.cons_append, copyFromLoop]
      split
      · split
        · split
          · split
            · rfl
            · exact ih _
          · exact ih _
        · exact ih _
      · exact ih _
    | ArgCommand a => simpa only [List.cons_append, copyFromLoop] using ih deps
    | EnvCommand a => simpa only [List.cons_append, copyFromLoop] using ih deps
    | AddCommand a b => simpa only [List.cons_append, copyFromLoop] using ih deps
    | OnbuildCommand a => simpa only [List.cons_append, copyFromLoop] using ih deps
    | Other a => simpa only [List.cons_append, copyFromLoop] using ih deps
    | Unknown => simpa only [List.cons_append, copyFromLoop] using ih deps

/-- C8. Copy-from propagation: a `COPY` instruction of stage `ind` whose `--from` reads as
the index `C` of an existing stage makes the loop over the instructions of the stage
append to the list of `ind` the list stage `C` has at that moment and nothing else: the
instructions before it run, the list of `C` is appended, the instructions after it run.
The secondary onbuild lists are no input of this loop. -/
theorem C8_copy_from_propagation (ind : Nat) (before after : List Command)
    (text From : String) (sources : List String) (C : Nat) (deps : List (List String))
    (hfrom : atoi From = some (C : Int)) (hC : C < deps.length) :
    copyFromLoop ind (before ++ .CopyCommand text From sources :: after) deps =
      (match copyFromLoop ind before deps with
        | .error err => .error err
        | .ok mid => copyFromLoop ind after (mid.set ind (mid.getD ind [] ++ mid.getD C []))) := by
  rw [copyFromLoop_append]
  cases hb : copyFromLoop ind before deps with
  | error e => rfl
  | ok mid =>
    have hlen := copyFromLoop_length ind before deps mid hb
    have hne : From ≠ "" := by
      intro he
      subst he
      simp [atoi] at hfrom
    have hlt : (C : Int) < (mid.length : Int) := by
      rw [hlen]
      exact_mod_cast hC
    have hnn : ¬ ((C : Int) < 0) := by omega
    simp only [copyFromLoop, hne, ne_eq, not_false_eq_true, if_true, hfrom, hlt, hnn, if_false,
      Int.toNat_ofNat]

/-- C8 on two stages: stage 1 has `RUN make` and `COPY --from=0 /app /app`. -/
theorem C8_copy_from_propagation_witness :
    copyFromLoop 1 ([.Other "RUN make"] ++
        .CopyCommand "COPY --from=0 /app /app" "0" ["/app"] :: [])
        [["base:1.0", "COPY app.go .", "sum"], ["alpine", "RUN make", "COPY --from=0 /app /app"]] =
      (match copyFromLoop 1 [.Other "RUN make"]
          [["base:1.0", "COPY app.go .", "sum"],
            ["alpine", "RUN make", "COPY --from=0 /app /app"]] with
        | .error err => .error err
        | .ok mid => copyFromLoop 1 [] (mid.set 1 (mid.getD 1 [] ++ mid.getD 0 []))) :=
  C8_copy_from_propagation 1 [.Other "RUN make"] [] "COPY --from=0 /app /app" "0" ["/app"] 0
    [["base:1.0", "COPY app.go .", "sum"], ["alpine", "RUN make", "COPY --from=0 /app /app"]]
    rfl (by decide)

theorem final_extends_own (stages : List Stage) (onb own final : List (List String))
    (hlen : own.length = stages.length) (hrun : propagateLoop stages onb stages 0 own = .ok final)
    (i : Nat) (stage : Stage) (hi : stages[i]? = some stage) :
    ∃ ext, final.getD i [] = own.getD i [] ++ ext := by
  obtain ⟨hfl, hfin⟩ := propagate_final stages onb own final hlen hrun
  have hilt : i < stages.length := by
    by_contra hge
    rw [List.getElem?_eq_none (by omega)] at hi
    cases hi
  have hf := hfin i stage hi
  unfold stageFinal at hf
  obtain ⟨ext, hext⟩ := copySegments_extends _ _ _ _ _ _ hf
  rw [getD_listsAt i final own hfl (by omega)] at hext
  simp only [lt_self_iff_false, if_false] at hext
  exact ⟨_, by rw [hext, List.append_assoc]⟩

theorem copySegments_contains (ind n : Nat) (cur : List (List String)) (cmds : List Command)
    (acc r : List String) (text From : String) (sources : List String) (C : Nat) (x : String)
    (h : copySegments ind n cur cmds acc = .ok r)
    (hmem : Command.CopyCommand text From sources ∈ cmds)
    (hfrom : atoi From = some (C : Int)) (hC : C < n)
    (hx : x ∈ (if C = ind then acc else cur.getD C [])) : x ∈ r := by
  induction cmds generalizing acc with
  | nil => simp at hmem
  | cons cmd rest ih =>
    rcases List.mem_cons.mp hmem with hhead | htail
    · subst hhead
      have hne : From ≠ "" := by
        intro he
        subst he
        simp [atoi] at hfrom
      have hlt : (C : Int) < (n : Int) := by exact_mod_cast hC
      have hnn : ¬ ((C : Int) < 0) := by omega
      simp only [copySegments, hne, ne_eq, not_false_eq_true, if_true, hfrom, hlt, hnn, if_false,
        Int.toNat_ofNat] at h
      obtain ⟨ext, hext⟩ := copySegments_extends _ _ _ _ _ _ h
      rw [hext]
      exact List.mem_append_left _ (List.mem_append_right _ hx)
    · have hstep : ∀ acc2, (∀ y ∈ acc, y ∈ acc2) → copySegments ind n cur rest acc2 = .ok r →
          x ∈ r := by
        intro acc2 hsub h2
        apply ih acc2 h2 htail
        by_cases hci : C = ind
        · simp only [hci, if_true] at hx ⊢
          exact hsub x hx
        · simp only [hci, if_false] at hx ⊢
          exact hx
      cases cmd with
      | CopyCommand t2 F2 s2 =>
        simp only [copySegments] at h
        split at h
        · split at h
          · split at h
            · split at h
              · cases h
              · exact hstep _ (fun y hy => List.mem_append_left _ hy) h
            · exact hstep _ (fun _ hy => hy) h
          · exact hstep _ (fun _ hy => hy) h
        · exact hstep _ (fun _ hy => hy) h
      | ArgCommand a => exact hstep _ (fun _ hy => hy) (by simpa only [copySegments] using h)
      | EnvCommand a => exact hstep _ (fun _ hy => hy) (by simpa only [copySegments] using h)
      | AddCommand a b => exact hstep _ (fun _ hy => hy) (by simpa only [copySegments] using h)
      | OnbuildCommand a => exact hstep _ (fun _ hy => hy) (by simpa only [copySegments] using h)
      | Other a => exact hstep _ (fun _ hy => hy) (by simpa only [copySegments] using h)
      | Unknown => exact hstep _ (fun _ hy => hy) (by simpa only [copySegments] using h)

theorem ownContributions_mem (env : Env) (args : DockerRunArgs) (fuel ind : Nat)
    (cmds : List Command) (ds ds1 : DockerStages) (cs : List (List String × List String))
    (cmd : Command) (h : ownContributions env args fuel ind cmds ds = .ok (cs, ds1))
    (hmem : cmd ∈ cmds) :
    ∃ dsi c dsi1, dockerfileInstructionDependencies env args fuel dsi ind cmd false false =
      .ok (c, dsi1) ∧ c ∈ cs := by
  induction cmds generalizing ds ds1 cs with
  | nil => simp at hmem
  | cons cmd0 rest ih =>
    simp only [ownContributions] at h
    cases ho : dockerfileInstructionDependencies env args fuel ds ind cmd0 false false with
    | error e =>
      rw [ho] at h
      cases h
    | ok x =>
      obtain ⟨c, ds2⟩ := x
      rw [ho] at h
      simp only [] at h
      cases hr : ownContributions env args fuel ind rest ds2 with
      | error e =>
        rw [hr] at h
        cases h
      | ok y =>
        obtain ⟨cs2, ds3⟩ := y
        rw [hr] at h
        simp only [Except.ok.injEq, Prod.mk.injEq] at h
        obtain ⟨hcs, _⟩ := h
        subst hcs
        rcases List.mem_cons.mp hmem with hhead | htail
        · subst hhead
          exact ⟨ds, c, ds2, ho, List.mem_cons_self _ _⟩
        · obtain ⟨dsi, c2, dsi1, hrun, hc2⟩ := ih _ _ _ hr htail
          exact ⟨dsi, c2, dsi1, hrun, List.mem_cons_of_mem _ hc2⟩

theorem stageDependencies_own_mem (env : Env) (args : DockerRunArgs) (fuel : Nat)
    (ds ds1 : DockerStages) (ind : Nat) (stage : Stage) (deps onb : List String)
    (cmd : Command) (h : stageDependencies env args fuel ds ind stage = .ok ((deps, onb), ds1))
    (hmem : cmd ∈ stage.Commands) :
    ∃ dsi c dsi1, dockerfileInstructionDependencies env args fuel dsi ind cmd false false =
      .ok (c, dsi1) ∧ ∀ x ∈ c.1, x ∈ deps := by
  rw [stageDependencies_eq_layout] at h
  unfold stageDependenciesLayout at h
  split at h
  · cases h
  · split at h
    · cases h
    · split at h
      · cases h
      · rename_i cs ds3 hown
        simp only [Except.ok.injEq, Prod.mk.injEq] at h
        obtain ⟨⟨hd, _⟩, _⟩ := h
        obtain ⟨dsi, c, dsi1, hrun, hc⟩ := ownContributions_mem _ _ _ _ _ _ _ _ _ hown hmem
        refine ⟨dsi, c, dsi1, hrun, ?_⟩
        intro x hx
        rw [← hd]
        apply List.mem_append_right
        simp only [List.mem_flatten, List.mem_map]
        exact ⟨c.1, ⟨c, hc, rfl⟩, hx⟩

/-- C9 (amended). Content sensitivity through `COPY --from=<index>`: when a `COPY`
instruction of stage `A` has a `--from` that reads as the index `C` of a stage, the
propagated list of `A` contains every entry of the first-pass list of `C`; in particular,
when stage `C` has a `COPY` without `--from`, it contains the content checksum that this
`COPY` contributed (the checksum of its resolved sources), so a change of that checksum
changes the list hashed into the digest of `A`. -/
theorem C9_copy_from_index_content (env : Env) (args : DockerRunArgs) (fuel : Nat)
    (ds ds1 : DockerStages) (own onb final : List (List String)) (A C : Nat)
    (stageA stageC : Stage) (text From : String) (sources : List String) (textC : String)
    (sourcesC : List String)
    (hfirst : firstPass env args fuel ds.dockerStages 0 ds [] [] = .ok ((own, onb), ds1))
    (hprop : propagateLoop ds.dockerStages onb ds.dockerStages 0 own = .ok final)
    (hA : ds.dockerStages[A]? = some stageA) (hC : ds.dockerStages[C]? = some stageC)
    (hcopy : Command.CopyCommand text From sources ∈ stageA.Commands)
    (hfrom : atoi From = some (C : Int))
    (hsrc : Command.CopyCommand textC "" sourcesC ∈ stageC.Commands) :
    (∀ x ∈ own.getD C [], x ∈ final.getD A []) ∧
    ∃ dsi resolved checksum,
      resolveSourcesFunc env dsi C false false sourcesC [] = .ok resolved ∧
      calculateFilesChecksum env args resolved = .ok checksum ∧
      checksum ∈ own.getD C [] ∧ checksum ∈ final.getD A [] := by
  obtain ⟨hl1, _, hst⟩ := firstPass_stage env args fuel _ _ _ _ _ hfirst
  obtain ⟨hfl, hfin⟩ := propagate_final ds.dockerStages onb own final hl1 hprop
  have hAlt : A < ds.dockerStages.length := by
    by_contra hge
    rw [List.getElem?_eq_none (by omega)] at hA
    cases hA
  have hClt : C < ds.dockerStages.length := by
    by_contra hge
    rw [List.getElem?_eq_none (by omega)] at hC
    cases hC
  have hsub : ∀ x ∈ own.getD C [], x ∈ final.getD A [] := by
    intro x hx
    have hf := hfin A stageA hA
    unfold stageFinal at hf
    apply copySegments_contains _ _ _ _ _ _ text From sources C x hf hcopy hfrom
      (by rw [length_listsAt A final own hfl (by omega)]; omega)
    by_cases hca : C = A
    · subst hca
      simp only [if_true]
      apply List.mem_append_left
      rw [getD_listsAt C final own hfl (by omega)]
      simpa using hx
    · simp only [hca, if_false]
      rw [getD_listsAt A final own hfl (by omega)]
      by_cases hlt : C < A
      · simp only [hlt, if_true]
        obtain ⟨ext, hext⟩ := final_extends_own _ _ _ _ hl1 hprop C stageC hC
        rw [hext]
        exact List.mem_append_left _ hx
      · simpa only [hlt, if_false] using hx
  obtain ⟨dsk, dsk1, _, hrun⟩ := hst C stageC hC
  obtain ⟨dsi, c, dsi1, hinstr, hc⟩ :=
    stageDependencies_own_mem env args fuel dsk dsk1 C stageC _ _ _ hrun hsrc
  simp only [dockerfileInstructionDependencies, instructionDependenciesBody, if_true] at hinstr
  split at hinstr
  · cases hinstr
  · rename_i resolved hres
    split at hinstr
    · cases hinstr
    · rename_i checksum hsum
      simp only [Except.ok.injEq, Prod.mk.injEq] at hinstr
      obtain ⟨hcv, _⟩ := hinstr
      have hin : checksum ∈ own.getD C [] := by
        apply hc
        rw [← hcv]
        simp
      exact ⟨hsub, dsi, resolved, checksum, hres, hsum, hin, hsub _ hin⟩

/-- C9 (amended) on the two-stage description with `COPY --from=0`: the checksum of
`app.go` is in the list of stage 1. -/
theorem C9_copy_from_index_content_witness :
    (∀ x ∈ [["base:1.0", "COPY app.go .", "sha256[v1]"],
        ["alpine", "COPY --from=0 /app /app"]].getD 0 [],
      x ∈ [["base:1.0", "COPY app.go .", "sha256[v1]"],
        ["alpine", "COPY --from=0 /app /app", "base:1.0", "COPY app.go .", "sha256[v1]"]].getD
          1 []) ∧
    ∃ dsi resolved checksum,
      resolveSourcesFunc (sampleEnvWithTree "v1") dsi 0 false false ["app.go"] [] =
        .ok resolved ∧
      calculateFilesChecksum (sampleEnvWithTree "v1") sampleArgs resolved = .ok checksum ∧
      checksum ∈ [["base:1.0", "COPY app.go .", "sha256[v1]"],
        ["alpine", "COPY --from=0 /app /app"]].getD 0 [] ∧
      checksum ∈ [["base:1.0", "COPY app.go .", "sha256[v1]"],
        ["alpine", "COPY --from=0 /app /app", "base:1.0", "COPY app.go .", "sha256[v1]"]].getD
          1 [] :=
  C9_copy_from_index_content (sampleEnvWithTree "v1") sampleArgs 1
    (sampleEngine (twoStages "0") [] 1) (sampleEngine (twoStages "0") [] 1)
    [["base:1.0", "COPY app.go .", "sha256[v1]"], ["alpine", "COPY --from=0 /app /app"]]
    [[], []]
    [["base:1.0", "COPY app.go .", "sha256[v1]"],
      ["alpine", "COPY --from=0 /app /app", "base:1.0", "COPY app.go .", "sha256[v1]"]]
    1 0
    ⟨"", "alpine", [.CopyCommand ("COPY --from=" ++ "0" ++ " /app /app") "0" ["/app"]]⟩
    ⟨"builder", "base:1.0", [.CopyCommand "COPY app.go ." "" ["app.go"]]⟩
    ("COPY --from=" ++ "0" ++ " /app /app") "0" ["/app"] "COPY app.go ." ["app.go"]
    rfl rfl rfl rfl (List.Mem.head _) rfl (List.Mem.head _)

/-- C9 (the claim as stated fails). In the two-stage scenario with `COPY --from=builder`
the list of the target stage 1 is `alpine` and the text of its `COPY`, whatever the
content checksum of `app.go` in stage `builder` is: the checksum entry of the builder
stage is not in it, and two different checksums give the same list. -/
theorem C9_copy_from_name_counterexample :
    (targetDependencies (sampleEnvWithTree "v1") sampleArgs 1
        (sampleEngine (twoStages "builder") [] 1)).map Prod.fst =
      .ok ["alpine", "COPY --from=builder /app /app"] ∧
    (targetDependencies (sampleEnvWithTree "v2") sampleArgs 1
        (sampleEngine (twoStages "builder") [] 1)).map Prod.fst =
      .ok ["alpine", "COPY --from=builder /app /app"] ∧
    calculateFilesChecksum (sampleEnvWithTree "v1") sampleArgs ["app.go"] = .ok "sha256[v1]" ∧
    calculateFilesChecksum (sampleEnvWithTree "v2") sampleArgs ["app.go"] = .ok "sha256[v2]" ∧
    "sha256[v1]" ∉ ["alpine", "COPY --from=builder /app /app"] ∧
    atoi "builder" = none :=
  ⟨rfl, rfl, rfl, rfl, by decide, rfl⟩

/-! ### Running the digest computation twice -/

theorem firstPass_state (env : Env) (args : DockerRunArgs) (fuel : Nat) (rest : List Stage)
    (ind : Nat) (ds ds1 : DockerStages) (acc accOnb : List (List String))
    (r : List (List String) × List (List String))
    (hw : ∀ stage ∈ rest, ∀ cmd ∈ stage.Commands, writesBindings cmd = false)
    (h : firstPass env args fuel rest ind ds acc accOnb = .ok (r, ds1)) : ds1 = ds := by
  induction rest generalizing ind ds acc accOnb with
  | nil =>
    simp only [firstPass, Except.ok.injEq, Prod.mk.injEq] at h
    exact h.2.symm
  | cons stage0 rest ih =>
    simp only [firstPass] at h
    cases hs : stageDependencies env args fuel ds ind stage0 with
    | error e =>
      rw [hs] at h
      cases h
    | ok x =>
      obtain ⟨⟨d, o⟩, ds2⟩ := x
      rw [hs] at h
      simp only [] at h
      have h2 := stageDependencies_state env args fuel ds ds2 ind stage0 (d, o)
        (hw stage0 (List.mem_cons_self _ _)) hs
      subst h2
      exact ih _ _ _ _ (fun s hs2 => hw s (List.mem_cons_of_mem _ hs2)) h

theorem firstPass_same (env : Env) (args : DockerRunArgs) (fuel : Nat) (rest : List Stage)
    (ind : Nat) (ds ds2 : DockerStages) (acc accOnb : List (List String))
    (h : ∀ i, scopeOf ds i = scopeOf ds2 i) :
    SameRun (firstPass env args fuel rest ind ds acc accOnb)
      (firstPass env args fuel rest ind ds2 acc accOnb) := by
  induction rest generalizing ind ds ds2 acc accOnb with
  | nil => simpa [firstPass, SameRun] using h
  | cons stage0 rest ih =>
    simp only [firstPass]
    rcases (stageDependencies_same env args fuel ind stage0 ds ds2 (h ind)).cases with
      ⟨e, hx, hy⟩ | ⟨r, d, d2, hx, hy, hs⟩
    · rw [hx, hy]
      simp [SameRun]
    · have f1 := stageDependencies_frame env args fuel ds d ind stage0 r hx
      have f2 := stageDependencies_frame env args fuel ds2 d2 ind stage0 r hy
      rw [hx, hy]
      simp only []
      apply ih
      intro j
      by_cases hj : j = ind
      · rw [hj]
        exact hs
      · rw [f1.scopeOf_ne hj, f2.scopeOf_ne hj]
        exact h j

theorem unrelatedArg_lineage (value : String) (i : Nat)
    (h : InLineage (unrelatedArg value) 1 i) : i = 1 := by
  unfold InLineage at h
  induction h with
  | refl => rfl
  | @tail b c _ hbc ih =>
    subst ih
    obtain ⟨sa, hsa, hedge⟩ := hbc
    simp only [unrelatedArg, List.getElem?_cons_succ, List.getElem?_cons_zero,
      Option.some.injEq] at hsa
    subst hsa
    rcases hedge with ⟨hne, sb, hsb, hname⟩ | ⟨t, F, s, hmem, _, _⟩
    · rcases c with _ | _ | c
      · simp only [unrelatedArg, List.getElem?_cons_zero, Option.some.injEq] at hsb
        subst hsb
        simp at hname
      · exact absurd rfl hne
      · simp [unrelatedArg] at hsb
    · simp at hmem

/-- C10 on two stages: changing `ARG UNUSED=x` to `ARG UNUSED=y` in the stage `other`,
which the target stage 1 (`FROM alpine`, `RUN make`) does not draw on. -/
theorem C10_lineage_independence_witness :
    targetDependencies sampleEnv sampleArgs 1 (sampleEngine (unrelatedArg "x") [] 1) =
      .ok (["alpine", "RUN make"],
        setDockerStageArg (sampleEngine (unrelatedArg "x") [] 1) 0 "UNUSED" "x") ∧
    targetDependencies sampleEnv sampleArgs 1
        (withStages (sampleEngine (unrelatedArg "x") [] 1) (unrelatedArg "y")) =
      .ok (["alpine", "RUN make"],
        setDockerStageArg (withStages (sampleEngine (unrelatedArg "x") [] 1) (unrelatedArg "y"))
          0 "UNUSED" "y") ∧
    (["alpine", "RUN make"] = ["alpine", "RUN make"] ∧
      sampleEnv.sha256Hash ["alpine", "RUN make"] = sampleEnv.sha256Hash ["alpine", "RUN make"]) :=
  ⟨rfl, rfl,
    C10_lineage_independence sampleEnv sampleArgs 1 (sampleEngine (unrelatedArg "x") [] 1)
      (unrelatedArg "y") 1 ["alpine", "RUN make"] ["alpine", "RUN make"]
      (setDockerStageArg (sampleEngine (unrelatedArg "x") [] 1) 0 "UNUSED" "x")
      (setDockerStageArg (withStages (sampleEngine (unrelatedArg "x") [] 1) (unrelatedArg "y")) 0
        "UNUSED" "y")
      rfl rfl
      (fun i h => by rw [unrelatedArg_lineage "x" i h]; rfl)
      rfl rfl⟩

/-! ### The extraction rules by instruction kind -/

theorem resolveSourcesFunc_eq (env : Env) (ds : DockerStages) (i : Nat) (o b : Bool)
    (sources acc : List String) :
    resolveSourcesFunc env ds i o b sources acc =
      (match resolveEach (resolveValueFunc env ds i o b) sources with
        | .error err => .error err
        | .ok rs => .ok (acc ++ rs)) := by
  induction sources generalizing acc with
  | nil => simp [resolveSourcesFunc, resolveEach]
  | cons s rest ih =>
    simp only [resolveSourcesFunc, resolveEach]
    cases resolveValueFunc env ds i o b s with
    | error e => rfl
    | ok r =>
      simp only []
      rw [ih]
      cases resolveEach (resolveValueFunc env ds i o b) rest with
      | error e => rfl
      | ok rs => simp

theorem argCommandLoop_inherited (env : Env) (i : Nat) (b : Bool)
    (pairs : List KeyValuePairOptional) (ds : DockerStages) (acc : List String) :
    argCommandLoop env i true b pairs ds acc =
      (match resolvePairs (resolveValueFunc env ds i true b)
          (pairs.map fun kv => (kv.Key, kv.Value.getD "")) with
        | .error err => .error err
        | .ok rs => .ok (acc ++ rs.map fun kv => "ARG " ++ kv.1 ++ "=" ++ kv.2, ds)) := by
  induction pairs generalizing acc with
  | nil => simp [argCommandLoop, resolvePairs]
  | cons kv rest ih =>
    simp only [argCommandLoop, processArgFunc, resolveKeyAndValueFunc, List.map_cons,
      resolvePairs, Bool.not_true, Bool.false_eq_true, if_false]
    cases resolveValueFunc env ds i true b kv.Key with
    | error e => rfl
    | ok rk =>
      simp only []
      cases resolveValueFunc env ds i true b (kv.Value.getD "") with
      | error e => rfl
      | ok rv =>
        simp only []
        rw [ih]
        cases resolvePairs (resolveValueFunc env ds i true b)
            (rest.map fun kv => (kv.Key, kv.Value.getD "")) with
        | error e => rfl
        | ok rs => simp

theorem envCommandLoop_inherited (env : Env) (i : Nat) (b : Bool)
    (pairs : List KeyValuePair) (ds : DockerStages) (acc : List String) :
    envCommandLoop env i true b pairs ds acc =
      (match resolvePairs (resolveValueFunc env ds i true b)
          (pairs.map fun kv => (kv.Key, kv.Value)) with
        | .error err => .error err
        | .ok rs => .ok (acc ++ rs.map fun kv => "ENV " ++ kv.1 ++ "=" ++ kv.2, ds)) := by
  induction pairs generalizing acc with
  | nil => simp [envCommandLoop, resolvePairs]
  | cons kv rest ih =>
    simp only [envCommandLoop, processEnvFunc, resolveKeyAndValueFunc, List.map_cons,
      resolvePairs, Bool.not_true, Bool.false_eq_true, if_false]
    cases resolveValueFunc env ds i true b kv.Key with
    | error e => rfl
    | ok rk =>
      simp only []
      cases resolveValueFunc env ds i true b kv.Value with
      | error e => rfl
      | ok rv =>
        simp only []
        rw [ih]
        cases resolvePairs (resolveValueFunc env ds i true b)
            (rest.map fun kv => (kv.Key, kv.Value)) with
        | error e => rfl
        | ok rs => simp

theorem body_inherited (env : Env) (args : DockerRunArgs)
    (onBuild : DockerStages → Nat → String → Bool → Extracted) (ds : DockerStages) (i : Nat)
    (cmd : Command) (b : Bool) (hcmd : ∀ e, cmd ≠ .OnbuildCommand e) :
    instructionDependenciesBody env args onBuild ds i cmd true b =
      (match inheritedScopeDependencies env args (resolveValueFunc env ds i true b) cmd with
        | .error err => .error err
        | .ok deps => .ok ((deps, []), ds)) := by
  cases cmd with
  | ArgCommand a =>
    simp only [instructionDependenciesBody, inheritedScopeDependencies, argCommandLoop_inherited]
    cases resolvePairs (resolveValueFunc env ds i true b)
        (a.map fun kv => (kv.Key, kv.Value.getD "")) with
    | error e => rfl
    | ok rs => simp
  | EnvCommand a =>
    simp only [instructionDependenciesBody, inheritedScopeDependencies, envCommandLoop_inherited]
    cases resolvePairs (resolveValueFunc env ds i true b)
        (a.map fun kv => (kv.Key, kv.Value)) with
    | error e => rfl
    | ok rs => simp
  | AddCommand text sources =>
    simp only [instructionDependenciesBody, inheritedScopeDependencies, resolveSourcesFunc_eq]
    cases resolveEach (resolveValueFunc env ds i true b) sources with
    | error e => rfl
    | ok rs =>
      simp only [List.nil_append]
      cases calculateFilesChecksum env args rs with
      | error e => rfl
      | ok c => rfl
  | CopyCommand text From sources =>
    simp only [instructionDependenciesBody, inheritedScopeDependencies, resolveSourcesFunc_eq]
    by_cases hf : From = ""
    · simp only [hf, if_true]
      cases resolveEach (resolveValueFunc env ds i true b) sources with
      | error e => rfl
      | ok rs =>
        simp only [List.nil_append]
        cases calculateFilesChecksum env args rs with
        | error e => rfl
        | ok c => rfl
    · simp only [hf, if_false]
  | OnbuildCommand e => exact absurd rfl (hcmd e)
  | Other text =>
    simp only [instructionDependenciesBody, inheritedScopeDependencies]
    cases resolveValueFunc env ds i true b text with
    | error e => rfl
    | ok rv => rfl
  | Unknown => rfl

/-- C15 (amended). Inherited-instruction resolution mode: the strings appended for an
inherited instruction of the base image (one that is no `ONBUILD` container) are its
dependencies by the extraction rules with every word left as written: no variable is
expanded, neither from the ENV nor from the ARG bindings of the stage, and the engine is
left as it was. -/
theorem C15_inherited_unresolved (env : Env) (args : DockerRunArgs) (fuel : Nat)
    (ds : DockerStages) (ind : Nat) (instruction : String) (cmd : Command)
    (hparse : env.parseInstruction instruction = .ok cmd)
    (hcmd : ∀ e, cmd ≠ .OnbuildCommand e) :
    dockerfileOnBuildInstructionDependencies env args (fuel + 1) ds ind instruction true =
      (match inheritedScopeDependencies env args (fun value => .ok value) cmd with
        | .error err => .error err
        | .ok deps => .ok (([instruction], deps), ds)) := by
  have hres : resolveValueFunc env ds ind true true = fun value => .ok value := by
    funext value
    simp [resolveValueFunc]
  simp only [dockerfileOnBuildInstructionDependencies, hparse,
    body_inherited env args _ ds ind cmd true hcmd, hres]
  cases inheritedScopeDependencies env args (fun value => .ok value) cmd with
  | error e => rfl
  | ok deps => rfl

/-- C15 (amended) on the inherited instruction `RUN echo $X`: the entry is the text with
the reference as written. -/
theorem C15_inherited_unresolved_witness :
    dockerfileOnBuildInstructionDependencies sampleEnv sampleArgs (0 + 1)
        (alpineEngine ["RUN echo $X"] []) 0 "RUN echo $X" true =
      (match inheritedScopeDependencies sampleEnv sampleArgs (fun value => .ok value)
          (.Other "RUN echo $X") with
        | .error err => .error err
        | .ok deps => .ok ((["RUN echo $X"], deps), alpineEngine ["RUN echo $X"] [])) :=
  C15_inherited_unresolved sampleEnv sampleArgs 0 (alpineEngine ["RUN echo $X"] []) 0
    "RUN echo $X" (.Other "RUN echo $X") rfl (fun e h => by cases h)

/-- C15 (the claim as stated fails). For `FROM alpine`, the OnBuild Index holding the
inherited instruction `RUN echo $X` for `alpine` and no ENV binding of `X`, the stage list
carries `RUN echo $X` as written, not the text with the reference expanded to the empty
string, which is what the resolver gives against the ENV bindings of the stage. -/
theorem C15_inherited_counterexample :
    (targetDependencies sampleEnv sampleArgs 2 (alpineEngine ["RUN echo $X"] [])).map Prod.fst =
      .ok ["alpine", "RUN echo $X"] ∧
    ShlexProcessWordWithStageEnvs sampleEnv (alpineEngine ["RUN echo $X"] []) 0 "RUN echo $X" =
      .ok "RUN echo " ∧
    ["alpine", "RUN echo $X"] ≠ ["alpine", "RUN echo "] :=
  ⟨rfl, rfl, by decide⟩

/-- C16 (amended). `ONBUILD` container among the own instructions of a stage: the
extractor parses the embedded instruction, the secondary onbuild list gets the
dependencies of the embedded instruction (one that is no `ONBUILD` container itself) by
the extraction rules with the words resolved against the ENV bindings of the stage only,
the primary list gets exactly one entry, the text of the embedded instruction as written
(the field `Expression`), and the engine is left as it was. -/
theorem C16_onbuild_container (env : Env) (args : DockerRunArgs) (fuel : Nat)
    (ds : DockerStages) (ind : Nat) (Expression : String) (cmd : Command)
    (hparse : env.parseInstruction Expression = .ok cmd)
    (hcmd : ∀ e, cmd ≠ .OnbuildCommand e) :
    dockerfileInstructionDependencies env args (fuel + 1) ds ind (.OnbuildCommand Expression)
        false false =
      (match inheritedScopeDependencies env args (ShlexProcessWordWithStageEnvs env ds ind)
          cmd with
        | .error err => .error err
        | .ok deps => .ok (([Expression], deps), ds)) := by
  have hres : resolveValueFunc env ds ind true false =
      ShlexProcessWordWithStageEnvs env ds ind := by
    funext value
    simp [resolveValueFunc]
  have hinner : dockerfileOnBuildInstructionDependencies env args (fuel + 1) ds ind Expression
      false =
      (match inheritedScopeDependencies env args (ShlexProcessWordWithStageEnvs env ds ind)
          cmd with
        | .error err => .error err
        | .ok deps => .ok (([Expression], deps), ds)) := by
    simp only [dockerfileOnBuildInstructionDependencies, hparse,
      body_inherited env args _ ds ind cmd false hcmd, hres]
    cases inheritedScopeDependencies env args (ShlexProcessWordWithStageEnvs env ds ind)
        cmd with
    | error e => rfl
    | ok deps => rfl
  rw [dockerfileInstructionDependencies]
  simp only [instructionDependenciesBody]
  rw [hinner]
  cases inheritedScopeDependencies env args (ShlexProcessWordWithStageEnvs env ds ind) cmd with
  | error e => rfl
  | ok deps => rfl

/-- C16 (amended) on `ONBUILD RUN echo $X` in a stage with the ARG `X=a` and the ENV
`X=e`. -/
theorem C16_onbuild_container_witness :
    dockerfileInstructionDependencies sampleEnv sampleArgs (0 + 1)
        (setDockerStageEnv (alpineEngine [] []) 0 "X" "e") 0 (.OnbuildCommand "RUN echo $X")
        false false =
      (match inheritedScopeDependencies sampleEnv sampleArgs
          (ShlexProcessWordWithStageEnvs sampleEnv
            (setDockerStageEnv (alpineEngine [] []) 0 "X" "e") 0) (.Other "RUN echo $X") with
        | .error err => .error err
        | .ok deps =>
          .ok ((["RUN echo $X"], deps), setDockerStageEnv (alpineEngine [] []) 0 "X" "e")) :=
  C16_onbuild_container sampleEnv sampleArgs 0 (setDockerStageEnv (alpineEngine [] []) 0 "X" "e")
    0 "RUN echo $X" (.Other "RUN echo $X") rfl (fun e h => by cases h)

/-- C16 (the claim as stated fails). For the own instruction `ONBUILD RUN echo $X` the
primary list gets `RUN echo $X`, the embedded instruction, and not the text of the
container, `ONBUILD RUN echo $X`; the secondary list gets the embedded instruction
resolved against the ENV bindings `X=e` of the stage. -/
theorem C16_onbuild_counterexample :
    dockerfileInstructionDependencies sampleEnv sampleArgs 1
        (setDockerStageEnv (alpineEngine [] []) 0 "X" "e") 0 (.OnbuildCommand "RUN echo $X")
        false false =
      .ok ((["RUN echo $X"], ["RUN echo e"]), setDockerStageEnv (alpineEngine [] []) 0 "X" "e") ∧
    onbuildInstructionText "RUN echo $X" = "ONBUILD RUN echo $X" ∧
    ["RUN echo $X"] ≠ [onbuildInstructionText "RUN echo $X"] :=
  ⟨rfl, rfl, by decide⟩

/-- C17. `ADD`, and `COPY` without `--from`, among the own instructions of a stage: the
sources are resolved one after the other against the ARG and ENV bindings of the stage,
the content checksum is computed over the resolved sources, and the contribution is
exactly the literal text of the instruction followed by that checksum; when the
resolution of a source or the checksum fails, the extraction fails with that error. -/
theorem C17_add_copy_entries (env : Env) (args : DockerRunArgs) (fuel : Nat)
    (ds : DockerStages) (ind : Nat) (text : String) (sources : List String) :
    dockerfileInstructionDependencies env args fuel ds ind (.AddCommand text sources)
        false false =
      (match resolveEach (ShlexProcessWordWithStageArgsAndEnvs env ds ind) sources with
        | .error err => .error err
        | .ok resolvedSources =>
          match calculateFilesChecksum env args resolvedSources with
          | .error err => .error err
          | .ok checksum => .ok (([text, checksum], []), ds)) ∧
    dockerfileInstructionDependencies env args fuel ds ind (.CopyCommand text "" sources)
        false false =
      (match resolveEach (ShlexProcessWordWithStageArgsAndEnvs env ds ind) sources with
        | .error err => .error err
        | .ok resolvedSources =>
          match calculateFilesChecksum env args resolvedSources with
          | .error err => .error err
          | .ok checksum => .ok (([text, checksum], []), ds)) := by
  have hres : resolveValueFunc env ds ind false false =
      ShlexProcessWordWithStageArgsAndEnvs env ds ind := by
    funext value
    simp [resolveValueFunc]
  constructor
  · simp only [dockerfileInstructionDependencies, instructionDependenciesBody,
      resolveSourcesFunc_eq, hres]
    cases resolveEach (ShlexProcessWordWithStageArgsAndEnvs env ds ind) sources with
    | error e => rfl
    | ok rs => simp
  · simp only [dockerfileInstructionDependencies, instructionDependenciesBody,
      resolveSourcesFunc_eq, hres, if_true]
    cases resolveEach (ShlexProcessWordWithStageArgsAndEnvs env ds ind) sources with
    | error e => rfl
    | ok rs => simp

/-- C18. `COPY` with a non-empty `--from`: in every mode the contribution is exactly one
entry, the literal text of the instruction, and the engine is left as it was, whatever the
word resolver and the checksum provider would answer: neither is asked. -/
theorem C18_copy_from_entry (env : Env) (args : DockerRunArgs) (fuel : Nat)
    (ds : DockerStages) (ind : Nat) (text From : String) (sources : List String)
    (isOnbuildInstruction isBaseImageOnbuildInstruction : Bool) (hfrom : From ≠ "") :
    dockerfileInstructionDependencies env args fuel ds ind (.CopyCommand text From sources)
        isOnbuildInstruction isBaseImageOnbuildInstruction = .ok (([text], []), ds) := by
  simp only [dockerfileInstructionDependencies, instructionDependenciesBody, hfrom, if_false]

/-- C18 on `COPY --from=0 /app /app` with a word resolver and a checksum provider that
always fail. -/
theorem C18_copy_from_entry_witness :
    dockerfileInstructionDependencies
        { sampleEnv with
          processWord := fun _ _ => .error (.error "no resolver")
          gitChecksum := fun _ => .error (.error "no provider") }
        sampleArgs 0 (sampleEngine [] [] 0) 0
        (.CopyCommand "COPY --from=0 /app /app" "0" ["/app"]) false false =
      .ok ((["COPY --from=0 /app /app"], []), sampleEngine [] [] 0) :=
  C18_copy_from_entry _ sampleArgs 0 (sampleEngine [] [] 0) 0 "COPY --from=0 /app /app" "0"
    ["/app"] false false (by decide)

theorem envCommandLoop_own (env : Env) (i : Nat) (b : Bool) (pairs : List KeyValuePair)
    (ds : DockerStages) (acc : List String) :
    envCommandLoop env i false b pairs ds acc =
      (match stageEnvPairs env i pairs ds with
        | .error err => .error err
        | .ok (rs, ds1) => .ok (acc ++ rs.map fun kv => "ENV " ++ kv.1 ++ "=" ++ kv.2, ds1)) := by
  induction pairs generalizing ds acc with
  | nil => simp [envCommandLoop, stageEnvPairs]
  | cons kv rest ih =>
    simp only [envCommandLoop, processEnvFunc, stageEnvPairs, Bool.not_false, if_true]
    cases AddDockerStageEnv env ds i kv.Key kv.Value with
    | error e => rfl
    | ok r =>
      obtain ⟨⟨rk, rv⟩, ds1⟩ := r
      simp only []
      rw [ih]
      cases stageEnvPairs env i rest ds1 with
      | error e => rfl
      | ok r2 =>
        obtain ⟨rs, ds2⟩ := r2
        simp

theorem stageEnvPairs_length (env : Env) (i : Nat) (pairs : List KeyValuePair)
    (ds ds1 : DockerStages) (rs : List (String × String))
    (h : stageEnvPairs env i pairs ds = .ok (rs, ds1)) : rs.length = pairs.length := by
  induction pairs generalizing ds rs with
  | nil =>
    simp only [stageEnvPairs, Except.ok.injEq, Prod.mk.injEq] at h
    rw [← h.1]
    rfl
  | cons kv rest ih =>
    simp only [stageEnvPairs] at h
    cases ha : AddDockerStageEnv env ds i kv.Key kv.Value with
    | error e =>
      rw [ha] at h
      cases h
    | ok r =>
      obtain ⟨kvr, ds2⟩ := r
      rw [ha] at h
      simp only [] at h
      cases hr : stageEnvPairs env i rest ds2 with
      | error e =>
        rw [hr] at h
        cases h
      | ok r2 =>
        obtain ⟨rs2, ds3⟩ := r2
        rw [hr] at h
        simp only [Except.ok.injEq, Prod.mk.injEq] at h
        obtain ⟨h1, h2⟩ := h
        subst h1 h2
        simp [ih _ _ hr]

theorem AddDockerStageEnv_stored (env : Env) (ds ds1 : DockerStages) (i : Nat)
    (k v rk rv : String) (h : AddDockerStageEnv env ds i k v = .ok ((rk, rv), ds1)) :
    ShlexProcessWordWithStageArgsAndEnvs env ds i k = .ok rk ∧
      ShlexProcessWordWithStageArgsAndEnvs env ds i v = .ok rv ∧
      (DockerStageEnvs ds1 i).lookup rk = some rv := by
  unfold AddDockerStageEnv at h
  split at h
  · cases h
  · rename_i rk2 hk
    split at h
    · cases h
    · rename_i rv2 hv
      simp only [Except.ok.injEq, Prod.mk.injEq] at h
      obtain ⟨⟨h1, h2⟩, h3⟩ := h
      subst h1 h2 h3
      exact ⟨hk, hv, by
        simp [DockerStageEnvs, setDockerStageEnv, stageGet_stageSet_self, lookup_assocSet_self]⟩

/-- C19. `ENV` among the own instructions of a stage: the assignments are resolved and
stored one after the other by the stage-ENV rule (key and value resolved against the ARG
and ENV bindings of the stage, the pair stored in the ENV bindings), and the contribution
is one entry `ENV <key>=<value>` per assignment in assignment order.  Hence two
assignments that resolve the same way in either order, to different entries, contribute
different lists in the two orders. -/
theorem C19_env_entries (env : Env) (args : DockerRunArgs) (fuel : Nat) (ds : DockerStages)
    (ind : Nat) (pairs : List KeyValuePair) (p q : KeyValuePair) (k1 v1 k2 v2 : String)
    (ds1 ds2 ds3 ds4 : DockerStages)
    (h1 : AddDockerStageEnv env ds ind p.Key p.Value = .ok ((k1, v1), ds1))
    (h2 : AddDockerStageEnv env ds1 ind q.Key q.Value = .ok ((k2, v2), ds2))
    (h3 : AddDockerStageEnv env ds ind q.Key q.Value = .ok ((k2, v2), ds3))
    (h4 : AddDockerStageEnv env ds3 ind p.Key p.Value = .ok ((k1, v1), ds4))
    (hne : "ENV " ++ k1 ++ "=" ++ v1 ≠ "ENV " ++ k2 ++ "=" ++ v2) :
    dockerfileInstructionDependencies env args fuel ds ind (.EnvCommand pairs) false false =
      (match stageEnvPairs env ind pairs ds with
        | .error err => .error err
        | .ok (resolved, dsn) =>
          .ok ((resolved.map fun kv => "ENV " ++ kv.1 ++ "=" ++ kv.2, []), dsn)) ∧
    (∀ resolved dsn, stageEnvPairs env ind pairs ds = .ok (resolved, dsn) →
      resolved.length = pairs.length) ∧
    (∀ d d1 k v rk rv, AddDockerStageEnv env d ind k v = .ok ((rk, rv), d1) →
      ShlexProcessWordWithStageArgsAndEnvs env d ind k = .ok rk ∧
      ShlexProcessWordWithStageArgsAndEnvs env d ind v = .ok rv ∧
      (DockerStageEnvs d1 ind).lookup rk = some rv) ∧
    dockerfileInstructionDependencies env args fuel ds ind (.EnvCommand [p, q]) false false =
      .ok ((["ENV " ++ k1 ++ "=" ++ v1, "ENV " ++ k2 ++ "=" ++ v2], []), ds2) ∧
    dockerfileInstructionDependencies env args fuel ds ind (.EnvCommand [q, p]) false false =
      .ok ((["ENV " ++ k2 ++ "=" ++ v2, "ENV " ++ k1 ++ "=" ++ v1], []), ds4) ∧
    ["ENV " ++ k1 ++ "=" ++ v1, "ENV " ++ k2 ++ "=" ++ v2] ≠
      ["ENV " ++ k2 ++ "=" ++ v2, "ENV " ++ k1 ++ "=" ++ v1] := by
  refine ⟨?_, ?_, ?_, ?_, ?_, ?_⟩
  · simp only [dockerfileInstructionDependencies, instructionDependenciesBody,
      envCommandLoop_own]
    cases stageEnvPairs env ind pairs ds with
    | error e => rfl
    | ok r =>
      obtain ⟨rs, dsn⟩ := r
      simp
  · intro resolved dsn h
    exact stageEnvPairs_length env ind pairs ds dsn resolved h
  · intro d d1 k v rk rv h
    exact AddDockerStageEnv_stored env d d1 ind k v rk rv h
  · simp [dockerfileInstructionDependencies, instructionDependenciesBody, envCommandLoop,
      processEnvFunc, h1, h2]
  · simp [dockerfileInstructionDependencies, instructionDependenciesBody, envCommandLoop,
      processEnvFunc, h3, h4]
  · intro h
    simp only [List.cons.injEq, and_true] at h
    exact hne h.1

/-- C19 on `ENV A=1 B=2` against `ENV B=2 A=1`. -/
theorem C19_env_entries_witness :
    dockerfileInstructionDependencies sampleEnv sampleArgs 0 (sampleEngine [] [] 0) 0
        (.EnvCommand [⟨"A", "1"⟩, ⟨"B", "2"⟩]) false false =
      (match stageEnvPairs sampleEnv 0 [⟨"A", "1"⟩, ⟨"B", "2"⟩] (sampleEngine [] [] 0) with
        | .error err => .error err
        | .ok (resolved, dsn) =>
          .ok ((resolved.map fun kv => "ENV " ++ kv.1 ++ "=" ++ kv.2, []), dsn)) ∧
    (∀ resolved dsn,
      stageEnvPairs sampleEnv 0 [⟨"A", "1"⟩, ⟨"B", "2"⟩] (sampleEngine [] [] 0) =
        .ok (resolved, dsn) →
      resolved.length = [(⟨"A", "1"⟩ : KeyValuePair), ⟨"B", "2"⟩].length) ∧
    (∀ d d1 k v rk rv, AddDockerStageEnv sampleEnv d 0 k v = .ok ((rk, rv), d1) →
      ShlexProcessWordWithStageArgsAndEnvs sampleEnv d 0 k = .ok rk ∧
      ShlexProcessWordWithStageArgsAndEnvs sampleEnv d 0 v = .ok rv ∧
      (DockerStageEnvs d1 0).lookup rk = some rv) ∧
    dockerfileInstructionDependencies sampleEnv sampleArgs 0 (sampleEngine [] [] 0) 0
        (.EnvCommand [⟨"A", "1"⟩, ⟨"B", "2"⟩]) false false =
      .ok ((["ENV " ++ "A" ++ "=" ++ "1", "ENV " ++ "B" ++ "=" ++ "2"], []),
        setDockerStageEnv (setDockerStageEnv (sampleEngine [] [] 0) 0 "A" "1") 0 "B" "2") ∧
    dockerfileInstructionDependencies sampleEnv sampleArgs 0 (sampleEngine [] [] 0) 0
        (.EnvCommand [⟨"B", "2"⟩, ⟨"A", "1"⟩]) false false =
      .ok ((["ENV " ++ "B" ++ "=" ++ "2", "ENV " ++ "A" ++ "=" ++ "1"], []),
        setDockerStageEnv (setDockerStageEnv (sampleEngine [] [] 0) 0 "B" "2") 0 "A" "1") ∧
    ["ENV " ++ "A" ++ "=" ++ "1", "ENV " ++ "B" ++ "=" ++ "2"] ≠
      ["ENV " ++ "B" ++ "=" ++ "2", "ENV " ++ "A" ++ "=" ++ "1"] :=
  C19_env_entries sampleEnv sampleArgs 0 (sampleEngine [] [] 0) 0 [⟨"A", "1"⟩, ⟨"B", "2"⟩]
    ⟨"A", "1"⟩ ⟨"B", "2"⟩ "A" "1" "B" "2"
    (setDockerStageEnv (sampleEngine [] [] 0) 0 "A" "1")
    (setDockerStageEnv (setDockerStageEnv (sampleEngine [] [] 0) 0 "A" "1") 0 "B" "2")
    (setDockerStageEnv (sampleEngine [] [] 0) 0 "B" "2")
    (setDockerStageEnv (setDockerStageEnv (sampleEngine [] [] 0) 0 "B" "2") 0 "A" "1")
    rfl rfl rfl rfl (by decide)

/-! ### Source glob normalization -/

theorem splitSlash_no_slash (cs : List Char) : ∀ e ∈ splitSlash cs, '/' ∉ e := by
  induction cs with
  | nil => simp [splitSlash]
  | cons c rest ih =>
    intro e he
    by_cases hc : c = '/'
    · simp only [splitSlash, hc, if_true, List.mem_cons] at he
      rcases he with he | he
      · simp [he]
      · exact ih e he
    · simp only [splitSlash, hc, if_false] at he
      cases hs : splitSlash rest with
      | nil =>
        rw [hs] at he
        simp only [List.mem_singleton] at he
        subst he
        simpa using fun h => hc h.symm
      | cons e0 es =>
        rw [hs] at he ih
        simp only [List.mem_cons] at he
        rcases he with he | he
        · subst he
          have h0 := ih e0 (List.mem_cons_self _ _)
          simp only [List.mem_cons, not_or]
          exact ⟨fun h => hc h.symm, h0⟩
        · exact ih e (List.mem_cons_of_mem _ he)

theorem cleanStep_elements (rooted : Bool) (out : List (List Char)) (elem : List Char)
    (hout : ∀ e ∈ out, e ≠ [] ∧ '/' ∉ e) (helem : '/' ∉ elem) :
    ∀ e ∈ cleanStep rooted out elem, e ≠ [] ∧ '/' ∉ e := by
  have hdd : (['.', '.'] : List Char) ≠ [] ∧ '/' ∉ (['.', '.'] : List Char) := by decide
  unfold cleanStep
  split
  · exact hout
  · rename_i h1
    split
    · cases out with
      | nil =>
        cases rooted with
        | true => simp
        | false =>
          intro e he
          simp only [Bool.false_eq_true, if_false, List.mem_singleton] at he
          subst he
          exact hdd
      | cons top below =>
        simp only []
        split
        · intro e he
          rcases List.mem_cons.mp he with he | he
          · subst he
            exact hdd
          · exact hout e he
        · intro e he
          exact hout e (List.mem_cons_of_mem _ he)
    · intro e he
      rcases List.mem_cons.mp he with he | he
      · subst he
        exact ⟨fun h => h1 (Or.inl h), helem⟩
      · exact hout e he

theorem foldl_cleanStep_elements (rooted : Bool) (elems : List (List Char))
    (out : List (List Char)) (hout : ∀ e ∈ out, e ≠ [] ∧ '/' ∉ e)
    (helems : ∀ e ∈ elems, '/' ∉ e) :
    ∀ e ∈ elems.foldl (cleanStep rooted) out, e ≠ [] ∧ '/' ∉ e := by
  induction elems generalizing out with
  | nil => simpa using hout
  | cons elem rest ih =>
    simp only [List.foldl_cons]
    apply ih
    · exact cleanStep_elements rooted out elem hout (helems elem (List.mem_cons_self _ _))
    · intro e he
      exact helems e (List.mem_cons_of_mem _ he)

theorem intercalate_head (l : List (List Char)) (hl : ∀ e ∈ l, e ≠ [] ∧ '/' ∉ e) :
    (List.intercalate ['/'] l).head? ≠ some '/' := by
  cases l with
  | nil => simp [List.intercalate]
  | cons e rest =>
    obtain ⟨hne, hns⟩ := hl e (List.mem_cons_self _ _)
    cases e with
    | nil => exact absurd rfl hne
    | cons c cs =>
      have hc : c ≠ '/' := by
        intro h
        apply hns
        simp [h]
      cases rest with
      | nil => simpa [List.intercalate, List.intersperse] using hc
      | cons e2 rest2 => simpa [List.intercalate, List.intersperse] using hc

theorem pathClean_no_double_slash (path : String) (rest : List Char)
    (h : (pathClean path).toList = '/' :: rest) : rest.head? ≠ some '/' := by
  have hbody : ∀ rooted : Bool, (List.intercalate ['/']
      (((splitSlash path.toList).foldl (cleanStep rooted) []).reverse)).head? ≠ some '/' := by
    intro rooted
    apply intercalate_head
    intro e he
    exact foldl_cleanStep_elements rooted _ [] (by simp) (splitSlash_no_slash _) e
      (List.mem_reverse.mp he)
  unfold pathClean at h
  simp only [] at h
  by_cases hr : path.toList.head? = some '/'
  · simp only [hr, if_true, decide_True] at h
    simp only [String.toList, List.cons.injEq, true_and] at h
    rw [← h]
    exact hbody true
  · simp only [hr, if_false, decide_False] at h
    split at h
    · simp [String.toList] at h
    · simp only [String.toList] at h
      have := hbody false
      simp only [String.toList] at this
      rw [h] at this
      simp at this

/-- C20. Source glob normalization: `normalizeCopyAddSources` returns the normalized globs
of its arguments one for one in the same order; no normalized glob begins with a slash;
a glob whose cleaned form is `/` becomes `.`, any other glob whose cleaned form begins
with a slash becomes the cleaned form without that slash, and every other glob becomes
its cleaned form. -/
theorem C20_normalize_sources (wildcards : List String) :
    (normalizeCopyAddSources pathClean wildcards).length = wildcards.length ∧
    (∀ n ∈ normalizeCopyAddSources pathClean wildcards, n.toList.head? ≠ some '/') ∧
    ∀ (i : Nat) (wildcard : String), wildcards[i]? = some wildcard →
      ∃ n, (normalizeCopyAddSources pathClean wildcards)[i]? = some n ∧
        (pathClean wildcard = "/" → n = ".") ∧
        (∀ rest, pathClean wildcard ≠ "/" → (pathClean wildcard).toList = '/' :: rest →
          n = String.mk rest) ∧
        ((pathClean wildcard).toList.head? ≠ some '/' → n = pathClean wildcard) := by
  refine ⟨by simp [normalizeCopyAddSources], ?_, ?_⟩
  · intro n hn
    simp only [normalizeCopyAddSources, List.mem_map] at hn
    obtain ⟨w, _, hw⟩ := hn
    subst hw
    by_cases h1 : pathClean w = "/"
    · simp only [h1, if_true]
      decide
    · simp only [h1, if_false]
      split
      · rename_i rest hrest
        exact pathClean_no_double_slash w rest hrest
      · rename_i hno
        intro hhead
        cases hl : (pathClean w).data with
        | nil => simp [String.toList, hl] at hhead
        | cons c cs =>
          simp only [String.toList, hl, List.head?_cons, Option.some.injEq] at hhead
          subst hhead
          exact hno cs hl
  · intro i wildcard hi
    simp only [normalizeCopyAddSources, List.getElem?_map, hi, Option.map_some']
    refine ⟨_, rfl, ?_, ?_, ?_⟩
    · intro h1
      simp [h1]
    · intro rest h1 hrest
      simp only [h1, if_false, hrest]
    · intro hhead
      have h1 : pathClean wildcard ≠ "/" := by
        intro h
        rw [h] at hhead
        exact hhead (by decide)
      simp only [h1, if_false]
      split
      · rename_i rest hrest
        rw [hrest] at hhead
        simp at hhead
      · rfl

/-! ### The fetch phase -/

theorem fetchLookup_cases {σ : Type} (rt : ContainerRuntime σ) (st : FetchState σ)
    (rb : String) :
    ∃ block, IsLookupBlock rb block ∧
      (fetchLookup rt st rb).1.calls = st.calls ++ block ∧
      (((fetchLookup rt st rb).2 ≠ none ∧ (fetchLookup rt st rb).1.ds = st.ds) ∨
        ((fetchLookup rt st rb).2 = none ∧ ∃ onBuild,
          (fetchLookup rt st rb).1.ds = setOnBuild st.ds rb onBuild ∧
            ObtainedFor rt rb onBuild)) := by
  unfold fetchLookup getBaseImageOnBuildLocally
  cases h1 : rt.getImageInfo st.world rb with
  | error e =>
    exact ⟨_, Or.inl rfl, by simp [FetchState.log], Or.inl ⟨by simp, rfl⟩⟩
  | ok info =>
    cases info with
    | some onBuild =>
      exact ⟨_, Or.inl rfl, by simp [FetchState.log, FetchState.store],
        Or.inr ⟨rfl, onBuild, rfl, st.world, Or.inl h1⟩⟩
    | none =>
      simp only [getBaseImageOnBuildRemotely]
      cases h2 : rt.getRepoImageConfigFile st.world rb with
      | ok onBuild =>
        exact ⟨_, Or.inr (Or.inl rfl), by simp [FetchState.log, FetchState.store],
          Or.inr ⟨rfl, onBuild, rfl, st.world, Or.inr h2⟩⟩
      | error e =>
        simp only []
        split
        · unfold fetchAfterPull getBaseImageOnBuildLocally
          simp only [FetchState.log]
          cases h3 : rt.pull st.world rb with
          | error e3 =>
            exact ⟨_, Or.inr (Or.inr (Or.inl rfl)), by simp [FetchState.log],
              Or.inl ⟨by simp, rfl⟩⟩
          | ok world1 =>
            simp only []
            cases h4 : rt.getImageInfo world1 rb with
            | error e4 =>
              exact ⟨_, Or.inr (Or.inr (Or.inr rfl)),
                by simp [FetchState.log, FetchState.setWorld], Or.inl ⟨by simp, rfl⟩⟩
            | ok info2 =>
              cases info2 with
              | none =>
                exact ⟨_, Or.inr (Or.inr (Or.inr rfl)),
                  by simp [FetchState.log, FetchState.setWorld], Or.inl ⟨by simp, rfl⟩⟩
              | some onBuild =>
                exact ⟨_, Or.inr (Or.inr (Or.inr rfl)),
                  by simp [FetchState.log, FetchState.setWorld, FetchState.store],
                  Or.inr ⟨rfl, onBuild, rfl, world1, Or.inl h4⟩⟩
        · exact ⟨_, Or.inr (Or.inl rfl), by simp [FetchState.log], Or.inl ⟨by simp, rfl⟩⟩

theorem fetchStage_cases {σ : Type} (rt : ContainerRuntime σ) (env : Env) (st : FetchState σ)
    (ind : Nat) (stage : Stage) :
    (fetchStage rt env st ind stage = (st, none) ∧
      (baseIsStage stage ind st.ds.dockerStages 0 = true ∨
        ∃ rb, ShlexProcessWordWithMetaArgs env st.ds stage.BaseName = .ok rb ∧
          ((st.ds.imageOnBuildInstructions.lookup rb).isSome ∨ rb = "scratch"))) ∨
    (∃ err, fetchStage rt env st ind stage = (st, some err) ∧
      baseIsStage stage ind st.ds.dockerStages 0 = false ∧
      ShlexProcessWordWithMetaArgs env st.ds stage.BaseName = .error err) ∨
    (∃ rb, baseIsStage stage ind st.ds.dockerStages 0 = false ∧
      ShlexProcessWordWithMetaArgs env st.ds stage.BaseName = .ok rb ∧
      st.ds.imageOnBuildInstructions.lookup rb = none ∧ rb ≠ "scratch" ∧
      fetchStage rt env st ind stage = fetchLookup rt st rb) := by
  unfold fetchStage
  cases hb : baseIsStage stage ind st.ds.dockerStages 0 with
  | true => exact Or.inl ⟨by simp, Or.inl rfl⟩
  | false =>
    simp only [Bool.false_eq_true, if_false]
    cases hr : ShlexProcessWordWithMetaArgs env st.ds stage.BaseName with
    | error err => exact Or.inr (Or.inl ⟨err, rfl, trivial, rfl⟩)
    | ok rb =>
      simp only []
      by_cases hskip : (st.ds.imageOnBuildInstructions.lookup rb).isSome ∨ rb = "scratch"
      · exact Or.inl ⟨by simp only [hskip, if_true], Or.inr ⟨rb, rfl, hskip⟩⟩
      · simp only [hskip, if_false]
        refine Or.inr (Or.inr ⟨rb, trivial, rfl, ?_, ?_, rfl⟩)
        · cases hl : st.ds.imageOnBuildInstructions.lookup rb with
          | none => rfl
          | some v => exact absurd (Or.inl (by simp [hl])) hskip
        · exact fun h => hskip (Or.inr h)

theorem lookup_setOnBuild_self (ds : DockerStages) (rb : String) (onBuild : List String) :
    (setOnBuild ds rb onBuild).imageOnBuildInstructions.lookup rb = some onBuild := by
  simp [setOnBuild, lookup_assocSet_self]

theorem lookup_setOnBuild_ne (ds : DockerStages) (rb k : String) (onBuild : List String)
    (h : k ≠ rb) :
    (setOnBuild ds rb onBuild).imageOnBuildInstructions.lookup k =
      ds.imageOnBuildInstructions.lookup k := by
  simp [setOnBuild, lookup_assocSet_ne _ _ _ _ h]

/-- What one pass of the body of the outer loop does to the state: the stage list and the
global bindings stay, entries of the index stay, the new calls are none or one lookup block
of a name that was not in the index and is not `scratch`. -/
theorem fetchStage_effect {σ : Type} (rt : ContainerRuntime σ) (env : Env)
    (st : FetchState σ) (ind : Nat) (stage : Stage) :
    (fetchStage rt env st ind stage).1.ds.dockerStages = st.ds.dockerStages ∧
    (fetchStage rt env st ind stage).1.ds.dockerMetaArgsHash = st.ds.dockerMetaArgsHash ∧
    (∀ k v, st.ds.imageOnBuildInstructions.lookup k = some v →
      (fetchStage rt env st ind stage).1.ds.imageOnBuildInstructions.lookup k = some v) ∧
    (fetchStage rt env st ind stage).1.ds.imageOnBuildInstructions.lookup "scratch" =
      st.ds.imageOnBuildInstructions.lookup "scratch" ∧
    (((fetchStage rt env st ind stage).1.calls = st.calls ∧
        (fetchStage rt env st ind stage).1.ds = st.ds) ∨
      ∃ rb block, rb ≠ "scratch" ∧ st.ds.imageOnBuildInstructions.lookup rb = none ∧
        IsLookupBlock rb block ∧
        (fetchStage rt env st ind stage).1.calls = st.calls ++ block ∧
        ((fetchStage rt env st ind stage).2 = none →
          ((fetchStage rt env st ind stage).1.ds.imageOnBuildInstructions.lookup rb).isSome)) := by
  rcases fetchStage_cases rt env st ind stage with ⟨h, _⟩ | ⟨err, h, _⟩ | ⟨rb, _, _, hnone, hscr, h⟩
  · rw [h]
    exact ⟨rfl, rfl, fun _ _ hk => hk, rfl, Or.inl ⟨rfl, rfl⟩⟩
  · rw [h]
    exact ⟨rfl, rfl, fun _ _ hk => hk, rfl, Or.inl ⟨rfl, rfl⟩⟩
  · rw [h]
    obtain ⟨block, hblock, hcalls, hds⟩ := fetchLookup_cases rt st rb
    rcases hds with ⟨_, hds⟩ | ⟨hok, onBuild, hds, _⟩
    · rw [hds]
      refine ⟨rfl, rfl, fun _ _ hk => hk, rfl, Or.inr ⟨rb, block, hscr, hnone, hblock, hcalls, ?_⟩⟩
      intro hn
      rename_i hne
      exact absurd hn hne
    · rw [hds]
      refine ⟨rfl, rfl, ?_, ?_, Or.inr ⟨rb, block, hscr, hnone, hblock, hcalls, ?_⟩⟩
      · intro k v hk
        have hkne : k ≠ rb := by
          intro e
          rw [e, hnone] at hk
          cases hk
        rw [lookup_setOnBuild_ne _ _ _ _ hkne]
        exact hk
      · exact lookup_setOnBuild_ne _ _ _ _ (fun e => hscr e.symm)
      · intro _
        simp [lookup_setOnBuild_self]

theorem fetchStage_provenance {σ : Type} (rt : ContainerRuntime σ) (env : Env)
    (st : FetchState σ) (ind : Nat) (stage : Stage) (k : String) (v : List String)
    (h : (fetchStage rt env st ind stage).1.ds.imageOnBuildInstructions.lookup k = some v) :
    st.ds.imageOnBuildInstructions.lookup k = some v ∨ ObtainedFor rt k v := by
  rcases fetchStage_cases rt env st ind stage with ⟨hs, _⟩ | ⟨err, hs, _⟩ | ⟨rb, _, _, _, _, hs⟩
  · rw [hs] at h
    exact Or.inl h
  · rw [hs] at h
    exact Or.inl h
  · rw [hs] at h
    obtain ⟨block, _, _, hds⟩ := fetchLookup_cases rt st rb
    rcases hds with ⟨_, hds⟩ | ⟨_, onBuild, hds, hob⟩
    · rw [hds] at h
      exact Or.inl h
    · rw [hds] at h
      by_cases hk : k = rb
      · subst hk
        rw [lookup_setOnBuild_self] at h
        simp only [Option.some.injEq] at h
        subst h
        exact Or.inr hob
      · rw [lookup_setOnBuild_ne _ _ _ _ hk] at h
        exact Or.inl h

theorem fetchLoop_effect {σ : Type} (rt : ContainerRuntime σ) (env : Env) (rest : List Stage)
    (ind : Nat) (st : FetchState σ) :
    (fetchLoop rt env rest ind st).1.ds.dockerStages = st.ds.dockerStages ∧
    (fetchLoop rt env rest ind st).1.ds.dockerMetaArgsHash = st.ds.dockerMetaArgsHash ∧
    (∀ k v, st.ds.imageOnBuildInstructions.lookup k = some v →
      (fetchLoop rt env rest ind st).1.ds.imageOnBuildInstructions.lookup k = some v) ∧
    (fetchLoop rt env rest ind st).1.ds.imageOnBuildInstructions.lookup "scratch" =
      st.ds.imageOnBuildInstructions.lookup "scratch" ∧
    (∀ k v, (fetchLoop rt env rest ind st).1.ds.imageOnBuildInstructions.lookup k = some v →
      st.ds.imageOnBuildInstructions.lookup k = some v ∨ ObtainedFor rt k v) := by
  induction rest generalizing ind st with
  | nil => exact ⟨rfl, rfl, fun _ _ h => h, rfl, fun _ _ h => Or.inl h⟩
  | cons stage rest ih =>
    obtain ⟨e1, e2, e3, e4, _⟩ := fetchStage_effect rt env st ind stage
    have e5 := fetchStage_provenance rt env st ind stage
    simp only [fetchLoop]
    cases hfs : fetchStage rt env st ind stage with
    | mk st1 e =>
      rw [hfs] at e1 e2 e3 e4 e5
      simp only [] at e1 e2 e3 e4 e5
      cases e with
      | some err => exact ⟨e1, e2, e3, e4, e5⟩
      | none =>
        simp only []
        obtain ⟨i1, i2, i3, i4, i5⟩ := ih (ind + 1) st1
        refine ⟨i1.trans e1, i2.trans e2, fun k v h => i3 k v (e3 k v h), i4.trans e4, ?_⟩
        intro k v h
        rcases i5 k v h with h2 | h2
        · exact e5 k v h2
        · exact Or.inr h2

theorem fetchLoop_blocks {σ : Type} (rt : ContainerRuntime σ) (env : Env) (rest : List Stage)
    (ind : Nat) (st : FetchState σ) :
    ∃ names blocks, (fetchLoop rt env rest ind st).1.calls = st.calls ++ blocks.flatten ∧
      List.Forall₂ IsLookupBlock names blocks ∧ names.Nodup ∧
      ∀ n ∈ names, n ≠ "scratch" ∧ st.ds.imageOnBuildInstructions.lookup n = none := by
  induction rest generalizing ind st with
  | nil => exact ⟨[], [], by simp [fetchLoop], List.Forall₂.nil, List.nodup_nil, by simp⟩
  | cons stage rest ih =>
    obtain ⟨_, _, e3, _, e5⟩ := fetchStage_effect rt env st ind stage
    simp only [fetchLoop]
    cases hfs : fetchStage rt env st ind stage with
    | mk st1 e =>
      rw [hfs] at e3 e5
      simp only [] at e3 e5
      have hstep : ∃ names blocks, st1.calls = st.calls ++ blocks.flatten ∧
          List.Forall₂ IsLookupBlock names blocks ∧ names.Nodup ∧
          (∀ n ∈ names, n ≠ "scratch" ∧ st.ds.imageOnBuildInstructions.lookup n = none) ∧
          (e = none → ∀ n ∈ names, (st1.ds.imageOnBuildInstructions.lookup n).isSome) := by
        rcases e5 with ⟨hc, _⟩ | ⟨rb, block, hscr, hnone, hblock, hcalls, hstored⟩
        · exact ⟨[], [], by simp [hc], List.Forall₂.nil, List.nodup_nil, by simp, by simp⟩
        · refine ⟨[rb], [block], by simp [hcalls], List.Forall₂.cons hblock List.Forall₂.nil,
            List.nodup_singleton _, ?_, ?_⟩
          · intro n hn
            simp only [List.mem_singleton] at hn
            subst hn
            exact ⟨hscr, hnone⟩
          · intro he n hn
            simp only [List.mem_singleton] at hn
            subst hn
            exact hstored he
      obtain ⟨names1, blocks1, hc1, hf1, hnd1, habs1, hst1⟩ := hstep
      cases e with
      | some err => exact ⟨names1, blocks1, hc1, hf1, hnd1, habs1⟩
      | none =>
        simp only []
        obtain ⟨names2, blocks2, hc2, hf2, hnd2, habs2⟩ := ih (ind + 1) st1
        refine ⟨names1 ++ names2, blocks1 ++ blocks2, ?_, ?_, ?_, ?_⟩
        · rw [hc2, hc1]
          simp [List.append_assoc]
        · exact List.rel_append hf1 hf2
        · rw [List.nodup_append]
          refine ⟨hnd1, hnd2, ?_⟩
          intro n hn1 hn2
          have h1 := hst1 rfl n hn1
          rw [(habs2 n hn2).2] at h1
          simp at h1
        · intro n hn
          rcases List.mem_append.mp hn with hn | hn
          · exact habs1 n hn
          · refine ⟨(habs2 n hn).1, ?_⟩
            cases hl : st.ds.imageOnBuildInstructions.lookup n with
            | none => rfl
            | some v =>
              have := e3 n v hl
              rw [(habs2 n hn).2] at this
              cases this

theorem fetchLoop_populated {σ : Type} (rt : ContainerRuntime σ) (env : Env)
    (rest : List Stage) (ind : Nat) (st : FetchState σ)
    (hok : (fetchLoop rt env rest ind st).2 = none) (j : Nat) (stage : Stage)
    (hj : rest[j]? = some stage)
    (hbase : baseIsStage stage (ind + j) st.ds.dockerStages 0 = false) :
    ∃ rb, ShlexProcessWordWithMetaArgs env st.ds stage.BaseName = .ok rb ∧
      (rb = "scratch" ∨
        ((fetchLoop rt env rest ind st).1.ds.imageOnBuildInstructions.lookup rb).isSome) := by
  induction rest generalizing ind st j with
  | nil => simp at hj
  | cons stage0 rest ih =>
    obtain ⟨e1, e2, _, _, _⟩ := fetchStage_effect rt env st ind stage0
    simp only [fetchLoop] at hok ⊢
    cases hfs : fetchStage rt env st ind stage0 with
    | mk st1 e =>
      rw [hfs] at hok e1 e2
      simp only [] at e1 e2
      cases e with
      | some err => simp at hok
      | none =>
        simp only [] at hok ⊢
        obtain ⟨_, _, p3, _, _⟩ := fetchLoop_effect rt env rest (ind + 1) st1
        cases j with
        | zero =>
          simp only [List.getElem?_cons_zero, Option.some.injEq] at hj
          subst hj
          simp only [Nat.add_zero] at hbase
          rcases fetchStage_cases rt env st ind stage0 with
            ⟨_, hskip⟩ | ⟨err, hs, _⟩ | ⟨rb, _, hres, _, _, hs⟩
          · rcases hskip with hb | ⟨rb, hres, hin | hscr⟩
            · rw [hbase] at hb
              cases hb
            · refine ⟨rb, hres, Or.inr ?_⟩
              cases hl : st.ds.imageOnBuildInstructions.lookup rb with
              | none => simp [hl] at hin
              | some v =>
                have hst1 : st1.ds.imageOnBuildInstructions.lookup rb = some v := by
                  obtain ⟨_, _, q3, _, _⟩ := fetchStage_effect rt env st ind stage0
                  rw [hfs] at q3
                  exact q3 rb v hl
                simp [p3 rb v hst1]
            · exact ⟨rb, hres, Or.inl hscr⟩
          · rw [hfs] at hs
            simp at hs
          · refine ⟨rb, hres, Or.inr ?_⟩
            obtain ⟨_, _, _, hds⟩ := fetchLookup_cases rt st rb
            rw [← hs, hfs] at hds
            simp only [] at hds
            rcases hds with ⟨hne, _⟩ | ⟨_, onBuild, hds, _⟩
            · exact absurd rfl hne
            · have hst1 : st1.ds.imageOnBuildInstructions.lookup rb = some onBuild := by
                rw [hds]
                exact lookup_setOnBuild_self _ _ _
              simp [p3 rb onBuild hst1]
        | succ j =>
          simp only [List.getElem?_cons_succ] at hj
          have e : ind + (j + 1) = ind + 1 + j := by omega
          rw [e, ← e1] at hbase
          obtain ⟨rb, hres, hrb⟩ := ih (ind + 1) st1 hok j hj hbase
          refine ⟨rb, ?_, hrb⟩
          rw [← hres]
          simp only [ShlexProcessWordWithMetaArgs, e2]

theorem fetchLoop_again {σ : Type} (rt : ContainerRuntime σ) (env : Env) (rest : List Stage)
    (ind : Nat) (st : FetchState σ)
    (h : ∀ j stage, rest[j]? = some stage →
      baseIsStage stage (ind + j) st.ds.dockerStages 0 = true ∨
        ∃ rb, ShlexProcessWordWithMetaArgs env st.ds stage.BaseName = .ok rb ∧
          (rb = "scratch" ∨ (st.ds.imageOnBuildInstructions.lookup rb).isSome)) :
    fetchLoop rt env rest ind st = (st, none) := by
  induction rest generalizing ind with
  | nil => rfl
  | cons stage rest ih =>
    have hstep : fetchStage rt env st ind stage = (st, none) := by
      unfold fetchStage
      rcases h 0 stage (by simp) with hb | ⟨rb, hres, hrb⟩
      · simp only [Nat.add_zero] at hb
        simp [hb]
      · cases hb : baseIsStage stage ind st.ds.dockerStages 0 with
        | true => simp
        | false =>
          have hskip : (st.ds.imageOnBuildInstructions.lookup rb).isSome ∨ rb = "scratch" :=
            hrb.symm
          simp only [Bool.false_eq_true, if_false, hres, hskip, if_true]
    simp only [fetchLoop, hstep]
    apply ih
    intro j stage2 hj
    have := h (j + 1) stage2 (by simpa using hj)
    have e : ind + (j + 1) = ind + 1 + j := by omega
    rw [e] at this
    exact this

theorem IsLookupBlock_ref (ref : String) (block : List FetchCall)
    (h : IsLookupBlock ref block) : ∀ c ∈ block, c.ref = ref := by
  rcases h with h | h | h | h <;> subst h <;> simp [FetchCall.ref]

theorem lookupBlocks_ref (names : List String) (blocks : List (List FetchCall))
    (h : List.Forall₂ IsLookupBlock names blocks) :
    ∀ c ∈ blocks.flatten, c.ref ∈ names := by
  induction h with
  | nil => simp
  | cons hb _ ih =>
    intro c hc
    simp only [List.flatten_cons, List.mem_append] at hc
    rcases hc with hc | hc
    · rw [IsLookupBlock_ref _ _ hb c hc]
      exact List.mem_cons_self _ _
    · exact List.mem_cons_of_mem _ (ih c hc)

theorem baseIsStage_false (stage : Stage) (ind : Nat) (related : List Stage) (k : Nat)
    (h : ∀ j other, k + j ≠ ind → related[j]? = some other → stage.BaseName ≠ other.Name) :
    baseIsStage stage ind related k = false := by
  induction related generalizing k with
  | nil => rfl
  | cons relatedStage rest ih =>
    have hrest : baseIsStage stage ind rest (k + 1) = false := by
      apply ih
      intro j other hj hget
      exact h (j + 1) other (by omega) (by simpa using hget)
    unfold baseIsStage
    by_cases hk : ind = k
    · subst hk
      simp [hrest]
    · have := h 0 relatedStage (by omega) (by simp)
      simp [hk, this, hrest]

theorem fetchStage_scratch {σ : Type} (rt : ContainerRuntime σ) (env : Env)
    (st : FetchState σ) (ind : Nat) (stage : Stage)
    (h : ShlexProcessWordWithMetaArgs env st.ds stage.BaseName = .ok "scratch") :
    fetchStage rt env st ind stage = (st, none) := by
  unfold fetchStage
  cases baseIsStage stage ind st.ds.dockerStages 0 with
  | true => simp
  | false => simp [h]

/-- C11. Scratch stage: for a stage whose base name resolves against the global bindings
to `scratch`, the iteration of `FetchDependencies` for that stage leaves the engine, the
world and the recorded calls as they are and reports no error; in a whole call of
`FetchDependencies` no local inspection, remote lookup or pull is made for the reference
`scratch` and the entry of the OnBuild Index under `scratch` stays absent; and on every
engine of the digest phase that carries the index and the global bindings the fetch phase
left, the per-stage list is the add-host aliases, then `scratch`, then the primary
contributions of the stage's own instructions, with no inherited string in between. -/
theorem C11_scratch_stage {σ : Type} (rt : ContainerRuntime σ) (env : Env)
    (args : DockerRunArgs) (fuel : Nat) (st st1 : FetchState σ) (e : Option Fault)
    (ind : Nat) (stage : Stage) (ds : DockerStages)
    (hfetch : FetchDependencies rt env st = (st1, e))
    (hempty : st.ds.imageOnBuildInstructions.lookup "scratch" = none)
    (hbase : ShlexProcessWordWithMetaArgs env st.ds stage.BaseName = .ok "scratch")
    (hidx : ds.imageOnBuildInstructions = st1.ds.imageOnBuildInstructions)
    (hmeta : ds.dockerMetaArgsHash = st1.ds.dockerMetaArgsHash) :
    (∀ before : FetchState σ, before.ds.dockerMetaArgsHash = st.ds.dockerMetaArgsHash →
      fetchStage rt env before ind stage = (before, none)) ∧
    (∃ new, st1.calls = st.calls ++ new ∧ ∀ c ∈ new, c.ref ≠ "scratch") ∧
    st1.ds.imageOnBuildInstructions.lookup "scratch" = none ∧
    stageDependencies env args fuel ds ind stage =
      (ownContributions env args fuel ind stage.Commands ds).map fun own =>
        ((args.addHost ++ ["scratch"] ++ (own.1.map Prod.fst).flatten,
          (own.1.map Prod.snd).flatten), own.2) := by
  have hst1 : st1 = (fetchLoop rt env st.ds.dockerStages 0 st).1 := by
    unfold FetchDependencies at hfetch
    rw [hfetch]
  obtain ⟨_, e2, _, e4, _⟩ := fetchLoop_effect rt env st.ds.dockerStages 0 st
  rw [← hst1] at e2 e4
  refine ⟨?_, ?_, e4.trans hempty, ?_⟩
  · intro before hbefore
    apply fetchStage_scratch
    rw [← hbase]
    simp only [ShlexProcessWordWithMetaArgs, hbefore]
  · obtain ⟨names, blocks, hcalls, hblocks, _, habs⟩ :=
      fetchLoop_blocks rt env st.ds.dockerStages 0 st
    rw [← hst1] at hcalls
    refine ⟨blocks.flatten, hcalls, ?_⟩
    intro c hc href
    have := lookupBlocks_ref names blocks hblocks c hc
    rw [href] at this
    exact (habs _ this).1 rfl
  · have hres : ShlexProcessWordWithMetaArgs env ds stage.BaseName = .ok "scratch" := by
      rw [← hbase]
      simp only [ShlexProcessWordWithMetaArgs, hmeta, e2]
    have hlook : ds.imageOnBuildInstructions.lookup "scratch" = none := by
      rw [hidx, e4, hempty]
    unfold stageDependencies
    rw [hres]
    simp only [hlook, commandsLoop_eq]
    cases ownContributions env args fuel ind stage.Commands ds with
    | error err => rfl
    | ok own =>
      obtain ⟨cs, ds2⟩ := own
      simp [Except.map]

theorem C11_scratch_stage_witness :
    (fetchStart []).ds.imageOnBuildInstructions.lookup "scratch" = none ∧
    ShlexProcessWordWithMetaArgs sampleEnv (fetchStart []).ds "scratch" = .ok "scratch" ∧
    (FetchDependencies (sampleRuntime (fun _ => .ok ["RUN echo hi"]) []) sampleEnv
      (fetchStart [])).1.calls =
        [.getImageInfo "alpine", .getRepoImageConfigFile "alpine"] ∧
    stageDependencies sampleEnv sampleArgs 1
      (FetchDependencies (sampleRuntime (fun _ => .ok ["RUN echo hi"]) []) sampleEnv
        (fetchStart [])).1.ds 2 ⟨"", "scratch", [.Other "RUN make"]⟩ =
      .ok ((["scratch", "RUN make"], []),
        (FetchDependencies (sampleRuntime (fun _ => .ok ["RUN echo hi"]) []) sampleEnv
          (fetchStart [])).1.ds) :=
  ⟨rfl, rfl, rfl,
    (C11_scratch_stage (sampleRuntime (fun _ => .ok ["RUN echo hi"]) []) sampleEnv sampleArgs 1
      (fetchStart []) _ _ 2 ⟨"", "scratch", [.Other "RUN make"]⟩ _ rfl rfl rfl rfl
      rfl).2.2.2.trans rfl⟩

/-- C12. OnBuild Index population: when `FetchDependencies` returns without error, then
for every stage whose base-image reference is not the name of any other stage and whose
base name resolved against the global bindings is not `scratch`, the OnBuild Index holds
an entry under that resolved base name, and the list it holds is the one that was there
before the call or one that the local inspection or the remote lookup returned for that
name (the list may be empty). -/
theorem C12_index_population {σ : Type} (rt : ContainerRuntime σ) (env : Env)
    (st st1 : FetchState σ) (ind : Nat) (stage : Stage) (resolvedBaseName : String)
    (hfetch : FetchDependencies rt env st = (st1, none))
    (hstage : st.ds.dockerStages[ind]? = some stage)
    (hother : ∀ (j : Nat) (other : Stage), j ≠ ind → st.ds.dockerStages[j]? = some other →
      stage.BaseName ≠ other.Name)
    (hres : ShlexProcessWordWithMetaArgs env st.ds stage.BaseName = .ok resolvedBaseName)
    (hscratch : resolvedBaseName ≠ "scratch") :
    ∃ onBuild, st1.ds.imageOnBuildInstructions.lookup resolvedBaseName = some onBuild ∧
      (st.ds.imageOnBuildInstructions.lookup resolvedBaseName = some onBuild ∨
        ObtainedFor rt resolvedBaseName onBuild) := by
  unfold FetchDependencies at hfetch
  have hst1 : (fetchLoop rt env st.ds.dockerStages 0 st).1 = st1 := by rw [hfetch]
  have hok : (fetchLoop rt env st.ds.dockerStages 0 st).2 = none := by rw [hfetch]
  have hbase : baseIsStage stage (0 + ind) st.ds.dockerStages 0 = false := by
    apply baseIsStage_false
    intro j other hj hget
    exact hother j other (by omega) hget
  obtain ⟨rb, hrb, hin⟩ :=
    fetchLoop_populated rt env st.ds.dockerStages 0 st hok ind stage hstage hbase
  rw [hres] at hrb
  simp only [Except.ok.injEq] at hrb
  subst hrb
  rw [hst1] at hin
  rcases hin with hin | hin
  · exact absurd hin hscratch
  · cases hl : st1.ds.imageOnBuildInstructions.lookup resolvedBaseName with
    | none => simp [hl] at hin
    | some onBuild =>
      refine ⟨onBuild, rfl, ?_⟩
      obtain ⟨_, _, _, _, e5⟩ := fetchLoop_effect rt env st.ds.dockerStages 0 st
      rw [hst1] at e5
      exact e5 _ _ hl

theorem C12_index_population_witness :
    FetchDependencies (sampleRuntime (fun _ => .ok []) []) sampleEnv (fetchStart []) =
      (⟨setOnBuild (fetchStart []).ds "alpine" [], [],
        [.getImageInfo "alpine", .getRepoImageConfigFile "alpine"]⟩, none) ∧
    (fetchStart []).ds.dockerStages[0]? = some ⟨"base", "alpine", []⟩ ∧
    ShlexProcessWordWithMetaArgs sampleEnv (fetchStart []).ds "alpine" = .ok "alpine" ∧
    ∃ onBuild,
      (setOnBuild (fetchStart []).ds "alpine" []).imageOnBuildInstructions.lookup "alpine" =
        some onBuild ∧
      ((fetchStart []).ds.imageOnBuildInstructions.lookup "alpine" = some onBuild ∨
        ObtainedFor (sampleRuntime (fun _ => .ok []) []) "alpine" onBuild) :=
  ⟨rfl, rfl, rfl,
    C12_index_population (sampleRuntime (fun _ => .ok []) []) sampleEnv (fetchStart [])
      ⟨setOnBuild (fetchStart []).ds "alpine" [], [],
        [.getImageInfo "alpine", .getRepoImageConfigFile "alpine"]⟩ 0 ⟨"base", "alpine", []⟩
      "alpine" rfl rfl
      (fun j other hj hget => by
        rcases j with _ | _ | _ | j
        · exact absurd rfl hj
        · simp only [fetchStart, sampleEngine, fetchStages] at hget
          cases hget
          decide
        · simp only [fetchStart, sampleEngine, fetchStages] at hget
          cases hget
          decide
        · simp [fetchStart, sampleEngine, fetchStages] at hget)
      rfl (by decide)⟩

/-- C13. Fetch fallback policy: take the loop of `FetchDependencies` at a stage whose base
is no other stage and whose resolved base name is neither in the OnBuild Index nor
`scratch`. A failure of the local inspection is returned as the error after that one
call. When the local inspection reports the image absent and the remote lookup fails,
then, if the wrapped failure is not the unsupported media type error, it is returned after
the two calls, without a pull and with the engine (so the index) as it was; if it is the
unsupported media type error, the image is pulled: a failed pull is returned as the error,
and after a successful pull the local inspection runs again in the new local store, its
failure or its report of absence is returned as the error, and the list it finds is stored
under the resolved base name before the loop goes on with the next stage. -/
theorem C13_fetch_fallback {σ : Type} (rt : ContainerRuntime σ) (env : Env)
    (st : FetchState σ) (ind : Nat) (stage : Stage) (rest : List Stage)
    (resolvedBaseName : String)
    (hbase : baseIsStage stage ind st.ds.dockerStages 0 = false)
    (hres : ShlexProcessWordWithMetaArgs env st.ds stage.BaseName = .ok resolvedBaseName)
    (habsent : st.ds.imageOnBuildInstructions.lookup resolvedBaseName = none)
    (hscratch : resolvedBaseName ≠ "scratch") :
    (∀ err, rt.getImageInfo st.world resolvedBaseName = .error err →
      fetchLoop rt env (stage :: rest) ind st =
        (st.log (.getImageInfo resolvedBaseName), some err)) ∧
    (rt.getImageInfo st.world resolvedBaseName = .ok none →
      ∀ err, rt.getRepoImageConfigFile st.world resolvedBaseName = .error err →
        (isUnsupportedMediaTypeError
            (Fault.wrap ("get repo image " ++ resolvedBaseName ++ " config file failed: ")
              err) = false →
          fetchLoop rt env (stage :: rest) ind st =
            ((st.log (.getImageInfo resolvedBaseName)).log
                (.getRepoImageConfigFile resolvedBaseName),
              some (Fault.wrap
                ("get repo image " ++ resolvedBaseName ++ " config file failed: ") err))) ∧
        (isUnsupportedMediaTypeError
            (Fault.wrap ("get repo image " ++ resolvedBaseName ++ " config file failed: ")
              err) = true →
          (∀ pullErr, rt.pull st.world resolvedBaseName = .error pullErr →
            fetchLoop rt env (stage :: rest) ind st =
              (((st.log (.getImageInfo resolvedBaseName)).log
                  (.getRepoImageConfigFile resolvedBaseName)).log (.pull resolvedBaseName),
                some pullErr)) ∧
          (∀ world, rt.pull st.world resolvedBaseName = .ok world →
            (∀ infoErr, rt.getImageInfo world resolvedBaseName = .error infoErr →
              fetchLoop rt env (stage :: rest) ind st =
                ((((((st.log (.getImageInfo resolvedBaseName)).log
                    (.getRepoImageConfigFile resolvedBaseName)).log
                    (.pull resolvedBaseName)).setWorld world).log
                    (.getImageInfo resolvedBaseName)),
                  some infoErr)) ∧
            (rt.getImageInfo world resolvedBaseName = .ok none →
              fetchLoop rt env (stage :: rest) ind st =
                ((((((st.log (.getImageInfo resolvedBaseName)).log
                    (.getRepoImageConfigFile resolvedBaseName)).log
                    (.pull resolvedBaseName)).setWorld world).log
                    (.getImageInfo resolvedBaseName)),
                  some errImageNotExistLocally)) ∧
            (∀ onBuild, rt.getImageInfo world resolvedBaseName = .ok (some onBuild) →
              fetchLoop rt env (stage :: rest) ind st =
                fetchLoop rt env rest (ind + 1)
                  ((((((st.log (.getImageInfo resolvedBaseName)).log
                    (.getRepoImageConfigFile resolvedBaseName)).log
                    (.pull resolvedBaseName)).setWorld world).log
                    (.getImageInfo resolvedBaseName)).store resolvedBaseName onBuild))))) := by
  have hstage : fetchStage rt env st ind stage = fetchLookup rt st resolvedBaseName := by
    unfold fetchStage
    simp [hbase, hres, habsent, hscratch]
  refine ⟨?_, ?_⟩
  · intro err hinfo
    simp only [fetchLoop, hstage, fetchLookup, getBaseImageOnBuildLocally, hinfo]
  · intro hinfo err hreg
    refine ⟨?_, ?_⟩
    · intro hun
      simp only [fetchLoop, hstage, fetchLookup, getBaseImageOnBuildLocally, hinfo,
        getBaseImageOnBuildRemotely, hreg, hun, Bool.false_eq_true, if_false]
    · intro hun
      refine ⟨?_, ?_⟩
      · intro pullErr hpull
        simp only [fetchLoop, hstage, fetchLookup, getBaseImageOnBuildLocally, hinfo,
          getBaseImageOnBuildRemotely, hreg, hun, if_true, fetchAfterPull, FetchState.log,
          hpull]
      · intro world hpull
        refine ⟨?_, ?_, ?_⟩
        · intro infoErr hinfo2
          simp only [fetchLoop, hstage, fetchLookup, getBaseImageOnBuildLocally, hinfo,
            getBaseImageOnBuildRemotely, hreg, hun, if_true, fetchAfterPull, FetchState.log,
            hpull, hinfo2]
        · intro hinfo2
          simp only [fetchLoop, hstage, fetchLookup, getBaseImageOnBuildLocally, hinfo,
            getBaseImageOnBuildRemotely, hreg, hun, if_true, fetchAfterPull, FetchState.log,
            hpull, hinfo2]
        · intro onBuild hinfo2
          simp only [fetchLoop, hstage, fetchLookup, getBaseImageOnBuildLocally, hinfo,
            getBaseImageOnBuildRemotely, hreg, hun, if_true, fetchAfterPull, FetchState.log,
            hpull, hinfo2]

theorem C13_fetch_fallback_witness :
    baseIsStage ⟨"base", "alpine", []⟩ 0 (fetchStart []).ds.dockerStages 0 = false ∧
    ShlexProcessWordWithMetaArgs sampleEnv (fetchStart []).ds "alpine" = .ok "alpine" ∧
    (fetchStart []).ds.imageOnBuildInstructions.lookup "alpine" = none ∧
    FetchDependencies (sampleRuntime (fun _ => .error (.error "unauthorized")) []) sampleEnv
        (fetchStart []) =
      (⟨(fetchStart []).ds, [], [.getImageInfo "alpine", .getRepoImageConfigFile "alpine"]⟩,
        some (.error "get repo image alpine config file failed: unauthorized")) ∧
    FetchDependencies
        (sampleRuntime (fun _ => .error (.error "unsupported MediaType: v1")) ["RUN echo hi"])
        sampleEnv (fetchStart []) =
      (⟨setOnBuild (fetchStart []).ds "alpine" ["RUN echo hi"],
        [("alpine", ["RUN echo hi"])],
        [.getImageInfo "alpine", .getRepoImageConfigFile "alpine", .pull "alpine",
          .getImageInfo "alpine"]⟩, none) :=
  ⟨rfl, rfl, rfl,
    (((C13_fetch_fallback (sampleRuntime (fun _ => .error (.error "unauthorized")) [])
      sampleEnv (fetchStart []) 0 ⟨"base", "alpine", []⟩
      [⟨"", "base", []⟩, ⟨"", "scratch", [.Other "RUN make"]⟩] "alpine" rfl rfl rfl
      (by decide)).2 rfl _ rfl).1 rfl).trans rfl,
    (((((C13_fetch_fallback
      (sampleRuntime (fun _ => .error (.error "unsupported MediaType: v1")) ["RUN echo hi"])
      sampleEnv (fetchStart []) 0 ⟨"base", "alpine", []⟩
      [⟨"", "base", []⟩, ⟨"", "scratch", [.Other "RUN make"]⟩] "alpine" rfl rfl rfl
      (by decide)).2 rfl _ rfl).2 rfl).2 _ rfl).2.2 _ rfl).trans rfl⟩

/-- C14. Fetch idempotence: the calls one run of `FetchDependencies` adds are the lookups
of pairwise distinct resolved base names, one block of calls per name (local inspection,
then as far as it got the remote lookup, the pull and the second local inspection), and
no name that was in the OnBuild Index before the run is among them; and after a run that
returned without error, a second run on the engine it left returns without error and
leaves the engine (so the OnBuild Index), the world and the recorded calls as they are. -/
theorem C14_fetch_idempotent {σ : Type} (rt : ContainerRuntime σ) (env : Env)
    (st st1 : FetchState σ) (e : Option Fault)
    (hfetch : FetchDependencies rt env st = (st1, e)) :
    (∃ names blocks, st1.calls = st.calls ++ blocks.flatten ∧
      List.Forall₂ IsLookupBlock names blocks ∧ names.Nodup ∧
      ∀ n ∈ names, st.ds.imageOnBuildInstructions.lookup n = none) ∧
    (e = none → FetchDependencies rt env st1 = (st1, none)) := by
  unfold FetchDependencies at hfetch
  have hst1 : (fetchLoop rt env st.ds.dockerStages 0 st).1 = st1 := by rw [hfetch]
  have he : (fetchLoop rt env st.ds.dockerStages 0 st).2 = e := by rw [hfetch]
  refine ⟨?_, ?_⟩
  · obtain ⟨names, blocks, hcalls, hblocks, hnodup, habs⟩ :=
      fetchLoop_blocks rt env st.ds.dockerStages 0 st
    rw [hst1] at hcalls
    exact ⟨names, blocks, hcalls, hblocks, hnodup, fun n hn => (habs n hn).2⟩
  · intro hnone
    subst hnone
    obtain ⟨e1, e2, _, _, _⟩ := fetchLoop_effect rt env st.ds.dockerStages 0 st
    rw [hst1] at e1 e2
    unfold FetchDependencies
    apply fetchLoop_again
    intro j stage hj
    cases hb : baseIsStage stage (0 + j) st1.ds.dockerStages 0 with
    | true => exact Or.inl rfl
    | false =>
      right
      rw [e1] at hb hj
      obtain ⟨rb, hres, hin⟩ :=
        fetchLoop_populated rt env st.ds.dockerStages 0 st he j stage hj hb
      rw [hst1] at hin
      refine ⟨rb, ?_, hin⟩
      rw [← hres]
      simp only [ShlexProcessWordWithMetaArgs, e2]

theorem C14_fetch_idempotent_witness :
    FetchDependencies (sampleRuntime (fun _ => .ok ["RUN echo hi"]) []) sampleEnv
        (fetchStart []) =
      (⟨setOnBuild (fetchStart []).ds "alpine" ["RUN echo hi"], [],
        [.getImageInfo "alpine", .getRepoImageConfigFile "alpine"]⟩, none) ∧
    FetchDependencies (sampleRuntime (fun _ => .ok ["RUN echo hi"]) []) sampleEnv
        ⟨setOnBuild (fetchStart []).ds "alpine" ["RUN echo hi"], [],
          [.getImageInfo "alpine", .getRepoImageConfigFile "alpine"]⟩ =
      (⟨setOnBuild (fetchStart []).ds "alpine" ["RUN echo hi"], [],
        [.getImageInfo "alpine", .getRepoImageConfigFile "alpine"]⟩, none) :=
  ⟨rfl,
    (C14_fetch_idempotent (sampleRuntime (fun _ => .ok ["RUN echo hi"]) []) sampleEnv
      (fetchStart []) _ none rfl).2 rfl⟩

theorem splitSlash_ne_nil (cs : List Char) : splitSlash cs ≠ [] := by
  cases cs with
  | nil => simp [splitSlash]
  | cons c rest =>
    unfold splitSlash
    split
    · simp
    · split <;> simp

theorem splitSlash_of_no_slash (e : List Char) (he : '/' ∉ e) : splitSlash e = [e] := by
  induction e with
  | nil => rfl
  | cons c cs ih =>
    simp only [List.mem_cons, not_or] at he
    have hc : c ≠ '/' := fun h => he.1 h.symm
    simp [splitSlash, hc, ih he.2]

theorem splitSlash_append_slash (e t : List Char) (he : '/' ∉ e) :
    splitSlash (e ++ '/' :: t) = e :: splitSlash t := by
  induction e with
  | nil => simp [splitSlash]
  | cons c cs ih =>
    simp only [List.mem_cons, not_or] at he
    have hc : c ≠ '/' := fun h => he.1 h.symm
    simp [splitSlash, hc, ih he.2]

theorem splitSlash_intercalate (l : List (List Char)) (hne : l ≠ [])
    (hl : ∀ e ∈ l, '/' ∉ e) : splitSlash (List.intercalate ['/'] l) = l := by
  induction l with
  | nil => exact absurd rfl hne
  | cons e rest ih =>
    cases rest with
    | nil =>
      simpa [List.intercalate, List.intersperse] using
        splitSlash_of_no_slash e (hl e (List.mem_cons_self _ _))
    | cons e2 rest2 =>
      have hstep : List.intercalate ['/'] (e :: e2 :: rest2) =
          e ++ '/' :: List.intercalate ['/'] (e2 :: rest2) := by
        simp [List.intercalate, List.intersperse]
      rw [hstep, splitSlash_append_slash e _ (hl e (List.mem_cons_self _ _)),
        ih (by simp) (fun x hx => hl x (List.mem_cons_of_mem _ hx))]

theorem intercalate_ne_nil (l : List (List Char)) (hne : l ≠ [])
    (hl : ∀ e ∈ l, e ≠ [] ∧ '/' ∉ e) : List.intercalate ['/'] l ≠ [] := by
  cases l with
  | nil => exact absurd rfl hne
  | cons e rest =>
    have := (hl e (List.mem_cons_self _ _)).1
    cases rest with
    | nil => simpa [List.intercalate, List.intersperse] using this
    | cons e2 rest2 => simp [List.intercalate, List.intersperse, this]

theorem cleanStep_dots (rooted : Bool) (out : List (List Char)) (elem : List Char)
    (h : ∃ k xs, out = xs ++ List.replicate k ['.', '.'] ∧ ['.', '.'] ∉ xs ∧
      (rooted = true → k = 0)) :
    ∃ k xs, cleanStep rooted out elem = xs ++ List.replicate k ['.', '.'] ∧
      ['.', '.'] ∉ xs ∧ (rooted = true → k = 0) := by
  obtain ⟨k, xs, hout, hxs, hk⟩ := h
  unfold cleanStep
  split
  · exact ⟨k, xs, hout, hxs, hk⟩
  · split
    · cases xs with
      | nil =>
        cases k with
        | zero =>
          simp only [List.replicate, List.append_nil] at hout
          subst hout
          cases rooted with
          | true => exact ⟨0, [], by simp, by simp, fun _ => rfl⟩
          | false => exact ⟨1, [], by simp, by simp, by simp⟩
        | succ k =>
          cases rooted with
          | true => simp at hk
          | false =>
            simp only [List.nil_append, List.replicate_succ] at hout
            subst hout
            refine ⟨k + 2, [], ?_, by simp, by simp⟩
            simp [List.replicate_succ]
      | cons top below =>
        simp only [List.cons_append] at hout
        subst hout
        simp only [List.mem_cons, not_or] at hxs
        have htop : top ≠ ['.', '.'] := fun h => hxs.1 h.symm
        simp only [htop, if_false]
        exact ⟨k, below, rfl, hxs.2, hk⟩
    · rename_i h1 h2
      refine ⟨k, elem :: xs, by simp [hout], ?_, hk⟩
      simp only [List.mem_cons, not_or]
      exact ⟨fun h => h2 h.symm, hxs⟩

theorem foldl_cleanStep_dots (rooted : Bool) (elems : List (List Char))
    (out : List (List Char))
    (h : ∃ k xs, out = xs ++ List.replicate k ['.', '.'] ∧ ['.', '.'] ∉ xs ∧
      (rooted = true → k = 0)) :
    ∃ k xs, elems.foldl (cleanStep rooted) out = xs ++ List.replicate k ['.', '.'] ∧
      ['.', '.'] ∉ xs ∧ (rooted = true → k = 0) := by
  induction elems generalizing out with
  | nil => simpa using h
  | cons elem rest ih =>
    simp only [List.foldl_cons]
    exact ih _ (cleanStep_dots rooted out elem h)

theorem normalize_root (clean : String → String) (wildcard : String)
    (h : clean wildcard = "/") : normalizeCopyAddSources clean [wildcard] = ["."] := by
  simp [normalizeCopyAddSources, h]

theorem normalize_rooted (clean : String → String) (wildcard : String) (body : List Char)
    (h : clean wildcard = String.mk ('/' :: body)) (hbody : body ≠ []) :
    normalizeCopyAddSources clean [wildcard] = [String.mk body] := by
  have hne : String.mk ('/' :: body) ≠ "/" := by
    intro h2
    have h3 : ("/" : String) = String.mk ['/'] := rfl
    rw [h3] at h2
    have h4 := congrArg String.data h2
    simp only [List.cons.injEq, true_and] at h4
    exact hbody h4
  simp only [normalizeCopyAddSources, List.map_cons, List.map_nil, h, hne, if_false,
    String.toList]

theorem normalize_relative (clean : String → String) (wildcard : String)
    (h : (clean wildcard).toList.head? ≠ some '/') :
    normalizeCopyAddSources clean [wildcard] = [clean wildcard] := by
  have hne : clean wildcard ≠ "/" := by
    intro h2
    rw [h2] at h
    exact h (by decide)
  simp only [normalizeCopyAddSources, List.map_cons, List.map_nil, hne, if_false,
    List.cons.injEq, and_true]
  split
  · rename_i rest hrest
    rw [hrest] at h
    simp at h
  · rfl

theorem pathClean_rooted (path : String) (h : path.toList.head? = some '/') :
    pathClean path = String.mk ('/' :: List.intercalate ['/']
      ((splitSlash path.toList).foldl (cleanStep true) []).reverse) := by
  unfold pathClean
  simp only [h, if_true, decide_True]

theorem pathClean_relative (path : String) (h : path.toList.head? ≠ some '/') :
    pathClean path =
      if List.intercalate ['/']
          ((splitSlash path.toList).foldl (cleanStep false) []).reverse = [] then "."
      else String.mk (List.intercalate ['/']
        ((splitSlash path.toList).foldl (cleanStep false) []).reverse) := by
  unfold pathClean
  simp only [h, if_false, decide_False]

theorem pathClean_components (wildcard : String) :
    ∃ n k rest, normalizeCopyAddSources pathClean [wildcard] = [n] ∧
      splitSlash n.toList = List.replicate k ['.', '.'] ++ rest ∧ ['.', '.'] ∉ rest ∧
      (wildcard.toList.head? = some '/' → k = 0) := by
  have hdot : splitSlash ".".toList = List.replicate 0 ['.', '.'] ++ [['.']] := by decide
  have hnot : (['.', '.'] : List Char) ∉ [['.']] := by decide
  have key : ∀ rooted : Bool, (rooted = true ↔ wildcard.toList.head? = some '/') →
      (pathClean wildcard = if rooted then String.mk ('/' :: List.intercalate ['/']
          ((splitSlash wildcard.toList).foldl (cleanStep rooted) []).reverse)
        else if List.intercalate ['/']
          ((splitSlash wildcard.toList).foldl (cleanStep rooted) []).reverse = [] then "."
        else String.mk (List.intercalate ['/']
          ((splitSlash wildcard.toList).foldl (cleanStep rooted) []).reverse)) →
      ∃ n k rest, normalizeCopyAddSources pathClean [wildcard] = [n] ∧
        splitSlash n.toList = List.replicate k ['.', '.'] ++ rest ∧ ['.', '.'] ∉ rest ∧
        (wildcard.toList.head? = some '/' → k = 0) := by
    intro rooted hrooted hclean
    obtain ⟨k, xs, hout, hxs, hk⟩ := foldl_cleanStep_dots rooted (splitSlash wildcard.toList) []
      ⟨0, [], by simp, by simp, fun _ => rfl⟩
    have helems := foldl_cleanStep_elements rooted (splitSlash wildcard.toList) [] (by simp)
      (splitSlash_no_slash _)
    generalize (splitSlash wildcard.toList).foldl (cleanStep rooted) [] = out at *
    by_cases hempty : out = []
    · subst hempty
      refine ⟨".", 0, [['.']], ?_, hdot, hnot, fun _ => rfl⟩
      cases rooted with
      | true =>
        apply normalize_root
        rw [hclean]
        rfl
      | false =>
        have hc : pathClean wildcard = "." := by
          rw [hclean]
          rfl
        rw [normalize_relative pathClean wildcard (by rw [hc]; decide), hc]
    · have hrev : out.reverse ≠ [] := by simpa using hempty
      have hrevel : ∀ e ∈ out.reverse, e ≠ [] ∧ '/' ∉ e :=
        fun e he => helems e (List.mem_reverse.mp he)
      have hbody := intercalate_ne_nil _ hrev hrevel
      have hhead := intercalate_head _ hrevel
      have hsplit := splitSlash_intercalate _ hrev (fun e he => (hrevel e he).2)
      refine ⟨String.mk (List.intercalate ['/'] out.reverse), k, xs.reverse, ?_, ?_,
        by simpa using hxs, fun h => hk (hrooted.mpr h)⟩
      · cases rooted with
        | true =>
          simp only [if_true] at hclean
          exact normalize_rooted pathClean wildcard _ hclean hbody
        | false =>
          simp only [Bool.false_eq_true, if_false, hbody] at hclean
          rw [normalize_relative pathClean wildcard (by rw [hclean]; exact hhead), hclean]
      · show splitSlash (List.intercalate ['/'] out.reverse) = _
        rw [hsplit, hout, List.reverse_append, List.reverse_replicate]
  by_cases hr : wildcard.toList.head? = some '/'
  · exact key true ⟨fun _ => hr, fun _ => rfl⟩ (by rw [pathClean_rooted wildcard hr]; rfl)
  · exact key false ⟨fun h => Bool.noConfusion h, fun h => absurd h hr⟩
      (by rw [pathClean_relative wildcard hr]; rfl)

/-- C21 (amended). Source glob normalization collapses directory traversal: in every
normalized glob the `..` path components all stand at the start (a `..` after another
component is cancelled against it), and the normalized glob of a source glob that begins
with a slash has no `..` component at all. -/
theorem C21_normalize_traversal (wildcards : List String) (i : Nat) (wildcard : String)
    (h : wildcards[i]? = some wildcard) :
    ∃ n k rest, (normalizeCopyAddSources pathClean wildcards)[i]? = some n ∧
      splitSlash n.toList = List.replicate k ['.', '.'] ++ rest ∧ ['.', '.'] ∉ rest ∧
      (wildcard.toList.head? = some '/' → k = 0) := by
  obtain ⟨n, k, rest, hn, hsplit, hrest, hk⟩ := pathClean_components wildcard
  refine ⟨n, k, rest, ?_, hsplit, hrest, hk⟩
  simp only [normalizeCopyAddSources, List.map_cons, List.map_nil, List.cons.injEq,
    and_true] at hn
  simp only [normalizeCopyAddSources, List.getElem?_map, h, Option.map_some', hn]

/-- C21 (amended) on the source globs `/a/../../b` and `a/../../b`. -/
theorem C21_normalize_traversal_witness :
    ["/a/../../b", "a/../../b"][0]? = some "/a/../../b" ∧
    normalizeCopyAddSources pathClean ["/a/../../b", "a/../../b"] = ["b", "../b"] ∧
    ∃ n k rest,
      (normalizeCopyAddSources pathClean ["/a/../../b", "a/../../b"])[0]? = some n ∧
      splitSlash n.toList = List.replicate k ['.', '.'] ++ rest ∧ ['.', '.'] ∉ rest ∧
      ("/a/../../b".toList.head? = some '/' → k = 0) :=
  ⟨rfl, by decide, C21_normalize_traversal ["/a/../../b", "a/../../b"] 0 "/a/../../b" rfl⟩

/-- C21 (the claim as stated fails). The source glob `../secret` is its own normalized
glob: the `..` component stays, and the glob handed to the checksum provider names a path
outside the build context. -/
theorem C21_normalize_counterexample :
    normalizeCopyAddSources pathClean ["../secret"] = ["../secret"] ∧
    ['.', '.'] ∈ splitSlash "../secret".toList ∧
    calculateFilesChecksum sampleEnv sampleArgs ["../secret"] =
      .ok "sha256[tree[../secret]]" :=
  ⟨by decide, by decide, rfl⟩

/-! ### The checksum of the added context files -/

/-- C22. For `COPY /app /dst` with one added context file configured, the tree checksum is
computed over the normalized glob `app`, but the checksum of the added context files is
computed with a matcher built from the glob as written, `/app`; the result is the hash of
the two, and it differs from the checksum over the same normalized globs that the
specification describes. -/
theorem C22_context_add_globs :
    calculateFilesChecksum sampleEnvWithAddFiles sampleArgsWithAddFiles ["/app"] =
      .ok "sha256[sha256[tree[app]]:::add[/app]]" ∧
    calculateFilesChecksumNormalized sampleEnvWithAddFiles sampleArgsWithAddFiles ["/app"] =
      .ok "sha256[sha256[tree[app]]:::add[app]]" ∧
    calculateFilesChecksum sampleEnvWithAddFiles sampleArgs ["/app"] =
      .ok "sha256[tree[app]]" ∧
    "sha256[sha256[tree[app]]:::add[/app]]" ≠ "sha256[sha256[tree[app]]:::add[app]]" :=
  ⟨rfl, rfl, rfl, by decide⟩

/-! ### Bounds of the copy-from propagation -/

/-- C29. For the one-stage description `FROM alpine`, `COPY --from=-1 /a /b` the value of
`--from` reads as the integer `-1`, which is below the number of stages, and the
propagation pass indexes the per-stage lists at `-1`: `GetDependencies` ends in the
index-out-of-range panic.  An index that is not below the number of stages (`--from=7`)
is ignored. -/
theorem C29_copy_from_bounds :
    atoi "-1" = some (-1) ∧
    GetDependencies sampleEnv sampleArgs 1 (sampleEngine (copyFromStages "-1") [] 0) =
      .error (.panic "index out of range") ∧
    GetDependencies sampleEnv sampleArgs 1 (sampleEngine (copyFromStages "7") [] 0) =
      .ok ("sha256[alpine:::COPY --from=7 /a /b]", sampleEngine (copyFromStages "7") [] 0) :=
  ⟨rfl, rfl, rfl⟩

/-! ### The command line of the background host cleanup -/

/-- C30. With the docker-storage margin `5` and the local-cache margin `7` configured, the
argument list `RunAutoHostCleanup` builds names the flag
`--allowed-docker-storage-volume-usage-margin` twice, the second time with the
local-cache margin, and has no flag `--allowed-local-cache-volume-usage-margin`; with the
local-cache margin alone it is forwarded under the docker-storage flag as well. -/
theorem C30_cleanup_flags :
    RunAutoHostCleanup (.ok false) (sampleCleanupOptions (some 5) (some 7)) =
      some ["host", "cleanup", "--dry-run=false", "--force=false",
        "--allowed-docker-storage-volume-usage-margin", "5",
        "--allowed-docker-storage-volume-usage-margin", "7"] ∧
    (autoHostCleanupArgs (sampleCleanupOptions (some 5) (some 7))).count
      "--allowed-docker-storage-volume-usage-margin" = 2 ∧
    "--allowed-local-cache-volume-usage-margin" ∉
      autoHostCleanupArgs (sampleCleanupOptions (some 5) (some 7)) ∧
    autoHostCleanupArgs (sampleCleanupOptions none (some 7)) =
      ["host", "cleanup", "--dry-run=false", "--force=false",
        "--allowed-docker-storage-volume-usage-margin", "7"] :=
  ⟨by decide, by decide, by decide, by decide⟩

/-! ### The digest of the git archive stage -/

theorem stringLess_asymm (a b : List Char) (h : stringLess a b = true) :
    stringLess b a = false := by
  induction a generalizing b with
  | nil => cases b <;> simp [stringLess] at h ⊢
  | cons x xs ih =>
    cases b with
    | nil => simp [stringLess] at h
    | cons y ys =>
      simp only [stringLess] at h ⊢
      split at h
      · rename_i h1
        have h2 : ¬ y.toNat < x.toNat := by omega
        simp [h2, h1]
      · rename_i h1
        split at h
        · cases h
        · rename_i h2
          simp [h1, h2, ih ys h]

theorem stringLess_antisymm (a b : List Char) (h1 : stringLess a b = false)
    (h2 : stringLess b a = false) : a = b := by
  induction a generalizing b with
  | nil => cases b <;> simp [stringLess] at h1 ⊢
  | cons x xs ih =>
    cases b with
    | nil => simp [stringLess] at h2
    | cons y ys =>
      simp only [stringLess] at h1 h2
      split at h1
      · cases h1
      · rename_i h3
        split at h1
        · rename_i h4
          simp [h4] at h2
        · rename_i h4
          simp only [h4, h3, if_false] at h2
          have hxy : x = y := by
            have : x.toNat = y.toNat := by omega
            rw [← Char.ofNat_toNat x, ← Char.ofNat_toNat y, this]
          rw [hxy, ih ys h1 h2]

theorem stringLess_trans (a b c : List Char) (h1 : stringLess c a = true)
    (h2 : stringLess b a = false) : stringLess c b = true := by
  induction c generalizing a b with
  | nil =>
    cases a with
    | nil => simp [stringLess] at h1
    | cons x xs =>
      cases b with
      | nil => simp [stringLess] at h2
      | cons y ys => simp [stringLess]
  | cons z zs ih =>
    cases a with
    | nil => simp [stringLess] at h1
    | cons x xs =>
      cases b with
      | nil => simp [stringLess] at h2
      | cons y ys =>
        simp only [stringLess] at h1 h2 ⊢
        split at h2
        · cases h2
        · rename_i h3
          split at h2
          · rename_i h4
            split at h1
            · rename_i h5
              have : z.toNat < y.toNat := by omega
              simp [this]
            · rename_i h5
              split at h1
              · cases h1
              · rename_i h6
                have : z.toNat < y.toNat := by omega
                simp [this]
          · rename_i h4
            split at h1
            · rename_i h5
              have : z.toNat < y.toNat := by omega
              simp [this]
            · rename_i h5
              split at h1
              · cases h1
              · rename_i h6
                have e1 : ¬ z.toNat < y.toNat := by omega
                have e2 : ¬ y.toNat < z.toNat := by omega
                simp only [e1, e2, if_false]
                exact ih xs ys h1 h2

theorem stringsLE_total (a b : String) : stringsLE a b ∨ stringsLE b a := by
  unfold stringsLE
  cases h : stringLess b.toList a.toList with
  | false => exact Or.inl rfl
  | true => exact Or.inr (stringLess_asymm _ _ h)

theorem stringsLE_trans (a b c : String) (h1 : stringsLE a b) (h2 : stringsLE b c) :
    stringsLE a c := by
  unfold stringsLE at *
  cases h : stringLess c.toList a.toList with
  | false => rfl
  | true =>
    have := stringLess_trans a.toList b.toList c.toList h h1
    rw [h2] at this
    cases this

theorem stringsLE_antisymm (a b : String) (h1 : stringsLE a b) (h2 : stringsLE b a) : a = b :=
  String.ext (stringLess_antisymm a.toList b.toList h2 h1)

theorem sortStrings_sorted (args : List String) : List.Sorted stringsLE (sortStrings args) := by
  haveI : IsTotal String stringsLE := ⟨stringsLE_total⟩
  haveI : IsTrans String stringsLE := ⟨stringsLE_trans⟩
  exact List.sorted_insertionSort stringsLE args

theorem sortStrings_perm (args : List String) : (sortStrings args).Perm args :=
  List.perm_insertionSort stringsLE args

theorem sortStrings_of_perm (a b : List String) (h : a.Perm b) :
    sortStrings a = sortStrings b := by
  haveI : IsAntisymm String stringsLE := ⟨stringsLE_antisymm⟩
  exact List.eq_of_perm_of_sorted
    (((sortStrings_perm a).trans h).trans (sortStrings_perm b).symm)
    (sortStrings_sorted a) (sortStrings_sorted b)

theorem gitArchiveArgs_pass {μ : Type} (ops : GitMappingOps μ) (gitMappings : List μ)
    (args : List String)
    (hpass : ∀ m ∈ gitMappings, ops.IsLocal m = true →
      ∃ u, ops.InspectBuildContextFiles m = .ok u) :
    gitArchiveArgs ops gitMappings args = .ok (args ++ gitMappings.map ops.GetParamshash) := by
  induction gitMappings generalizing args with
  | nil => simp [gitArchiveArgs]
  | cons m rest ih =>
    have hrest := ih (args ++ [ops.GetParamshash m])
      (fun x hx => hpass x (List.mem_cons_of_mem _ hx))
    unfold gitArchiveArgs
    cases hl : ops.IsLocal m with
    | false => simp [hrest]
    | true =>
      obtain ⟨u, hu⟩ := hpass m (List.mem_cons_self _ _) hl
      simp [hu, hrest]

theorem gitArchiveArgs_fail {μ : Type} (ops : GitMappingOps μ) (before after : List μ)
    (m : μ) (err : Fault) (args : List String)
    (hpass : ∀ x ∈ before, ops.IsLocal x = true → ∃ u, ops.InspectBuildContextFiles x = .ok u)
    (hlocal : ops.IsLocal m = true) (hfail : ops.InspectBuildContextFiles m = .error err) :
    gitArchiveArgs ops (before ++ m :: after) args = .error err := by
  induction before generalizing args with
  | nil => simp [gitArchiveArgs, hlocal, hfail]
  | cons x rest ih =>
    have hrest := ih (args ++ [ops.GetParamshash x])
      (fun y hy => hpass y (List.mem_cons_of_mem _ hy))
    simp only [List.cons_append, gitArchiveArgs]
    cases hl : ops.IsLocal x with
    | false => simp [hrest]
    | true =>
      obtain ⟨u, hu⟩ := hpass x (List.mem_cons_self _ _) hl
      simp [hu, hrest]

/-- C24. Order independence of the git-archive digest: when every local git mapping
passes the inspection, `GitArchiveStage.GetDependencies` returns the hash of the
parameter hashes of the mappings in ascending string order (the sorted list is ordered
and is a rearrangement of the parameter hashes), and it returns the same for every
rearrangement of the list of mappings; when the inspection of a local mapping fails, the
mappings before it having passed, that error is returned and no digest. -/
theorem C24_git_archive_order {μ : Type} (sha256Hash : List String → String)
    (ops : GitMappingOps μ) (gitMappings permuted : List μ)
    (hperm : permuted.Perm gitMappings)
    (hpass : ∀ m ∈ gitMappings, ops.IsLocal m = true →
      ops.InspectBuildContextFiles m = .ok ()) :
    GitArchiveStage.GetDependencies sha256Hash ops gitMappings =
      .ok (sha256Hash (sortStrings (gitMappings.map ops.GetParamshash))) ∧
    GitArchiveStage.GetDependencies sha256Hash ops permuted =
      GitArchiveStage.GetDependencies sha256Hash ops gitMappings ∧
    List.Sorted stringsLE (sortStrings (gitMappings.map ops.GetParamshash)) ∧
    (sortStrings (gitMappings.map ops.GetParamshash)).Perm
      (gitMappings.map ops.GetParamshash) ∧
    ∀ (before after : List μ) (m : μ) (err : Fault),
      (∀ x ∈ before, ops.IsLocal x = true → ops.InspectBuildContextFiles x = .ok ()) →
      ops.IsLocal m = true → ops.InspectBuildContextFiles m = .error err →
      GitArchiveStage.GetDependencies sha256Hash ops (before ++ m :: after) = .error err := by
  have h1 : gitArchiveArgs ops gitMappings [] = .ok (gitMappings.map ops.GetParamshash) := by
    simpa using gitArchiveArgs_pass ops gitMappings []
      (fun m hm hl => ⟨(), hpass m hm hl⟩)
  have h2 : gitArchiveArgs ops permuted [] = .ok (permuted.map ops.GetParamshash) := by
    simpa using gitArchiveArgs_pass ops permuted []
      (fun m hm hl => ⟨(), hpass m (hperm.mem_iff.mp hm) hl⟩)
  refine ⟨?_, ?_, sortStrings_sorted _, sortStrings_perm _, ?_⟩
  · simp only [GitArchiveStage.GetDependencies, h1]
  · simp only [GitArchiveStage.GetDependencies, h1, h2]
    rw [sortStrings_of_perm _ _ (hperm.map ops.GetParamshash)]
  · intro before after m err hbefore hlocal hfail
    simp only [GitArchiveStage.GetDependencies,
      gitArchiveArgs_fail ops before after m err []
        (fun x hx hl => ⟨(), hbefore x hx hl⟩) hlocal hfail]

/-- C24 on the mappings with the parameter hashes `b` and `a` in the two orders, and on a
list with a local mapping that the inspection rejects. -/
theorem C24_git_archive_order_witness :
    GitArchiveStage.GetDependencies sampleEnv.sha256Hash sampleMappingOps
      [("b", true), ("a", false)] = .ok "sha256[a:::b]" ∧
    GitArchiveStage.GetDependencies sampleEnv.sha256Hash sampleMappingOps
      [("a", false), ("b", true)] = .ok "sha256[a:::b]" ∧
    GitArchiveStage.GetDependencies sampleEnv.sha256Hash sampleMappingOps
      [("b", true), ("bad", true), ("a", false)] = .error (.error "rejected") :=
  have h := C24_git_archive_order sampleEnv.sha256Hash sampleMappingOps
    [("b", true), ("a", false)] [("a", false), ("b", true)] (List.Perm.swap _ _ _)
    (fun m hm _ => by
      simp only [List.mem_cons, List.mem_singleton, List.not_mem_nil, or_false] at hm
      rcases hm with hm | hm <;> subst hm <;> rfl)
  ⟨h.1.trans rfl, (h.2.1.trans h.1).trans rfl,
    h.2.2.2.2 [("b", true)] [("a", false)] ("bad", true) (.error "rejected")
      (fun x hx _ => by
        simp only [List.mem_singleton] at hx
        subst hx
        rfl) rfl rfl⟩

/-! ### File order within a stage -/

theorem ownContributions_append (env : Env) (args : DockerRunArgs) (fuel ind : Nat)
    (first later : List Command) (ds : DockerStages) :
    ownContributions env args fuel ind (first ++ later) ds =
      (match ownContributions env args fuel ind first ds with
        | .error err => .error err
        | .ok (cs, ds1) =>
          match ownContributions env args fuel ind later ds1 with
          | .error err => .error err
          | .ok (cs2, ds2) => .ok (cs ++ cs2, ds2)) := by
  induction first generalizing ds with
  | nil =>
    simp only [List.nil_append, ownContributions]
    cases ownContributions env args fuel ind later ds with
    | error e => rfl
    | ok r => rfl
  | cons cmd rest ih =>
    simp only [List.cons_append, ownContributions]
    cases dockerfileInstructionDependencies env args fuel ds ind cmd false false with
    | error e => rfl
    | ok r =>
      obtain ⟨c, ds1⟩ := r
      simp only [List.append_eq]
      rw [ih ds1]
      cases ownContributions env args fuel ind rest ds1 with
      | error e => rfl
      | ok r1 =>
        obtain ⟨cs, ds2⟩ := r1
        simp only []
        cases ownContributions env args fuel ind later ds2 with
        | error e => rfl
        | ok r2 => rfl

/-- C25. File-order monotonicity: from every engine state (so from one with empty stage
bindings too), the contributions of the own instructions `first ++ later` of a stage are
the contributions of `first`, computed from the starting state alone, followed by those
of `later` computed from the state `first` left; and when the stage with the instructions
`first ++ later` is processed without error, so is the stage with `first` alone, and its
dependency list and secondary list are prefixes of the lists of the longer stage.  The
entries of the first instructions are the same whether or not further instructions
follow. -/
theorem C25_file_order (env : Env) (args : DockerRunArgs) (fuel ind : Nat)
    (Name BaseName : String) (first later : List Command) (ds : DockerStages) :
    ownContributions env args fuel ind (first ++ later) ds =
      (match ownContributions env args fuel ind first ds with
        | .error err => .error err
        | .ok (cs, ds1) =>
          match ownContributions env args fuel ind later ds1 with
          | .error err => .error err
          | .ok (cs2, ds2) => .ok (cs ++ cs2, ds2)) ∧
    ∀ full, stageDependencies env args fuel ds ind ⟨Name, BaseName, first ++ later⟩ =
        .ok full →
      ∃ short, stageDependencies env args fuel ds ind ⟨Name, BaseName, first⟩ = .ok short ∧
        short.1.1 <+: full.1.1 ∧ short.1.2 <+: full.1.2 := by
  refine ⟨ownContributions_append env args fuel ind first later ds, ?_⟩
  intro full hfull
  rw [stageDependencies_eq_layout] at hfull ⊢
  unfold stageDependenciesLayout at hfull ⊢
  simp only [] at hfull ⊢
  cases hb : env.processWord BaseName (toArgsArray [ds.dockerMetaArgsHash]) with
  | error e => simp [hb] at hfull
  | ok rb =>
    simp only [hb] at hfull ⊢
    cases hi : inheritedContributions env args fuel ind
        ((ds.imageOnBuildInstructions.lookup rb).getD []) ds with
    | error e => simp [hi] at hfull
    | ok ri =>
      obtain ⟨inherited, ds1⟩ := ri
      simp only [hi, ownContributions_append] at hfull ⊢
      cases ho : ownContributions env args fuel ind first ds1 with
      | error e => simp [ho] at hfull
      | ok ro =>
        obtain ⟨cs, ds2⟩ := ro
        simp only [ho] at hfull ⊢
        cases hl : ownContributions env args fuel ind later ds2 with
        | error e => simp [hl] at hfull
        | ok rl =>
          obtain ⟨cs2, ds3⟩ := rl
          simp only [hl, Except.ok.injEq] at hfull
          subst hfull
          refine ⟨_, rfl, ?_, ?_⟩
          · simp only [List.map_append, List.flatten_append, ← List.append_assoc]
            exact List.prefix_append _ _
          · simp only [List.map_append, List.flatten_append]
            exact List.prefix_append _ _

/-- C25 on the stage `FROM alpine`, `ARG B=x`, `RUN echo $B`, cut after the first
instruction. -/
theorem C25_file_order_witness :
    stageDependencies sampleEnv sampleArgs 0 (sampleEngine [] [] 0) 0
        ⟨"", "alpine", [.ArgCommand [⟨"B", some "x"⟩]] ++ [.Other "RUN echo $B"]⟩ =
      .ok ((["alpine", "ARG B=x", "RUN echo x"], []),
        setDockerStageArg (sampleEngine [] [] 0) 0 "B" "x") ∧
    ∃ short, stageDependencies sampleEnv sampleArgs 0 (sampleEngine [] [] 0) 0
        ⟨"", "alpine", [.ArgCommand [⟨"B", some "x"⟩]]⟩ = .ok short ∧
      short.1.1 <+: ["alpine", "ARG B=x", "RUN echo x"] ∧ short.1.2 <+: [] :=
  ⟨rfl, (C25_file_order sampleEnv sampleArgs 0 0 "" "alpine" [.ArgCommand [⟨"B", some "x"⟩]]
    [.Other "RUN echo $B"] (sampleEngine [] [] 0)).2 _ rfl⟩

/-! ### Side effects of the inherited mode and across stages -/

/-- C27. Inherited and `ONBUILD` instructions have no binding side effects: when the
extraction of an instruction inherited from the base image or embedded in an `ONBUILD`
container returns, the engine is the one before the extraction, so the ARG and the ENV
bindings of every stage hold the same pairs as before; the same is true of every
instruction extracted in the inherited mode, `ARG` and `ENV` included, and of an
`ONBUILD` container among the own instructions of a stage. -/
theorem C27_inherited_no_side_effects (env : Env) (args : DockerRunArgs) (fuel : Nat)
    (ds ds1 : DockerStages) (ind : Nat) (expression : String)
    (isBaseImageOnbuildInstruction : Bool) (r : List String × List String)
    (h : dockerfileOnBuildInstructionDependencies env args fuel ds ind expression
      isBaseImageOnbuildInstruction = .ok (r, ds1)) :
    ds1 = ds ∧
    (∀ j, DockerStageArgsHash ds1 j = DockerStageArgsHash ds j ∧
      DockerStageEnvs ds1 j = DockerStageEnvs ds j) ∧
    (∀ cmd isBase r2 ds2,
      dockerfileInstructionDependencies env args fuel ds ind cmd true isBase = .ok (r2, ds2) →
        ds2 = ds) ∧
    (∀ Expression r2 ds2,
      dockerfileInstructionDependencies env args fuel ds ind (.OnbuildCommand Expression)
        false false = .ok (r2, ds2) → ds2 = ds) := by
  have h1 : ds1 = ds := onBuild_state_unchanged env args fuel ds ind expression _ r ds1 h
  refine ⟨h1, ?_, ?_, ?_⟩
  · intro j
    rw [h1]
    exact ⟨rfl, rfl⟩
  · intro cmd isBase r2 ds2 h2
    exact instruction_state_unchanged env args fuel ds ds2 ind cmd true isBase r2 (Or.inl rfl) h2
  · intro Expression r2 ds2 h2
    exact instruction_state_unchanged env args fuel ds ds2 ind (.OnbuildCommand Expression)
      false false r2 (Or.inr rfl) h2

/-- C27 on the inherited instruction `ARG X=1` in a stage with the ARG binding `X=a`. -/
theorem C27_inherited_no_side_effects_witness :
    dockerfileOnBuildInstructionDependencies
        (sampleEnvParsing (.ArgCommand [⟨"X", some "1"⟩])) sampleArgs 1 (alpineEngine [] []) 0
        "ARG X=1" true = .ok ((["ARG X=1"], ["ARG X=1"]), alpineEngine [] []) ∧
    (DockerStageArgsHash (alpineEngine [] []) 0).lookup "X" = some "a" ∧
    ∀ j, DockerStageArgsHash (alpineEngine [] []) j = DockerStageArgsHash (alpineEngine [] []) j ∧
      DockerStageEnvs (alpineEngine [] []) j = DockerStageEnvs (alpineEngine [] []) j :=
  ⟨rfl, rfl,
    (C27_inherited_no_side_effects (sampleEnvParsing (.ArgCommand [⟨"X", some "1"⟩]))
      sampleArgs 1 (alpineEngine [] []) (alpineEngine [] []) 0 "ARG X=1" true
      (["ARG X=1"], ["ARG X=1"]) rfl).2.1⟩

theorem SameResult.value {α : Type} {i : Nat} {x y : Except Fault (α × DockerStages)}
    (h : SameResult i x y) (r : α) (d : DockerStages) (hx : x = .ok (r, d)) :
    ∃ d2, y = .ok (r, d2) := by
  rcases h.cases with ⟨e, he, _⟩ | ⟨r2, d1, d2, h1, h2, _⟩
  · rw [hx] at he
    cases he
  · rw [hx] at h1
    simp only [Except.ok.injEq, Prod.mk.injEq] at h1
    rw [h1.1]
    exact ⟨d2, h2⟩

/-- C28. Stage binding isolation: for distinct stage indices `i` and `j`, the extraction
of the dependencies of stage `i` leaves the ARG and ENV bindings of stage `j`, the global
bindings and the external overrides as they were, and so does every `AddDockerStageArg`
and `AddDockerStageEnv` with the stage id `i`; and on every engine that differs only in
the bindings of stage `j`, the extraction for stage `i` gives the same entries. -/
theorem C28_stage_isolation (env : Env) (args : DockerRunArgs) (fuel : Nat)
    (ds ds1 : DockerStages) (i j : Nat) (stage : Stage) (r : List String × List String)
    (hij : i ≠ j) (h : stageDependencies env args fuel ds i stage = .ok (r, ds1)) :
    (DockerStageArgsHash ds1 j = DockerStageArgsHash ds j ∧
      DockerStageEnvs ds1 j = DockerStageEnvs ds j ∧
      ds1.dockerMetaArgsHash = ds.dockerMetaArgsHash ∧
      ds1.dockerBuildArgsHash = ds.dockerBuildArgsHash) ∧
    (∀ key value p d, AddDockerStageArg env ds i key value = .ok (p, d) →
      DockerStageArgsHash d j = DockerStageArgsHash ds j ∧
      DockerStageEnvs d j = DockerStageEnvs ds j ∧
      d.dockerMetaArgsHash = ds.dockerMetaArgsHash ∧
      d.dockerBuildArgsHash = ds.dockerBuildArgsHash) ∧
    (∀ key value p d, AddDockerStageEnv env ds i key value = .ok (p, d) →
      DockerStageArgsHash d j = DockerStageArgsHash ds j ∧
      DockerStageEnvs d j = DockerStageEnvs ds j ∧
      d.dockerMetaArgsHash = ds.dockerMetaArgsHash ∧
      d.dockerBuildArgsHash = ds.dockerBuildArgsHash) ∧
    ∀ ds2, Frame j ds ds2 →
      ∃ ds3, stageDependencies env args fuel ds2 i stage = .ok (r, ds3) := by
  have hframe : ∀ d, Frame i ds d →
      DockerStageArgsHash d j = DockerStageArgsHash ds j ∧
      DockerStageEnvs d j = DockerStageEnvs ds j ∧
      d.dockerMetaArgsHash = ds.dockerMetaArgsHash ∧
      d.dockerBuildArgsHash = ds.dockerBuildArgsHash := by
    intro d hd
    obtain ⟨_, _, f3, f4, _, f6⟩ := hd
    exact ⟨(f6 j (Ne.symm hij)).1, (f6 j (Ne.symm hij)).2, f4, f3⟩
  refine ⟨hframe ds1 (stageDependencies_frame env args fuel ds ds1 i stage r h), ?_, ?_, ?_⟩
  · intro key value p d hd
    exact hframe d (AddDockerStageArg_frame env ds d i key value p hd)
  · intro key value p d hd
    exact hframe d (AddDockerStageEnv_frame env ds d i key value p hd)
  · intro ds2 hds2
    have hscope : scopeOf ds i = scopeOf ds2 i := (Frame.scopeOf_ne hds2 hij).symm
    exact (stageDependencies_same env args fuel i stage ds ds2 hscope).value r ds1 h

/-- C28 on the stage `FROM busybox AS other`, `ARG UNUSED=v` with index 0 and the
bindings of stage 1. -/
theorem C28_stage_isolation_witness :
    stageDependencies sampleEnv sampleArgs 0 (sampleEngine (unrelatedArg "v") [] 1) 0
        ⟨"other", "busybox", [.ArgCommand [⟨"UNUSED", some "v"⟩]]⟩ =
      .ok ((["busybox", "ARG UNUSED=v"], []),
        setDockerStageArg (sampleEngine (unrelatedArg "v") [] 1) 0 "UNUSED" "v") ∧
    ∃ ds3, stageDependencies sampleEnv sampleArgs 0
        (setDockerStageEnv (sampleEngine (unrelatedArg "v") [] 1) 1 "UNUSED" "w") 0
        ⟨"other", "busybox", [.ArgCommand [⟨"UNUSED", some "v"⟩]]⟩ =
      .ok ((["busybox", "ARG UNUSED=v"], []), ds3) :=
  ⟨rfl,
    (C28_stage_isolation sampleEnv sampleArgs 0 (sampleEngine (unrelatedArg "v") [] 1)
      (setDockerStageArg (sampleEngine (unrelatedArg "v") [] 1) 0 "UNUSED" "v") 0 1
      ⟨"other", "busybox", [.ArgCommand [⟨"UNUSED", some "v"⟩]]⟩
      (["busybox", "ARG UNUSED=v"], []) (by decide) rfl).2.2.2
      (setDockerStageEnv (sampleEngine (unrelatedArg "v") [] 1) 1 "UNUSED" "w")
      (setDockerStageEnv_frame _ 1 "UNUSED" "w")⟩

/-! ### Chains of named bases -/

theorem named_base_segment (stages : List Stage) (onb own final : List (List String))
    (A B : Nat) (stageA stageB : Stage)
    (hlen : own.length = stages.length)
    (hrun : propagateLoop stages onb stages 0 own = .ok final)
    (hA : stages[A]? = some stageA) (hB : stages[B]? = some stageB) (hlt : B < A)
    (hname : stageA.BaseName = stageB.Name) :
    ∃ pre post, final.getD A [] = pre ++ final.getD B [] ++ post := by
  obtain ⟨hfl, hfin⟩ := propagate_final stages onb own final hlen hrun
  have hAlt : A < stages.length := by
    by_contra hge
    rw [List.getElem?_eq_none (by omega)] at hA
    cases hA
  have hf := hfin A stageA hA
  unfold stageFinal at hf
  obtain ⟨ext, hext⟩ := copySegments_extends _ _ _ _ _ _ hf
  have hnameB : (stages.map fun s => s.Name)[B]? = some stageA.BaseName := by
    simp [List.getElem?_map, hB, hname]
  obtain ⟨pre, post, hsplit⟩ := namedSegments_split stageA.BaseName A onb
    (listsAt A final own) (stages.map fun s => s.Name) 0 B hnameB (by omega)
  rw [hext, hsplit, Nat.zero_add, getD_listsAt A final own hfl (by omega) B]
  refine ⟨(listsAt A final own).getD A [] ++ pre, onb.getD B [] ++ post ++ ext, ?_⟩
  simp [hlt, List.append_assoc]

theorem backward_chain_final (stages : List Stage) (onb own final : List (List String))
    (A C : Nat) (hlen : own.length = stages.length)
    (hrun : propagateLoop stages onb stages 0 own = .ok final)
    (hchain : Relation.ReflTransGen (namedBaseBefore stages) A C) :
    ∀ x ∈ final.getD C [], x ∈ final.getD A [] := by
  induction hchain using Relation.ReflTransGen.head_induction_on with
  | refl => exact fun x hx => hx
  | head hstep _ ih =>
    obtain ⟨hlt, sa, sb, hsa, hsb, hname⟩ := hstep
    obtain ⟨pre, post, hsplit⟩ :=
      named_base_segment stages onb own final _ _ sa sb hlen hrun hsa hsb hlt hname
    intro x hx
    rw [hsplit]
    simp only [List.mem_append]
    exact Or.inl (Or.inr (ih x hx))

/-- C26 (amended). Transitive closure of propagation along chains that run backwards:
when the propagation pass returns, the list of stage `A` contains every entry of the
propagated list, and so every per-stage dependency entry, of each stage `C` reachable
from `A` through a chain of named-stage references in which every referenced stage
stands before the stage that refers to it. -/
theorem C26_backward_closure (stages : List Stage) (onb own final : List (List String))
    (A C : Nat) (hlen : own.length = stages.length)
    (hrun : propagateLoop stages onb stages 0 own = .ok final)
    (hchain : Relation.ReflTransGen (namedBaseBefore stages) A C) :
    (∀ x ∈ own.getD C [], x ∈ final.getD A []) ∧
    ∀ x ∈ final.getD C [], x ∈ final.getD A [] := by
  refine ⟨?_, backward_chain_final stages onb own final A C hlen hrun hchain⟩
  intro x hx
  apply backward_chain_final stages onb own final A C hlen hrun hchain
  cases hC : stages[C]? with
  | none =>
    have hge : stages.length ≤ C := by
      by_contra hlt
      rw [List.getElem?_eq_getElem (by omega)] at hC
      cases hC
    rw [List.getD_eq_default _ _ (by omega)] at hx
    cases hx
  | some stage =>
    obtain ⟨ext, hext⟩ := final_extends_own stages onb own final hlen hrun C stage hC
    rw [hext]
    exact List.mem_append_left _ hx

/-- C26 (amended) on `backwardChain`: the list of the last stage holds the entries of
the first one, two references away. -/
theorem C26_backward_closure_witness :
    propagateLoop backwardChain [[], [], []] backwardChain 0
        [["alpine", "RUN x"], ["c"], ["b"]] =
      .ok [["alpine", "RUN x"], ["c", "alpine", "RUN x"], ["b", "c", "alpine", "RUN x"]] ∧
    Relation.ReflTransGen (namedBaseBefore backwardChain) 2 0 ∧
    ∀ x ∈ [["alpine", "RUN x"], ["c"], ["b"]].getD 0 [],
      x ∈ [["alpine", "RUN x"], ["c", "alpine", "RUN x"],
        ["b", "c", "alpine", "RUN x"]].getD 2 [] :=
  have hchain : Relation.ReflTransGen (namedBaseBefore backwardChain) 2 0 :=
    (Relation.ReflTransGen.single
      (show namedBaseBefore backwardChain 2 1 from
        ⟨by decide, ⟨"a", "b", []⟩, ⟨"b", "c", []⟩, rfl, rfl, rfl⟩)).tail
      (show namedBaseBefore backwardChain 1 0 from
        ⟨by decide, ⟨"b", "c", []⟩, ⟨"c", "alpine", [.Other "RUN x"]⟩, rfl, rfl, rfl⟩)
  ⟨rfl, hchain,
    (C26_backward_closure backwardChain [[], [], []] [["alpine", "RUN x"], ["c"], ["b"]]
      [["alpine", "RUN x"], ["c", "alpine", "RUN x"], ["b", "c", "alpine", "RUN x"]] 2 0
      rfl rfl hchain).1⟩

/-- C26 (the claim as stated fails). In `forwardChain` the stage `c` is reachable from
the stage `a` through the named-stage references `a`, `b`, `c`, but each base stands after
the stage that refers to it: the propagated list of `a` is `b`, `c`, the first-pass list
of `b`, and holds neither `alpine` nor `RUN x`, the entries of stage `c`. -/
theorem C26_forward_counterexample :
    Relation.ReflTransGen (namedBase forwardChain) 0 2 ∧
    stageDependencies sampleEnv sampleArgs 1 (sampleEngine forwardChain [] 0) 2
        ⟨"c", "alpine", [.Other "RUN x"]⟩ =
      .ok ((["alpine", "RUN x"], []), sampleEngine forwardChain [] 0) ∧
    targetDependencies sampleEnv sampleArgs 1 (sampleEngine forwardChain [] 0) =
      .ok (["b", "c"], sampleEngine forwardChain [] 0) ∧
    "RUN x" ∉ ["b", "c"] :=
  ⟨(Relation.ReflTransGen.single
      (show namedBase forwardChain 0 1 from
        ⟨by decide, ⟨"a", "b", []⟩, ⟨"b", "c", []⟩, rfl, rfl, rfl⟩)).tail
      (show namedBase forwardChain 1 2 from
        ⟨by decide, ⟨"b", "c", []⟩, ⟨"c", "alpine", [.Other "RUN x"]⟩, rfl, rfl, rfl⟩),
    rfl, rfl, by decide⟩

/-! ### No partial digest -/

theorem firstPass_append (env : Env) (args : DockerRunArgs) (fuel : Nat)
    (before rest : List Stage) (ind : Nat) (ds : DockerStages)
    (acc accOnb : List (List String)) :
    firstPass env args fuel (before ++ rest) ind ds acc accOnb =
      (match firstPass env args fuel before ind ds acc accOnb with
        | .error err => .error err
        | .ok ((lists, onb), dsk) =>
          firstPass env args fuel rest (ind + before.length) dsk lists onb) := by
  induction before generalizing ind ds acc accOnb with
  | nil => simp [firstPass]
  | cons stage more ih =>
    simp only [List.cons_append, firstPass, List.append_eq]
    cases stageDependencies env args fuel ds ind stage with
    | error e => rfl
    | ok r =>
      obtain ⟨⟨deps, onbDeps⟩, ds1⟩ := r
      simp only []
      rw [ih]
      have e : ind + 1 + more.length = ind + (more.length + 1) := by omega
      simp only [List.length_cons, e]

theorem GetDependencies_stage_error (env : Env) (args : DockerRunArgs) (fuel : Nat)
    (ds : DockerStages) (before after : List Stage) (stage : Stage)
    (lists onb : List (List String)) (dsk : DockerStages) (err : Fault)
    (hstages : ds.dockerStages = before ++ stage :: after)
    (hbefore : firstPass env args fuel before 0 ds [] [] = .ok ((lists, onb), dsk))
    (hfail : stageDependencies env args fuel dsk before.length stage = .error err) :
    GetDependencies env args fuel ds = .error err := by
  have h : firstPass env args fuel ds.dockerStages 0 ds [] [] = .error err := by
    rw [hstages, firstPass_append, hbefore]
    simp only [Nat.zero_add, firstPass, hfail]
  simp only [GetDependencies, targetDependencies, h]

theorem inheritedContributions_append (env : Env) (args : DockerRunArgs) (fuel ind : Nat)
    (first later : List String) (ds : DockerStages) :
    inheritedContributions env args fuel ind (first ++ later) ds =
      (match inheritedContributions env args fuel ind first ds with
        | .error err => .error err
        | .ok (cs, ds1) =>
          match inheritedContributions env args fuel ind later ds1 with
          | .error err => .error err
          | .ok (cs2, ds2) => .ok (cs ++ cs2, ds2)) := by
  induction first generalizing ds with
  | nil =>
    simp only [List.nil_append, inheritedContributions]
    cases inheritedContributions env args fuel ind later ds with
    | error e => rfl
    | ok r => rfl
  | cons instruction rest ih =>
    simp only [List.cons_append, inheritedContributions, List.append_eq]
    cases dockerfileOnBuildInstructionDependencies env args fuel ds ind instruction true with
    | error e => rfl
    | ok r =>
      obtain ⟨⟨c, o⟩, ds1⟩ := r
      simp only []
      rw [ih ds1]
      cases inheritedContributions env args fuel ind rest ds1 with
      | error e => rfl
      | ok r1 =>
        obtain ⟨cs, ds2⟩ := r1
        simp only []
        cases inheritedContributions env args fuel ind later ds2 with
        | error e => rfl
        | ok r2 => rfl

theorem stageDependencies_inherited_error (env : Env) (args : DockerRunArgs) (fuel : Nat)
    (ds : DockerStages) (ind : Nat) (stage : Stage) (resolvedBaseName : String) (err : Fault)
    (hbase : ShlexProcessWordWithMetaArgs env ds stage.BaseName = .ok resolvedBaseName)
    (hfail : inheritedContributions env args fuel ind
      ((ds.imageOnBuildInstructions.lookup resolvedBaseName).getD []) ds = .error err) :
    stageDependencies env args fuel ds ind stage = .error err := by
  rw [stageDependencies_eq_layout]
  unfold stageDependenciesLayout
  unfold ShlexProcessWordWithMetaArgs shlexProcessWord at hbase
  cases hp : env.processWord stage.BaseName (toArgsArray [ds.dockerMetaArgsHash]) with
  | error e => simp [hp] at hbase
  | ok rb =>
    simp only [hp, Except.ok.injEq] at hbase
    subst hbase
    simp only [hfail]

theorem stageDependencies_own_error (env : Env) (args : DockerRunArgs) (fuel : Nat)
    (ds ds1 : DockerStages) (ind : Nat) (stage : Stage) (resolvedBaseName : String)
    (inherited : List (List String)) (err : Fault)
    (hbase : ShlexProcessWordWithMetaArgs env ds stage.BaseName = .ok resolvedBaseName)
    (hinh : inheritedContributions env args fuel ind
      ((ds.imageOnBuildInstructions.lookup resolvedBaseName).getD []) ds = .ok (inherited, ds1))
    (hfail : ownContributions env args fuel ind stage.Commands ds1 = .error err) :
    stageDependencies env args fuel ds ind stage = .error err := by
  rw [stageDependencies_eq_layout]
  unfold stageDependenciesLayout
  unfold ShlexProcessWordWithMetaArgs shlexProcessWord at hbase
  cases hp : env.processWord stage.BaseName (toArgsArray [ds.dockerMetaArgsHash]) with
  | error e => simp [hp] at hbase
  | ok rb =>
    simp only [hp, Except.ok.injEq] at hbase
    subst hbase
    simp only [hinh, hfail]

/-- C23. No partial digest.  (1) When the first pass has processed the stages before some
stage, target or not, and the processing of that stage fails, `GetDependencies` returns
that error and no digest.  (2) When `GetDependencies` returns a digest, the first pass
has processed every stage of the description without error.  (3) The processing of a
stage fails when the expansion of its base name fails, when the extraction of one of its
inherited instructions fails, and when the extraction of one of its own instructions
fails, the ones before having succeeded.  (4) The extraction of an instruction fails when
the expansion of its words fails, when an embedded instruction does not parse, when the
checksum provider fails and when the inspection rejects the files. -/
theorem C23_no_partial_digest (env : Env) (args : DockerRunArgs) (fuel : Nat)
    (ds : DockerStages) :
    (∀ before after stage lists onb dsk err, ds.dockerStages = before ++ stage :: after →
      firstPass env args fuel before 0 ds [] [] = .ok ((lists, onb), dsk) →
      stageDependencies env args fuel dsk before.length stage = .error err →
      GetDependencies env args fuel ds = .error err) ∧
    (∀ digest ds1, GetDependencies env args fuel ds = .ok (digest, ds1) →
      ∃ own onb, firstPass env args fuel ds.dockerStages 0 ds [] [] = .ok ((own, onb), ds1) ∧
        own.length = ds.dockerStages.length ∧
        ∀ k stage, ds.dockerStages[k]? = some stage → ∃ dsk dsk1,
          scopeOf dsk k = scopeOf ds k ∧
          stageDependencies env args fuel dsk k stage =
            .ok ((own.getD k [], onb.getD k []), dsk1)) ∧
    (∀ d ind stage err, ShlexProcessWordWithMetaArgs env d stage.BaseName = .error err →
      stageDependencies env args fuel d ind stage = .error err) ∧
    (∀ d d1 ind stage rb first instruction later cs err,
      ShlexProcessWordWithMetaArgs env d stage.BaseName = .ok rb →
      (d.imageOnBuildInstructions.lookup rb).getD [] = first ++ instruction :: later →
      inheritedContributions env args fuel ind first d = .ok (cs, d1) →
      dockerfileOnBuildInstructionDependencies env args fuel d1 ind instruction true =
        .error err →
      stageDependencies env args fuel d ind stage = .error err) ∧
    (∀ d d1 d2 ind stage rb inherited first cmd later cs err,
      ShlexProcessWordWithMetaArgs env d stage.BaseName = .ok rb →
      inheritedContributions env args fuel ind
        ((d.imageOnBuildInstructions.lookup rb).getD []) d = .ok (inherited, d1) →
      stage.Commands = first ++ cmd :: later →
      ownContributions env args fuel ind first d1 = .ok (cs, d2) →
      dockerfileInstructionDependencies env args fuel d2 ind cmd false false = .error err →
      stageDependencies env args fuel d ind stage = .error err) ∧
    (∀ d ind text isOnb isBase err, resolveValueFunc env d ind isOnb isBase text = .error err →
      dockerfileInstructionDependencies env args fuel d ind (.Other text) isOnb isBase =
        .error err) ∧
    (∀ d ind expression isBase err, env.parseInstruction expression = .error err →
      dockerfileOnBuildInstructionDependencies env args (fuel + 1) d ind expression isBase =
        .error err ∧
      dockerfileInstructionDependencies env args (fuel + 1) d ind (.OnbuildCommand expression)
        false false = .error err) ∧
    (∀ wildcards err,
      env.gitChecksum (normalizeCopyAddSources env.pathClean wildcards) = .error err →
      calculateFilesChecksum env args wildcards = .error err) ∧
    (∀ wildcards checksum err,
      env.gitChecksum (normalizeCopyAddSources env.pathClean wildcards) = .ok checksum →
      env.inspectBuildContextFiles (normalizeCopyAddSources env.pathClean wildcards) =
        .error err →
      calculateFilesChecksum env args wildcards = .error err) ∧
    (∀ d ind text sources resolvedSources err,
      resolveEach (ShlexProcessWordWithStageArgsAndEnvs env d ind) sources =
        .ok resolvedSources →
      calculateFilesChecksum env args resolvedSources = .error err →
      dockerfileInstructionDependencies env args fuel d ind (.AddCommand text sources)
          false false = .error err ∧
      dockerfileInstructionDependencies env args fuel d ind (.CopyCommand text "" sources)
          false false = .error err) := by
  refine ⟨?_, ?_, ?_, ?_, ?_, ?_, ?_, ?_, ?_, ?_⟩
  · intro before after stage lists onb dsk err hstages hbefore hfail
    exact GetDependencies_stage_error env args fuel ds before after stage lists onb dsk err
      hstages hbefore hfail
  · intro digest ds1 h
    unfold GetDependencies at h
    cases ht : targetDependencies env args fuel ds with
    | error e => simp [ht] at h
    | ok r =>
      obtain ⟨l, e⟩ := r
      simp only [ht, Except.ok.injEq, Prod.mk.injEq] at h
      obtain ⟨own, onb, final, hfirst, _, _⟩ := targetDependencies_ok env args fuel ds e l ht
      rw [h.2] at hfirst
      obtain ⟨h1, _, h3⟩ := firstPass_stage env args fuel ds.dockerStages ds ds1 own onb hfirst
      exact ⟨own, onb, hfirst, h1, h3⟩
  · intro d ind stage err h
    simp only [stageDependencies, h]
  · intro d d1 ind stage rb first instruction later cs err hbase hlist hfirst hfail
    apply stageDependencies_inherited_error env args fuel d ind stage rb err hbase
    rw [hlist, inheritedContributions_append, hfirst]
    simp only [inheritedContributions, hfail]
  · intro d d1 d2 ind stage rb inherited first cmd later cs err hbase hinh hcmds hfirst hfail
    apply stageDependencies_own_error env args fuel d d1 ind stage rb inherited err hbase hinh
    rw [hcmds, ownContributions_append, hfirst]
    simp only [ownContributions, hfail]
  · intro d ind text isOnb isBase err h
    simp only [dockerfileInstructionDependencies, instructionDependenciesBody, h]
  · intro d ind expression isBase err h
    have h1 : ∀ b, dockerfileOnBuildInstructionDependencies env args (fuel + 1) d ind
        expression b = .error err := by
      intro b
      simp only [dockerfileOnBuildInstructionDependencies, h]
    refine ⟨h1 isBase, ?_⟩
    rw [dockerfileInstructionDependencies]
    simp only [instructionDependenciesBody]
    rw [h1 false]
  · intro wildcards err h
    simp only [calculateFilesChecksum, calculateFilesChecksumWithGit, h]
  · intro wildcards checksum err h1 h2
    simp only [calculateFilesChecksum, calculateFilesChecksumWithGit, h1, h2]
  · intro d ind text sources resolvedSources err h1 h2
    have hres : resolveValueFunc env d ind false false =
        ShlexProcessWordWithStageArgsAndEnvs env d ind := by
      funext value
      simp [resolveValueFunc]
    constructor
    · simp only [dockerfileInstructionDependencies, instructionDependenciesBody,
        resolveSourcesFunc_eq, hres, h1, List.nil_append, h2]
    · simp only [dockerfileInstructionDependencies, instructionDependenciesBody,
        resolveSourcesFunc_eq, hres, h1, List.nil_append, h2, if_true]

/-- C23 on `brokenSecondStage` with the first stage as the target: the embedded
instruction of the second stage does not parse, and no digest is returned. -/
theorem C23_no_partial_digest_witness :
    firstPass sampleEnv sampleArgs 1 [⟨"", "alpine", []⟩] 0
        (sampleEngine brokenSecondStage [] 0) [] [] =
      .ok (([["alpine"]], [[]]), sampleEngine brokenSecondStage [] 0) ∧
    stageDependencies sampleEnv sampleArgs 1 (sampleEngine brokenSecondStage [] 0) 1
        ⟨"", "busybox", [.OnbuildCommand "BOGUS"]⟩ = .error (.error "unknown instruction") ∧
    GetDependencies sampleEnv sampleArgs 1 (sampleEngine brokenSecondStage [] 0) =
      .error (.error "unknown instruction") :=
  ⟨rfl, rfl,
    (C23_no_partial_digest sampleEnv sampleArgs 1 (sampleEngine brokenSecondStage [] 0)).1
      [⟨"", "alpine", []⟩] [] ⟨"", "busybox", [.OnbuildCommand "BOGUS"]⟩ [["alpine"]] [[]]
      (sampleEngine brokenSecondStage [] 0) (.error "unknown instruction") rfl rfl rfl⟩

/-! ### The second run on the engine the first run left -/

/-- The description `FROM alpine`, `ARG A=$B`, `ARG B=x` is not stable: with the binding
`B=x` that the first run defines later already in scope, the first instruction yields
`ARG A=x` instead of `ARG A=`. -/
theorem lateBinding_not_stable :
    ¬ StableStage sampleEnv sampleArgs 1 lateBindingEngine lateBindingAfterRun 0
      ⟨"", "alpine", [.ArgCommand [⟨"A", some "$B"⟩], .ArgCommand [⟨"B", some "x"⟩]]⟩ := by
  intro h
  obtain ⟨_, ⟨t1, h1, _⟩, _⟩ := h "alpine" rfl
  have h2 : dockerfileInstructionDependencies sampleEnv sampleArgs 1
      (withLaterBindings lateBindingEngine lateBindingAfterRun 0) 0
      (.ArgCommand [⟨"A", some "$B"⟩]) false false =
      .ok ((["ARG A=x"], []), setDockerStageArg
        (withLaterBindings lateBindingEngine lateBindingAfterRun 0) 0 "A" "x") := rfl
  rw [h2] at h1
  simp only [Except.ok.injEq, Prod.mk.injEq] at h1
  exact absurd h1.1.1 (by decide)

end Werf
